import Mathlib

/-! # steamcmd.appInfoFormat: text dump to JSON document

A shallow embedding of `src/steamcmd/steamcmd.go`.

Go strings are modelled as `List Char`: the texts considered are valid UTF-8,
one `Char` per rune.  Byte offsets (what `strings.LastIndex` returns) are
recovered from `Char.utf8Size`.  The patterns given to `strings.LastIndex`
and `strings.Replace` are ASCII, so matching on runes and matching on bytes
find the same occurrences.
-/

namespace Steamcmd

/-! ## Characters used by the source -/

/-- The opening curly brace. -/
def lbrace : Char := '\x7b'
/-- The closing curly brace. -/
def rbrace : Char := '\x7d'
/-- The double quote. -/
def quote : Char := '"'
/-- The newline character. -/
def nl : Char := '\n'
/-- The tab character. -/
def tab : Char := '\t'
/-- The backslash. -/
def bslash : Char := '\\'

/-! ## String helpers: `reverse`, `trimLength`, `strings.LastIndex`, `strings.Replace` -/

/-- Length in bytes of the UTF-8 encoding of a text (Go's `len(s)`). -/
def byteLen : List Char → Nat
  | [] => 0
  | c :: cs => c.utf8Size + byteLen cs

/-- Exchange the runes at positions `i` and `j` (the loop body `r[i], r[j] = r[j], r[i]`). -/
def swapAt (r : List Char) (i j : Nat) : List Char :=
  match r.get? i, r.get? j with
  | some a, some b => (r.set i b).set j a
  | _, _ => r

/-- The loop of `reverse`: `steps` iterations remain, `i` counts up and `j` counts down. -/
def reverseLoop : Nat → Nat → Nat → List Char → List Char
  | 0, _, _, r => r
  | steps + 1, i, j, r => reverseLoop steps (i + 1) (j - 1) (swapAt r i j)

/-- Embedding of `reverse`: `for i, j := 0, len(r)-1; i < len(r)/2; i, j = i+1, j-1` swaps
`r[i]` and `r[j]`; the loop runs `len(r)/2` times. -/
def reverse (s : List Char) : List Char :=
  reverseLoop (s.length / 2) 0 (s.length - 1) s

/-- Embedding of `trimLength`: the first `i` runes when the text has more than `i` runes,
the text itself otherwise. -/
def trimLength (s : List Char) (i : Nat) : List Char :=
  if s.length > i then s.take i else s

/-- Scan for `strings.LastIndex` with a one-character pattern: `off` is the byte offset of
the head of the remaining text, `acc` the offset of the last occurrence seen so far. -/
def lastIndexFrom (c : Char) : List Char → Nat → Int → Int
  | [], _, acc => acc
  | x :: xs, off, acc => lastIndexFrom c xs (off + x.utf8Size) (if x = c then (off : Int) else acc)

/-- Embedding of `strings.LastIndex(s, c)` for a one-character ASCII pattern: the byte
offset of the last occurrence, or `-1`. -/
def lastIndex (c : Char) (s : List Char) : Int :=
  lastIndexFrom c s 0 (-1)

/-- Worker of `strings.Replace`: `skip` runes of a matched occurrence are still to be
dropped; otherwise the pattern is tried at the head of the remaining text. -/
def replaceGo (old new : List Char) : Nat → List Char → List Char
  | _, [] => []
  | skip + 1, _ :: cs => replaceGo old new skip cs
  | 0, c :: cs =>
    if old.isPrefixOf (c :: cs) then new ++ replaceGo old new (old.length - 1) cs
    else c :: replaceGo old new 0 cs

/-- Embedding of `strings.Replace(s, old, new, -1)` for a non-empty pattern: every
non-overlapping occurrence, found left to right, is replaced. -/
def replaceAll (old new : List Char) (s : List Char) : List Char :=
  replaceGo old new 0 s

/-! ## The two trimming steps and the rewrite passes of `appInfoFormat` -/

/-- Lines 81-85 of `appInfoFormat`: remove everything before the first opening curly. -/
def trimFront (appInfo : List Char) : List Char :=
  let firstIndex := lastIndex lbrace (reverse appInfo)
  if firstIndex > 0 then reverse (trimLength (reverse appInfo) (firstIndex + 1).toNat)
  else appInfo

/-- Lines 87-91 of `appInfoFormat`: remove everything after the last closing curly. -/
def trimBack (appInfo : List Char) : List Char :=
  let lastIdx := lastIndex rbrace appInfo
  if lastIdx > 0 then trimLength appInfo (lastIdx + 1).toNat else appInfo

/-- The candidate payload: the text after both trimming steps (line 94, `result := appInfo`). -/
def appInfoPayload (appInfo : List Char) : List Char :=
  trimBack (trimFront appInfo)

/-- Line 97: remove tabs. -/
def removeTabs (s : List Char) : List Char := replaceAll [tab] [] s
/-- Line 100: a colon between a closing quote and the newline before an opening brace. -/
def colonNested (s : List Char) : List Char :=
  replaceAll [quote, nl, lbrace] [quote, ':', nl, lbrace] s
/-- Line 101: a colon between two adjacent quotes. -/
def colonScalar (s : List Char) : List Char :=
  replaceAll [quote, quote] [quote, ':', quote] s
/-- Line 104: a comma after a closing brace that is followed by a newline and a quote. -/
def commaBrace (s : List Char) : List Char :=
  replaceAll [rbrace, nl, quote] [rbrace, ',', nl, quote] s
/-- Line 105: a comma after a quote that is followed by a newline and a quote. -/
def commaQuote (s : List Char) : List Char :=
  replaceAll [quote, nl, quote] [quote, ',', nl, quote] s
/-- Line 108: remove newlines. -/
def removeNewlines (s : List Char) : List Char := replaceAll [nl] [] s

/-- Lines 96-108 of `appInfoFormat`: the six replacement passes, in the order of the source. -/
def appInfoRewrite (payload : List Char) : List Char :=
  removeNewlines (commaQuote (commaBrace (colonScalar (colonNested (removeTabs payload)))))

/-! ## JSON values and Go maps -/

mutual
/-- A decoded JSON value, as `json.Unmarshal` stores it in an `interface{}`.  A number is
the `float64` of the literal, held as the spelling that `json.Marshal` gives it: `1.0` and
`1` are the same number `1`. -/
inductive JVal where
  | null : JVal
  | bool : Bool → JVal
  | num : List Char → JVal
  | str : List Char → JVal
  | arr : JList → JVal
  | obj : JMembers → JVal
  deriving DecidableEq
/-- The elements of a decoded array (`[]interface{}`). -/
inductive JList where
  | nil : JList
  | cons : JVal → JList → JList
  deriving DecidableEq
/-- The entries of a decoded object (`map[string]interface{}`), one per key. -/
inductive JMembers where
  | nil : JMembers
  | cons : List Char → JVal → JMembers → JMembers
  deriving DecidableEq
end

/-- The keys of a map, in the order of the representation. -/
def JMembers.keys : JMembers → List (List Char)
  | .nil => []
  | .cons k _ m => k :: m.keys

/-- The entries of a map as a list of pairs. -/
def JMembers.toList : JMembers → List (List Char × JVal)
  | .nil => []
  | .cons k v m => (k, v) :: m.toList

/-- Lookup `m[k]`. -/
def JMembers.find (k : List Char) : JMembers → Option JVal
  | .nil => none
  | .cons k1 v m => if k1 = k then some v else m.find k

/-- The assignment `m[k] = v` of the decoder: a key that is present gets the new value, a
new key gets a new entry. -/
def mapSet (k : List Char) (v : JVal) : JMembers → JMembers
  | .nil => .cons k v .nil
  | .cons k1 v1 m => if k1 = k then .cons k1 v m else .cons k1 v1 (mapSet k v m)

/-- Append an element to a decoded array. -/
def JList.snoc : JList → JVal → JList
  | .nil, v => .cons v .nil
  | .cons a l, v => .cons a (l.snoc v)

/-! ## `encoding/json`: the grammar accepted by `json.Unmarshal`

The decoder first validates the whole text against the JSON grammar and then stores the
value.  The model is a recursive-descent reading of the same grammar; `fuel` bounds the
recursion and is set from the length of the text; the nesting of objects and arrays is
limited to `maxNestingDepth`, as in the scanner of `encoding/json`. -/

/-- JSON whitespace: space, tab, carriage return, newline. -/
def isWs (c : Char) : Bool := c = ' ' || c = '\t' || c = '\r' || c = '\n'

/-- Drop leading whitespace. -/
def skipWs : List Char → List Char
  | [] => []
  | c :: cs => if isWs c then skipWs cs else c :: cs

/-- Value of a hexadecimal digit. -/
def hexVal (c : Char) : Option Nat :=
  if '0' ≤ c ∧ c ≤ '9' then some (c.toNat - 48)
  else if 'a' ≤ c ∧ c ≤ 'f' then some (c.toNat - 87)
  else if 'A' ≤ c ∧ c ≤ 'F' then some (c.toNat - 55)
  else none

/-- Four hexadecimal digits at the head of the text (`getu4`, after the `\u`). -/
def hex4 : List Char → Option (Nat × List Char)
  | a :: b :: c :: d :: r =>
    match hexVal a, hexVal b, hexVal c, hexVal d with
    | some x, some y, some z, some w => some (4096 * x + 256 * y + 16 * z + w, r)
    | _, _, _, _ => none
  | _ => none

/-- The rune of a `\uXXXX` escape whose value is `n`, with the text `r` after it: a
surrogate pair spelled as two escapes is one rune, a lone surrogate is U+FFFD. -/
def unescapeU (n : Nat) (r : List Char) : Char × List Char :=
  if 0xD800 ≤ n ∧ n < 0xE000 then
    match r with
    | b :: u :: r1 =>
      if b = bslash ∧ u = 'u' then
        match hex4 r1 with
        | some (m, r2) =>
          if n < 0xDC00 ∧ 0xDC00 ≤ m ∧ m < 0xE000 then
            (Char.ofNat ((n - 0xD800) * 1024 + (m - 0xDC00) + 0x10000), r2)
          else (Char.ofNat 0xFFFD, r)
        | none => (Char.ofNat 0xFFFD, r)
      else (Char.ofNat 0xFFFD, r)
    | _ => (Char.ofNat 0xFFFD, r)
  else (Char.ofNat n, r)

/-- The rune of a one-letter escape. -/
def escapeChar (e : Char) : Option Char :=
  if e = quote then some quote
  else if e = bslash then some bslash
  else if e = '/' then some '/'
  else if e = 'b' then some (Char.ofNat 8)
  else if e = 'f' then some (Char.ofNat 12)
  else if e = 'n' then some '\n'
  else if e = 'r' then some '\r'
  else if e = 't' then some '\t'
  else none

/-- Read a string literal after its opening quote: the decoded runes and the text after the
closing quote.  A rune below U+0020 is rejected, as is an unknown escape. -/
def parseStr : Nat → List Char → Option (List Char × List Char)
  | 0, _ => none
  | _ + 1, [] => none
  | fuel + 1, c :: cs =>
    if c = quote then some ([], cs)
    else if c = bslash then
      match cs with
      | [] => none
      | e :: r =>
        if e = 'u' then
          match hex4 r with
          | none => none
          | some (n, r1) =>
            match parseStr fuel (unescapeU n r1).2 with
            | none => none
            | some (w, rest) => some ((unescapeU n r1).1 :: w, rest)
        else
          match escapeChar e with
          | none => none
          | some x =>
            match parseStr fuel r with
            | none => none
            | some (w, rest) => some (x :: w, rest)
    else if c.toNat < 0x20 then none
    else
      match parseStr fuel cs with
      | none => none
      | some (w, rest) => some (c :: w, rest)

/-- A decimal digit. -/
def isDigit (c : Char) : Bool := '0' ≤ c && c ≤ '9'

/-- The longest run of digits at the head of the text, and the text after it. -/
def spanDigits : List Char → List Char × List Char
  | [] => ([], [])
  | c :: cs => if isDigit c then ((spanDigits cs).1.cons c, (spanDigits cs).2) else ([], c :: cs)

/-- Value of a run of digits. -/
def natOfDigits (ds : List Char) : Nat :=
  ds.foldl (fun a c => 10 * a + (c.toNat - 48)) 0

/-- Value of the digits of an exponent as `strconv` reads them: accumulation stops once the
value has reached 10000. -/
def expOfDigits (ds : List Char) : Nat :=
  ds.foldl (fun e c => if e < 10000 then 10 * e + (c.toNat - 48) else e) 0

/-- The least magnitude that `strconv.ParseFloat` rounds to infinity: half an ulp above the
largest `float64`. -/
def floatLimit : Nat := 2 ^ 1024 - 2 ^ 970

/-- Whether a number literal converts to a `float64` without a range error. -/
def floatInRange (intPart frac : List Char) (expNeg : Bool) (expDigits : List Char) : Bool :=
  let mant := natOfDigits (intPart ++ frac)
  let e := expOfDigits expDigits
  if mant = 0 then true
  else if expNeg then mant < floatLimit * 10 ^ (e + frac.length)
  else if frac.length ≤ e then mant * 10 ^ (e - frac.length) < floatLimit
  else mant < floatLimit * 10 ^ (frac.length - e)

/-- The integer part of a number: a single `0`, or a non-zero digit and further digits. -/
def parseInt : List Char → Option (List Char × List Char)
  | [] => none
  | c :: cs =>
    if c = '0' then some ([c], cs)
    else if isDigit c then some (c :: (spanDigits cs).1, (spanDigits cs).2)
    else none

/-- The optional fraction: a dot and at least one digit. -/
def parseFrac : List Char → Option (List Char × List Char)
  | [] => some ([], [])
  | c :: cs =>
    if c = '.' then
      if (spanDigits cs).1 = [] then none else some (spanDigits cs)
    else some ([], c :: cs)

/-- The optional exponent: `e` or `E`, an optional sign, at least one digit.  The result is
the spelling of the marker and sign, whether the sign is minus, the digits, and the rest. -/
def parseExp : List Char → Option (List Char × Bool × List Char × List Char)
  | [] => some ([], false, [], [])
  | c :: cs =>
    if c = 'e' ∨ c = 'E' then
      match cs with
      | [] => none
      | d :: ds =>
        if d = '+' ∨ d = '-' then
          if (spanDigits ds).1 = [] then none
          else some ([c, d], decide (d = '-'), (spanDigits ds).1, (spanDigits ds).2)
        else
          if (spanDigits cs).1 = [] then none
          else some ([c], false, (spanDigits cs).1, (spanDigits cs).2)
    else some ([], false, [], c :: cs)

/-- Read the unsigned part of a number literal; `none` when it is malformed or out of the
range of `float64`. -/
def parseUnsigned (s : List Char) : Option (List Char × List Char) :=
  match parseInt s with
  | none => none
  | some (ip, r1) =>
    match parseFrac r1 with
    | none => none
    | some (fr, r2) =>
      match parseExp r2 with
      | none => none
      | some (mark, neg, ed, r3) =>
        if floatInRange ip fr neg ed then
          some (ip ++ (if fr = [] then [] else '.' :: fr) ++ mark ++ ed, r3)
        else none

/-- Read a number literal: its spelling and the text after it. -/
def parseNum : List Char → Option (List Char × List Char)
  | [] => none
  | c :: cs =>
    if c = '-' then
      match parseUnsigned cs with
      | none => none
      | some (lit, r) => some (c :: lit, r)
    else parseUnsigned (c :: cs)

/-! ### Numbers: the `float64` of a literal and its spelling

The decoder converts a number literal with `strconv.ParseFloat` (the nearest `float64`, ties
to the even mantissa).  `json.Marshal` writes a `float64` as the shortest decimal that is
read back as the same `float64`, and `prettyjson` prints that spelling unchanged.  A
`float64` is held in the model as that spelling, so two literals of the same `float64` give
the same leaf. -/

/-- The digits of a number. -/
def digitsOf (c : Nat) : List Char := Nat.toDigits 10 c

/-- The largest `k` with `2 ^ k ≤ a / b`, for positive `a` and `b`. -/
def floorLog2 (a b : Nat) : Int :=
  let k : Int := ((Nat.toDigits 2 a).length : Int) - ((Nat.toDigits 2 b).length : Int)
  if b * 2 ^ k.toNat ≤ a * 2 ^ (-k).toNat then k else k - 1

/-- The largest `k` with `10 ^ k ≤ a / b`, for positive `a` and `b`. -/
def floorLog10 (a b : Nat) : Int :=
  let k : Int := ((digitsOf a).length : Int) - ((digitsOf b).length : Int)
  if b * 10 ^ k.toNat ≤ a * 10 ^ (-k).toNat then k else k - 1

/-- The `float64` nearest to the positive rational `a / b`, ties to the even mantissa
(`strconv.ParseFloat`): a mantissa `m < 2 ^ 53` and an exponent `e ≥ -1074` with value
`m * 2 ^ e`, where `2 ^ 52 ≤ m` unless `e = -1074`.  The mantissa `0` is an underflow to
zero. -/
def roundFloat (a b : Nat) : Nat × Int :=
  let e : Int := max (floorLog2 a b - 52) (-1074)
  let num : Nat := a * 2 ^ (-e).toNat
  let den : Nat := b * 2 ^ e.toNat
  let m0 : Nat := num / den
  let r : Nat := num % den
  let m : Nat := if den < 2 * r ∨ (2 * r = den ∧ m0 % 2 = 1) then m0 + 1 else m0
  if m = 2 ^ 53 then (2 ^ 52, e + 1) else (m, e)

/-- The decimal `c * 10 ^ p` with `n` significant digits that `strconv` prints for the
`float64` with mantissa `m` and exponent `e`, if `n` digits are enough: the nearer of the
two neighbours of the value with `n` digits among those that are read back as the same
`float64`.  The value and the ends of its rounding interval are `4 * m`, `lo` and `hi` in
units of `2 ^ (e - 2)`; one unit of `c` weighs `wc` and one unit of `2 ^ (e - 2)` weighs
`wv` on a common scale. -/
def shortestAt (m : Nat) (e : Int) (n : Nat) : Option (Nat × Int) :=
  let hi : Nat := 4 * m + 2
  let lo : Nat := if m = 2 ^ 52 ∧ e ≠ -1074 then 4 * m - 1 else 4 * m - 2
  let incl : Bool := m % 2 = 0
  let p : Int := floorLog10 (m * 2 ^ e.toNat) (2 ^ (-e).toNat) - (n : Int) + 1
  let wc : Nat := 10 ^ p.toNat * 2 ^ (-(e - 2)).toNat
  let wv : Nat := 2 ^ (e - 2).toNat * 10 ^ (-p).toNat
  let c : Nat := 4 * m * wv / wc
  let okl : Bool := if incl then decide (lo * wv ≤ c * wc) else decide (lo * wv < c * wc)
  let okh : Bool := if incl then decide ((c + 1) * wc ≤ hi * wv) else decide ((c + 1) * wc < hi * wv)
  if okl ∧ okh then
    if 2 * (4 * m * wv) < (2 * c + 1) * wc then some (c, p)
    else if (2 * c + 1) * wc < 2 * (4 * m * wv) then some (c + 1, p)
    else some (if c % 2 = 0 then c else c + 1, p)
  else if okl then some (c, p)
  else if okh then some (c + 1, p)
  else none

/-- Remove the trailing zeros of a decimal `c * 10 ^ p`. -/
def stripZeros : Nat → Nat → Int → Nat × Int
  | 0, c, p => (c, p)
  | fuel + 1, c, p => if c ≠ 0 ∧ c % 10 = 0 then stripZeros fuel (c / 10) (p + 1) else (c, p)

/-- The shortest decimal that is read back as the `float64` with mantissa `m` and exponent
`e` (`strconv.FormatFloat` with precision `-1`): its digits as a number and its power of
ten.  Seventeen digits are always enough. -/
def shortestDecimal (m : Nat) (e : Int) : Nat × Int :=
  match (List.range 17).findSome? (fun i => shortestAt m e (i + 1)) with
  | some (c, p) => stripZeros 17 c p
  | none => (0, 0)

/-- The positional spelling (`%f`) of the decimal with the digits `ds` and the value
`0.ds * 10 ^ dp`. -/
def spellFixed (ds : List Char) (dp : Int) : List Char :=
  if dp ≤ 0 then '0' :: '.' :: (List.replicate (-dp).toNat '0' ++ ds)
  else if (ds.length : Int) ≤ dp then ds ++ List.replicate (dp.toNat - ds.length) '0'
  else ds.take dp.toNat ++ '.' :: ds.drop dp.toNat

/-- The exponent spelling (`%e`) of the decimal with the digits `ds` and the value
`0.ds * 10 ^ dp`, with the exponent as `encoding/json` writes it: a sign and at least two
digits, but a single digit after a minus sign when the first of two would be a zero. -/
def spellExp (ds : List Char) (dp : Int) : List Char :=
  let x : Int := dp - 1
  let front : List Char := ds.take 1 ++ (if 1 < ds.length then '.' :: ds.drop 1 else [])
  let xs : List Char := digitsOf x.natAbs
  front ++ 'e' :: (if x < 0 then '-' :: xs else '+' :: (if x < 10 then '0' :: xs else xs))

/-- The spelling that `json.Marshal` gives the `float64` with sign `neg`, mantissa `m` and
exponent `e`: the shortest decimal that denotes it, in exponent form when the magnitude is
below the `float64` of `1e-6` or at least `1e21`. -/
def spellFloat (neg : Bool) (m : Nat) (e : Int) : List Char :=
  let sign : List Char := if neg then ['-'] else []
  if m = 0 then sign ++ ['0']
  else
    let ms : Nat := (roundFloat 1 (10 ^ 6)).1
    let es : Int := (roundFloat 1 (10 ^ 6)).2
    let small : Bool := decide (m * 2 ^ (e - es).toNat < ms * 2 ^ (es - e).toNat)
    let large : Bool := decide (10 ^ 21 * 2 ^ (-e).toNat ≤ m * 2 ^ e.toNat)
    let ds : List Char := digitsOf (shortestDecimal m e).1
    let dp : Int := (shortestDecimal m e).2 + ds.length
    if small ∨ large then sign ++ spellExp ds dp else sign ++ spellFixed ds dp

/-- The number that the decoder stores for a literal (`strconv.ParseFloat` of the literal),
in the spelling of `json.Marshal`.  The literal is a sign, digits, a fraction and an
exponent, as `parseNum` accepts it. -/
def floatText (lit : List Char) : List Char :=
  let neg : Bool := lit.head? = some '-'
  let body : List Char := if neg then lit.drop 1 else lit
  match parseInt body with
  | none => lit
  | some (ip, r1) =>
    match parseFrac r1 with
    | none => lit
    | some (fr, r2) =>
      match parseExp r2 with
      | none => lit
      | some (_, eneg, ed, _) =>
        let mant : Nat := natOfDigits (ip ++ fr)
        let x : Int :=
          (if eneg then -(expOfDigits ed : Int) else (expOfDigits ed : Int)) - fr.length
        if mant = 0 then spellFloat neg 0 0
        else
          spellFloat neg (roundFloat (mant * 10 ^ x.toNat) (10 ^ (-x).toNat)).1
            (roundFloat (mant * 10 ^ x.toNat) (10 ^ (-x).toNat)).2

/-- Read the keyword `kw` at the head of the text. -/
def parseLit (kw : List Char) (s : List Char) : Option (List Char) :=
  if kw.isPrefixOf s then some (s.drop kw.length) else none

/-- The limit of `encoding/json` on nesting (`maxNestingDepth`): the scanner fails with
`exceeded max depth` when an opening brace or bracket makes more than this many objects
and arrays open at once. -/
def maxNestingDepth : Nat := 10000

mutual
/-- Read one JSON value at the head of the text (no leading whitespace): the value and the
text after it.  `depth` is the number of objects and arrays that may still be opened: an
opening brace or bracket is refused when it is zero. -/
def parseValue : Nat → Nat → List Char → Option (JVal × List Char)
  | 0, _, _ => none
  | _ + 1, _, [] => none
  | fuel + 1, depth, c :: cs =>
    if c = lbrace then
      if depth = 0 then none
      else
        match skipWs cs with
        | [] => none
        | d :: ds =>
          if d = rbrace then some (.obj .nil, ds)
          else
            match parseMembers fuel (depth - 1) (d :: ds) .nil with
            | none => none
            | some (m, r) => some (.obj m, r)
    else if c = '[' then
      if depth = 0 then none
      else
        match skipWs cs with
        | [] => none
        | d :: ds =>
          if d = ']' then some (.arr .nil, ds)
          else
            match parseElements fuel (depth - 1) (d :: ds) .nil with
            | none => none
            | some (l, r) => some (.arr l, r)
    else if c = quote then
      match parseStr (cs.length + 1) cs with
      | none => none
      | some (w, r) => some (.str w, r)
    else if c = 't' then (parseLit ['r', 'u', 'e'] cs).map (fun r => (.bool true, r))
    else if c = 'f' then (parseLit ['a', 'l', 's', 'e'] cs).map (fun r => (.bool false, r))
    else if c = 'n' then (parseLit ['u', 'l', 'l'] cs).map (fun r => (.null, r))
    else
      match parseNum (c :: cs) with
      | none => none
      | some (lit, r) => some (.num (floatText lit), r)
/-- Read the members of an object from the opening quote of a key up to and including the
closing brace; `acc` is the map built so far, `depth` the number of objects and arrays that
a value of a member may still open. -/
def parseMembers : Nat → Nat → List Char → JMembers → Option (JMembers × List Char)
  | 0, _, _, _ => none
  | _ + 1, _, [], _ => none
  | fuel + 1, depth, c :: cs, acc =>
    if c = quote then
      match parseStr (cs.length + 1) cs with
      | none => none
      | some (k, r1) =>
        match skipWs r1 with
        | [] => none
        | d :: r2 =>
          if d = ':' then
            match parseValue fuel depth (skipWs r2) with
            | none => none
            | some (v, r3) =>
              match skipWs r3 with
              | [] => none
              | e :: r4 =>
                if e = ',' then parseMembers fuel depth (skipWs r4) (mapSet k v acc)
                else if e = rbrace then some (mapSet k v acc, r4)
                else none
          else none
    else none
/-- Read the elements of an array from the first element up to and including the closing
bracket; `acc` holds the elements read so far, `depth` is the number of objects and arrays
that an element may still open. -/
def parseElements : Nat → Nat → List Char → JList → Option (JList × List Char)
  | 0, _, _, _ => none
  | fuel + 1, depth, s, acc =>
    match parseValue fuel depth s with
    | none => none
    | some (v, r1) =>
      match skipWs r1 with
      | [] => none
      | e :: r2 =>
        if e = ',' then parseElements fuel depth (skipWs r2) (acc.snoc v)
        else if e = ']' then some (acc.snoc v, r2)
        else none
end

/-- One complete JSON value with surrounding whitespace and nothing else (`checkValid`
followed by the decoding of the value), nested at most `maxNestingDepth` deep. -/
def jsonDecode (s : List Char) : Option JVal :=
  match parseValue (s.length + 1) maxNestingDepth (skipWs s) with
  | none => none
  | some (v, r) => if skipWs r = [] then some v else none

/-- Embedding of `json.Unmarshal(data, &m)` for `m` of type `map[string]interface{}`:
`none` is a non-nil error.  An object fills the map; the literal `null` is accepted and
leaves the map nil (`JVal.null`); any other value is a type error. -/
def jsonUnmarshalMap (s : List Char) : Option JVal :=
  match jsonDecode s with
  | some (.obj m) => some (.obj m)
  | some .null => some .null
  | _ => none

/-- Embedding of `isJSON`. -/
def isJSON (s : List Char) : Bool := (jsonUnmarshalMap s).isSome

/-! ## `prettyjson.Marshal`: the emitted document

`prettyjson.Marshal` encodes the map with `json.Marshal`, decodes the bytes again and prints
the value, visiting the keys of every object in the order of `sort.Strings`.  The printed
document is modelled as the tree in the order in which it is printed, with the number
leaves in the spelling of `json.Marshal`; colour codes, the indentation and the quoting of
keys and string leaves are left out. -/

/-- The order of `sort.Strings` on valid UTF-8 texts: lexicographic by code point, strict. -/
def strLt : List Char → List Char → Bool
  | [], [] => false
  | [], _ :: _ => true
  | _ :: _, [] => false
  | a :: as, b :: bs => if a.toNat < b.toNat then true else if b.toNat < a.toNat then false
    else strLt as bs

/-- Insert an entry into entries that are ascending by key. -/
def insertSorted (k : List Char) (v : JVal) : JMembers → JMembers
  | .nil => .cons k v .nil
  | .cons k1 v1 m => if strLt k k1 then .cons k v (.cons k1 v1 m) else .cons k1 v1 (insertSorted k v m)

mutual
/-- The document printed for a value: every object lists its keys in ascending order.  A
number leaf already has the spelling that is printed. -/
def prettyDoc : JVal → JVal
  | .arr l => .arr (prettyList l)
  | .obj m => .obj (prettyMembers m)
  | v => v
/-- The printed elements of an array, in order. -/
def prettyList : JList → JList
  | .nil => .nil
  | .cons v l => .cons (prettyDoc v) (prettyList l)
/-- The printed entries of an object, sorted by key. -/
def prettyMembers : JMembers → JMembers
  | .nil => .nil
  | .cons k v m => insertSorted k (prettyDoc v) (prettyMembers m)
end

/-! ## `appInfoFormat` -/

/-- The map `raw` of `appInfoFormat` (lines 117-119): the rewritten payload decoded into a
`map[string]interface{}`; `none` when decoding fails. -/
def appInfoRaw (appInfo : List Char) : Option JVal :=
  jsonUnmarshalMap (appInfoRewrite (appInfoPayload appInfo))

/-- Embedding of `appInfoFormat`.  `none` is the exit through `log.Fatal` when `isJSON`
rejects the rewritten text; otherwise the text is decoded into `raw` (an error of this
second decoding would be ignored and leave `raw` nil) and the pretty-printed document is
returned.  The printed text is never empty, so the check of line 128 does not fire. -/
def appInfoFormat (appInfo : List Char) : Option JVal :=
  let result := appInfoRewrite (appInfoPayload appInfo)
  if isJSON result then
    match jsonUnmarshalMap result with
    | some raw => some (prettyDoc raw)
    | none => some (prettyDoc .null)
  else none

/-! ## Well-formed dumps

The shape of the text that `steamcmd +app_info_print` writes: an object is an opening
brace, members, a closing brace; a member is a quoted key followed either by a quoted value
on the same line or, on the next line, by an object.  Lines may be indented by tabs. -/

/-- The members of an object of a dump, with the layout of each line: the number of tabs
before a key, between a key and its value, before an opening and a closing brace, and
whether a newline follows the opening brace. -/
inductive Dump where
  | nil : Dump
  | scalar (indent : Nat) (key : List Char) (sep : Nat) (value : List Char) (rest : Dump) : Dump
  | nested (indent : Nat) (key : List Char) (openIndent : Nat) (openNl : Bool) (sub : Dump)
      (closeIndent : Nat) (rest : Dump) : Dump
  deriving DecidableEq

/-- A run of `n` tabs. -/
def tabs (n : Nat) : List Char := List.replicate n tab

/-- What follows an opening brace: a newline or nothing. -/
def optNl (b : Bool) : List Char := if b then [nl] else []

/-- The text of the members: every member is followed by a newline. -/
def Dump.text : Dump → List Char
  | .nil => []
  | .scalar i k s v rest =>
    tabs i ++ quote :: (k ++ quote :: (tabs s ++ quote :: (v ++ quote :: nl :: rest.text)))
  | .nested i k oi onl sub ci rest =>
    tabs i ++ quote :: (k ++ quote :: nl :: (tabs oi ++ lbrace :: (optNl onl ++
      (sub.text ++ (tabs ci ++ rbrace :: nl :: rest.text)))))

/-- The text of a dump payload: an opening brace, optionally a newline, the members, and
the closing brace after `closeIndent` tabs. -/
def dumpText (openNl : Bool) (d : Dump) (closeIndent : Nat) : List Char :=
  lbrace :: (optNl openNl ++ (d.text ++ (tabs closeIndent ++ [rbrace])))

/-- The keys of the members, in the order of the dump. -/
def Dump.keys : Dump → List (List Char)
  | .nil => []
  | .scalar _ k _ _ rest => k :: rest.keys
  | .nested _ k _ _ _ _ rest => k :: rest.keys

/-- A key or value without double quote, backslash or rune below U+0020 (which excludes tab
and newline). -/
def cleanWord (w : List Char) : Prop := ∀ c ∈ w, c ≠ quote ∧ c ≠ bslash ∧ ¬ c.toNat < 0x20

/-- Well-formedness of a dump: keys are non-empty and distinct within each object, keys and
values are clean. -/
def Dump.WF : Dump → Prop
  | .nil => True
  | .scalar _ k _ v rest => k ≠ [] ∧ cleanWord k ∧ cleanWord v ∧ k ∉ rest.keys ∧ rest.WF
  | .nested _ k _ _ sub _ rest => k ≠ [] ∧ cleanWord k ∧ k ∉ rest.keys ∧ sub.WF ∧ rest.WF

/-- The tree of a dump: a scalar member is a leaf under its key, a nested member an object
holding its own members. -/
def Dump.tree : Dump → JMembers
  | .nil => .nil
  | .scalar _ k _ v rest => .cons k (.str v) rest.tree
  | .nested _ k _ _ sub _ rest => .cons k (.obj sub.tree) rest.tree

/-- Nesting depth of the objects below the members of a dump. -/
def Dump.depth : Dump → Nat
  | .nil => 0
  | .scalar _ _ _ _ rest => rest.depth
  | .nested _ _ _ _ sub _ rest => max (sub.depth + 1) rest.depth

mutual
/-- Nesting depth of the objects of a value: a leaf has depth 0, an object one more than
its deepest entry. -/
def JVal.depth : JVal → Nat
  | .obj m => m.depth + 1
  | .arr l => l.depth
  | _ => 0
/-- Depth of the deepest element. -/
def JList.depth : JList → Nat
  | .nil => 0
  | .cons v l => max v.depth l.depth
/-- Depth of the deepest entry. -/
def JMembers.depth : JMembers → Nat
  | .nil => 0
  | .cons _ v m => max v.depth m.depth
end

/-- The separators of a stage of the rewrite: what stands between a key and the brace of
its object, between a key and its value, after a closing brace and after a value when a
member follows, after the last member, and after an opening brace that had a newline. -/
structure Style where
  keyBrace : List Char
  keyValue : List Char
  afterBrace : List Char
  afterValue : List Char
  afterLast : List Char
  afterOpen : List Char

/-- The separator after a member: `last` when no member follows. -/
def sepAfter (rest : Dump) (more last : List Char) : List Char :=
  match rest with
  | .nil => last
  | _ => more

/-- The members of a dump written with the separators of a stage, without tabs. -/
def Dump.render (st : Style) : Dump → List Char
  | .nil => []
  | .scalar _ k _ v rest =>
    quote :: (k ++ quote :: (st.keyValue ++ quote :: (v ++ quote ::
      (sepAfter rest st.afterValue st.afterLast ++ rest.render st))))
  | .nested _ k _ onl sub _ rest =>
    quote :: (k ++ quote :: (st.keyBrace ++ lbrace :: ((if onl then st.afterOpen else []) ++
      (sub.render st ++ rbrace ::
        (sepAfter rest st.afterBrace st.afterLast ++ rest.render st)))))

/-- After the removal of tabs. -/
def stage1 : Style := ⟨[nl], [], [nl], [nl], [nl], [nl]⟩
/-- After the colon before nested objects. -/
def stage2 : Style := ⟨[':', nl], [], [nl], [nl], [nl], [nl]⟩
/-- After the colon before scalar values. -/
def stage3 : Style := ⟨[':', nl], [':'], [nl], [nl], [nl], [nl]⟩
/-- After the comma behind closing braces. -/
def stage4 : Style := ⟨[':', nl], [':'], [',', nl], [nl], [nl], [nl]⟩
/-- After the comma behind scalar values. -/
def stage5 : Style := ⟨[':', nl], [':'], [',', nl], [',', nl], [nl], [nl]⟩
/-- After the removal of newlines: the JSON text. -/
def stage6 : Style := ⟨[':'], [':'], [','], [','], [], []⟩

/-- Entries of one map followed by the entries of another. -/
def JMembers.append : JMembers → JMembers → JMembers
  | .nil, m => m
  | .cons k v a, m => .cons k v (a.append m)

/-- A bound on the fuel that reading the members of a dump takes. -/
def Dump.size : Dump → Nat
  | .nil => 1
  | .scalar _ _ _ _ rest => rest.size + 1
  | .nested _ _ _ _ sub _ rest => sub.size + rest.size + 1

/-! ## Standard JSON text of a document -/

/-- A hexadecimal digit, lower case. -/
def hexDigit (n : Nat) : Char :=
  if n < 10 then Char.ofNat (48 + n) else Char.ofNat (87 + n)

/-- The spelling of one rune inside a JSON string: a quote and a backslash are escaped with
a backslash, a rune below U+0020 is written `\u00XX`, any other rune stands for itself. -/
def escapeChar1 (c : Char) : List Char :=
  if c = quote then [bslash, quote]
  else if c = bslash then [bslash, bslash]
  else if c.toNat < 0x20 then [bslash, 'u', '0', '0', hexDigit (c.toNat / 16), hexDigit (c.toNat % 16)]
  else [c]

/-- The body of a JSON string literal. -/
def escapeStr : List Char → List Char
  | [] => []
  | c :: cs => escapeChar1 c ++ escapeStr cs

/-- The comma before a further entry. -/
def commaBefore (m : JMembers) : List Char :=
  match m with
  | .nil => []
  | _ => [',']

/-- The comma before a further element. -/
def commaBeforeElem (l : JList) : List Char :=
  match l with
  | .nil => []
  | _ => [',']

mutual
/-- Compact JSON text of a value: no whitespace, entries in the order of the value. -/
def jsonText : JVal → List Char
  | .obj m => lbrace :: (jsonTextMembers m ++ [rbrace])
  | .arr l => '[' :: (jsonTextList l ++ [']'])
  | .str s => quote :: (escapeStr s ++ [quote])
  | .num lit => lit
  | .bool b => if b then "true".toList else "false".toList
  | .null => "null".toList
/-- The elements of an array, separated by commas. -/
def jsonTextList : JList → List Char
  | .nil => []
  | .cons v l => jsonText v ++ (commaBeforeElem l ++ jsonTextList l)
/-- The entries of an object, separated by commas. -/
def jsonTextMembers : JMembers → List Char
  | .nil => []
  | .cons k v m =>
    quote :: (escapeStr k ++ quote :: ':' :: (jsonText v ++ (commaBefore m ++ jsonTextMembers m)))
end

/-- Every scalar value of the dump, at every level, is non-empty. -/
def Dump.valuesNonempty : Dump → Prop
  | .nil => True
  | .scalar _ _ _ v rest => v ≠ [] ∧ rest.valuesNonempty
  | .nested _ _ _ _ sub _ rest => sub.valuesNonempty ∧ rest.valuesNonempty

/-! ## Auxiliary notions used in the statements and proofs -/

/-- The runes a number literal is made of. -/
def isNumChar (c : Char) : Bool :=
  isDigit c || c = '.' || c = 'e' || c = 'E' || c = '+' || c = '-'

/-- Quote parity of a piece of text: without a backslash, the number of double quotes is
even. -/
def QOK (c : List Char) : Prop := bslash ∉ c → c.count quote % 2 = 0

/-- Whether the leftmost opening brace of a text is followed, somewhere, by a closing
brace. -/
def openThenClose : List Char → Bool
  | [] => false
  | c :: cs => if c = lbrace then decide (rbrace ∈ cs) else openThenClose cs

/-- Selects the two curly braces. -/
def isBrace (c : Char) : Bool := c = lbrace || c = rbrace

mutual
/-- Every object of the tree has pairwise distinct keys. -/
def uniqueKeysV : JVal → Prop
  | .obj m => m.keys.Nodup ∧ uniqueKeysM m
  | .arr l => uniqueKeysL l
  | _ => True
/-- Every object inside the elements has pairwise distinct keys. -/
def uniqueKeysL : JList → Prop
  | .nil => True
  | .cons v l => uniqueKeysV v ∧ uniqueKeysL l
/-- Every object inside the values of the entries has pairwise distinct keys. -/
def uniqueKeysM : JMembers → Prop
  | .nil => True
  | .cons _ v m => uniqueKeysV v ∧ uniqueKeysM m
end

mutual
/-- Every object of the tree lists its keys in strictly ascending order. -/
def sortedKeysV : JVal → Prop
  | .obj m => m.keys.Pairwise (fun a b => strLt a b = true) ∧ sortedKeysM m
  | .arr l => sortedKeysL l
  | _ => True
/-- Every object inside the elements lists its keys in strictly ascending order. -/
def sortedKeysL : JList → Prop
  | .nil => True
  | .cons v l => sortedKeysV v ∧ sortedKeysL l
/-- Every object inside the values of the entries lists its keys in strictly ascending
order. -/
def sortedKeysM : JMembers → Prop
  | .nil => True
  | .cons _ v m => sortedKeysV v ∧ sortedKeysM m
end

/-- The UTF-8 encoding of a rune, byte by byte (`utf8.EncodeRune`). -/
def encodeRune (c : Char) : List Nat :=
  if c.toNat < 0x80 then [c.toNat]
  else if c.toNat < 0x800 then [0xC0 + c.toNat / 64, 0x80 + c.toNat % 64]
  else if c.toNat < 0x10000 then
    [0xE0 + c.toNat / 4096, 0x80 + c.toNat / 64 % 64, 0x80 + c.toNat % 64]
  else
    [0xF0 + c.toNat / 262144, 0x80 + c.toNat / 4096 % 64, 0x80 + c.toNat / 64 % 64,
      0x80 + c.toNat % 64]

/-- The bytes of a text: the encodings of its runes, one after the other. -/
def encodeText : List Char → List Nat
  | [] => []
  | c :: cs => encodeRune c ++ encodeText cs

/-- A dump of objects nested inside each other: `deepDump n` is one member `a` whose
object holds `deepDump (n - 1)`, down to an empty object; with the object of the payload
around it, `n + 1` objects are open at the innermost brace. -/
def deepDump : Nat → Dump
  | 0 => .nil
  | n + 1 => .nested 0 ['a'] 0 true (deepDump n) 0 .nil

/-- Insert a scalar member into members that are ascending by key. -/
def Dump.insertScalar (k v : List Char) : Dump → Dump
  | .nil => .scalar 0 k 0 v .nil
  | .scalar i k1 s v1 rest =>
    if strLt k k1 then .scalar 0 k 0 v (.scalar i k1 s v1 rest)
    else .scalar i k1 s v1 (Dump.insertScalar k v rest)
  | .nested i k1 oi onl sub ci rest =>
    if strLt k k1 then .scalar 0 k 0 v (.nested i k1 oi onl sub ci rest)
    else .nested i k1 oi onl sub ci (Dump.insertScalar k v rest)

/-- Insert a nested member into members that are ascending by key. -/
def Dump.insertNested (k : List Char) (body : Dump) : Dump → Dump
  | .nil => .nested 0 k 0 true body 0 .nil
  | .scalar i k1 s v1 rest =>
    if strLt k k1 then .nested 0 k 0 true body 0 (.scalar i k1 s v1 rest)
    else .scalar i k1 s v1 (Dump.insertNested k body rest)
  | .nested i k1 oi onl sub ci rest =>
    if strLt k k1 then .nested 0 k 0 true body 0 (.nested i k1 oi onl sub ci rest)
    else .nested i k1 oi onl sub ci (Dump.insertNested k body rest)

/-- The dump with the members of every object in ascending order of their keys: the dump
whose tree is the printed document. -/
def Dump.sorted : Dump → Dump
  | .nil => .nil
  | .scalar _ k _ v rest => Dump.insertScalar k v rest.sorted
  | .nested _ k _ _ sub _ rest => Dump.insertNested k sub.sorted rest.sorted

/-! # Theorems -/

/-! ## `reverse` is list reversal -/

theorem swapAt_mid (a m b : List Char) (x y : Char) :
    swapAt (a ++ x :: (m ++ y :: b)) a.length (a.length + m.length + 1) = a ++ y :: (m ++ x :: b) := by
  have h1 : (a ++ x :: (m ++ y :: b)).get? a.length = some x := by
    rw [List.get?_eq_getElem?, List.getElem?_append_right (le_refl _)]
    simp
  have h2 : (a ++ x :: (m ++ y :: b)).get? (a.length + m.length + 1) = some y := by
    rw [List.get?_eq_getElem?, List.getElem?_append_right (by omega)]
    have : a.length + m.length + 1 - a.length = m.length + 1 := by omega
    rw [this, List.getElem?_cons_succ, List.getElem?_append_right (le_refl _)]
    simp
  unfold swapAt
  rw [h1, h2]
  simp only
  rw [List.set_append_right _ _ (by omega)]
  simp only [Nat.sub_self, List.set_cons_zero]
  rw [List.set_append_right _ _ (by omega)]
  have : a.length + m.length + 1 - a.length = m.length + 1 := by omega
  rw [this]
  simp only [List.set_cons_succ]
  rw [List.set_append_right _ _ (by omega)]
  simp

theorem reverseLoop_spec : ∀ (steps : Nat) (a m b : List Char), steps = m.length / 2 →
    reverseLoop steps a.length (a.length + m.length - 1) (a ++ m ++ b) = a ++ m.reverse ++ b := by
  intro steps
  induction steps with
  | zero =>
    intro a m b h
    have hm : m.length ≤ 1 := by omega
    match m, hm with
    | [], _ => simp [reverseLoop]
    | [x], _ => simp [reverseLoop]
  | succ n ih =>
    intro a m b h
    have hm : 2 ≤ m.length := by omega
    match m, hm with
    | x :: m1, hm1 =>
      have hne : m1 ≠ [] := by
        intro h0; subst h0; simp at hm1
      obtain ⟨m2, y, rfl⟩ : ∃ m2 y, m1 = m2 ++ [y] :=
        ⟨m1.dropLast, m1.getLast hne, (List.dropLast_append_getLast hne).symm⟩
      simp only [reverseLoop]
      have e1 : a.length + (x :: (m2 ++ [y])).length - 1 = a.length + m2.length + 1 := by
        simp; omega
      have e2 : a ++ x :: (m2 ++ [y]) ++ b = a ++ x :: (m2 ++ y :: b) := by simp
      rw [e1, e2, swapAt_mid]
      have e3 : a ++ y :: (m2 ++ x :: b) = (a ++ [y]) ++ m2 ++ (x :: b) := by simp
      have e4 : a.length + 1 = (a ++ [y]).length := by simp
      have e5 : a.length + m2.length + 1 - 1 = (a ++ [y]).length + m2.length - 1 := by
        simp
      rw [e3, e4, e5, ih (a ++ [y]) m2 (x :: b) (by simp at h; omega)]
      simp

theorem reverse_eq (s : List Char) : reverse s = s.reverse := by
  have := reverseLoop_spec (s.length / 2) [] s [] rfl
  simpa [reverse] using this

/-! ## Byte offsets and the two trimming steps -/

theorem byteLen_append (a b : List Char) : byteLen (a ++ b) = byteLen a + byteLen b := by
  induction a with
  | nil => simp [byteLen]
  | cons c cs ih => simp [byteLen, ih, Nat.add_assoc]

theorem byteLen_reverse (s : List Char) : byteLen s.reverse = byteLen s := by
  induction s with
  | nil => rfl
  | cons c cs ih => simp [byteLen, byteLen_append, ih, Nat.add_comm]

theorem utf8Size_pos (c : Char) : 1 ≤ c.utf8Size := by
  unfold Char.utf8Size
  simp only
  split_ifs <;> decide

theorem length_le_byteLen (s : List Char) : s.length ≤ byteLen s := by
  induction s with
  | nil => simp [byteLen]
  | cons c cs ih =>
    have := utf8Size_pos c
    simp only [byteLen, List.length_cons]
    omega

theorem utf8Size_ascii (c : Char) (h : c.toNat < 128) : c.utf8Size = 1 := by
  have h1 : c.val ≤ 127 := by
    rw [UInt32.le_def]
    have : c.val.toNat = c.toNat := rfl
    show c.val.val ≤ (127 : UInt32).val
    rw [Fin.le_def]
    have h2 : ((127 : UInt32).val : Nat) = 127 := rfl
    have h3 : (c.val.val : Nat) = c.toNat := rfl
    omega
  unfold Char.utf8Size
  simp [h1]

theorem byteLen_ascii (s : List Char) (h : ∀ c ∈ s, c.toNat < 128) : byteLen s = s.length := by
  induction s with
  | nil => rfl
  | cons c cs ih =>
    have hc := utf8Size_ascii c (h c (List.mem_cons_self _ _))
    have := ih (fun d hd => h d (List.mem_cons_of_mem _ hd))
    simp only [byteLen, List.length_cons]
    omega

theorem lastIndexFrom_not_mem (c : Char) (s : List Char) (off : Nat) (acc : Int)
    (h : c ∉ s) : lastIndexFrom c s off acc = acc := by
  induction s generalizing off acc with
  | nil => rfl
  | cons x xs ih =>
    have hx : x ≠ c := fun e => h (e ▸ List.mem_cons_self _ _)
    have hxs : c ∉ xs := fun e => h (List.mem_cons_of_mem _ e)
    simp [lastIndexFrom, hx, ih _ _ hxs]

theorem lastIndexFrom_split (c : Char) (pre post : List Char) (off : Nat) (acc : Int)
    (h : c ∉ post) : lastIndexFrom c (pre ++ c :: post) off acc = ((off + byteLen pre : Nat) : Int) := by
  induction pre generalizing off acc with
  | nil => simp [lastIndexFrom, byteLen, lastIndexFrom_not_mem _ _ _ _ h]
  | cons x xs ih =>
    rw [List.cons_append, lastIndexFrom, ih, byteLen]
    congr 1
    omega

theorem lastIndex_split (c : Char) (pre post : List Char) (h : c ∉ post) :
    lastIndex c (pre ++ c :: post) = (byteLen pre : Int) := by
  simp [lastIndex, lastIndexFrom_split _ _ _ _ _ h]

theorem lastIndex_not_mem (c : Char) (s : List Char) (h : c ∉ s) : lastIndex c s = -1 := by
  simp [lastIndex, lastIndexFrom_not_mem _ _ _ _ h]

theorem reverse_trimLength_reverse (t : List Char) (k : Nat) :
    reverse (trimLength (reverse t) k) = t.drop (t.length - k) := by
  simp only [reverse_eq, trimLength, List.length_reverse]
  split_ifs with h
  · rw [List.reverse_take, List.reverse_reverse, List.length_reverse]
  · have : t.length - k = 0 := by omega
    simp [this]

theorem trimLength_eq_take (t : List Char) (k : Nat) : trimLength t k = t.take k := by
  unfold trimLength
  split_ifs with h
  · rfl
  · rw [List.take_of_length_le (by omega)]

/-- The first trimming step on a text split at its leftmost opening brace. -/
theorem trimFront_split (pre rest : List Char) (h : lbrace ∉ pre) :
    trimFront (pre ++ lbrace :: rest) =
      if 0 < byteLen rest then
        (pre ++ lbrace :: rest).drop ((pre ++ lbrace :: rest).length - (byteLen rest + 1))
      else pre ++ lbrace :: rest := by
  have hrev : reverse (pre ++ lbrace :: rest) = rest.reverse ++ lbrace :: pre.reverse := by
    simp [reverse_eq]
  have hidx : lastIndex lbrace (reverse (pre ++ lbrace :: rest)) = (byteLen rest : Int) := by
    rw [hrev, lastIndex_split _ _ _ (by simpa using h), byteLen_reverse]
  unfold trimFront
  simp only [hidx]
  by_cases hb : 0 < byteLen rest
  · have h1 : ((byteLen rest : Int) > 0) := by exact_mod_cast hb
    have h2 : ((byteLen rest : Int) + 1).toNat = byteLen rest + 1 := by omega
    rw [if_pos h1, if_pos hb, h2, reverse_trimLength_reverse]
  · have h1 : ¬ ((byteLen rest : Int) > 0) := by omega
    rw [if_neg h1, if_neg hb]

/-- The second trimming step on a text split at its last closing brace. -/
theorem trimBack_split (a post : List Char) (h : rbrace ∉ post) :
    trimBack (a ++ rbrace :: post) =
      if 0 < byteLen a then (a ++ rbrace :: post).take (byteLen a + 1)
      else a ++ rbrace :: post := by
  unfold trimBack
  simp only [lastIndex_split _ _ _ h]
  by_cases hb : 0 < byteLen a
  · have h1 : ((byteLen a : Int) > 0) := by exact_mod_cast hb
    have h2 : ((byteLen a : Int) + 1).toNat = byteLen a + 1 := by omega
    rw [if_pos h1, if_pos hb, h2, trimLength_eq_take]
  · have h1 : ¬ ((byteLen a : Int) > 0) := by omega
    rw [if_neg h1, if_neg hb]

/-- Both trimming steps on an ASCII text split at its leftmost opening brace and its last
closing brace. -/
theorem appInfoPayload_ascii_split (pre mid post : List Char)
    (hpre : lbrace ∉ pre) (hpost : rbrace ∉ post)
    (hmid : ∀ c ∈ mid, c.toNat < 128) (hpo : ∀ c ∈ post, c.toNat < 128) :
    appInfoPayload (pre ++ lbrace :: (mid ++ rbrace :: post)) = lbrace :: (mid ++ [rbrace]) := by
  have hb : byteLen (mid ++ rbrace :: post) = (mid ++ rbrace :: post).length := by
    apply byteLen_ascii
    intro c hc
    rcases List.mem_append.1 hc with h | h
    · exact hmid c h
    · rcases List.mem_cons.1 h with h | h
      · subst h; decide
      · exact hpo c h
  have hf : trimFront (pre ++ lbrace :: (mid ++ rbrace :: post))
      = lbrace :: (mid ++ rbrace :: post) := by
    rw [trimFront_split _ _ hpre, hb, if_pos (by simp)]
    have : (pre ++ lbrace :: (mid ++ rbrace :: post)).length
        - ((mid ++ rbrace :: post).length + 1) = pre.length := by
      simp
    rw [this, List.drop_left]
  have hb2 : byteLen (lbrace :: mid) = (lbrace :: mid).length := by
    apply byteLen_ascii
    intro c hc
    rcases List.mem_cons.1 hc with h | h
    · subst h; decide
    · exact hmid c h
  unfold appInfoPayload
  rw [hf]
  have e : lbrace :: (mid ++ rbrace :: post) = (lbrace :: mid) ++ rbrace :: post := by simp
  rw [e, trimBack_split _ _ hpost, hb2, if_pos (by simp)]
  have : (lbrace :: mid).length + 1 = ((lbrace :: mid) ++ [rbrace]).length := by simp
  rw [this]
  have e2 : (lbrace :: mid) ++ rbrace :: post = ((lbrace :: mid) ++ [rbrace]) ++ post := by simp
  rw [e2, List.take_left]
  simp

/-! ## The payload of an ASCII text -/

theorem split_at_index (t : List Char) (i : Nat) (c : Char) (h : t[i]? = some c) :
    t = t.take i ++ c :: t.drop (i + 1) := by
  obtain ⟨hlt, hc⟩ := List.getElem?_eq_some.1 h
  have h1 : t.drop i = c :: t.drop (i + 1) := by
    rw [List.drop_eq_getElem_cons hlt, hc]
  calc t = t.take i ++ t.drop i := (List.take_append_drop i t).symm
    _ = t.take i ++ c :: t.drop (i + 1) := by rw [h1]

theorem not_mem_take_of_first (t : List Char) (i : Nat) (c : Char)
    (h : ∀ k, k < i → t[k]? ≠ some c) : c ∉ t.take i := by
  intro hm
  obtain ⟨k, hk, hck⟩ := List.getElem_of_mem hm
  have hk1 : k < i := by
    have := List.length_take_le i t
    omega
  have hk2 : k < t.length := by
    rw [List.length_take] at hk
    omega
  rw [List.getElem_take] at hck
  exact h k hk1 (by rw [List.getElem?_eq_getElem hk2, hck])

theorem not_mem_drop_of_last (t : List Char) (j : Nat) (c : Char)
    (h : ∀ k, j < k → t[k]? ≠ some c) : c ∉ t.drop (j + 1) := by
  intro hm
  obtain ⟨k, hk, hck⟩ := List.getElem_of_mem hm
  rw [List.getElem_drop] at hck
  rw [List.length_drop] at hk
  exact h (j + 1 + k) (by omega) (by rw [List.getElem?_eq_getElem (by omega), hck])

theorem last_of_not_mem_drop (t : List Char) (j : Nat) (c : Char) (h : c ∉ t.drop (j + 1)) :
    ∀ k, j < k → t[k]? ≠ some c := by
  intro k hk hc
  apply h
  have e : (t.drop (j + 1))[k - (j + 1)]? = some c := by
    rw [List.getElem?_drop]
    have : j + 1 + (k - (j + 1)) = k := by omega
    rw [this, hc]
  exact List.getElem?_mem e

/-- The shape of a text whose leftmost opening brace is at `i` and whose last closing brace
is at `j`, with `i < j`. -/
theorem split_at_braces (text : List Char) (i j : Nat)
    (hi : text[i]? = some lbrace) (hj : text[j]? = some rbrace) (hij : i < j) :
    text = text.take i ++ lbrace :: (((text.drop (i + 1)).take (j - i - 1))
      ++ rbrace :: text.drop (j + 1)) ∧
    (text.drop i).take (j - i + 1)
      = lbrace :: (((text.drop (i + 1)).take (j - i - 1)) ++ [rbrace]) := by
  have h1 := split_at_index text i lbrace hi
  have hj2 : (text.drop (i + 1))[j - i - 1]? = some rbrace := by
    rw [List.getElem?_drop]
    have : i + 1 + (j - i - 1) = j := by omega
    rw [this, hj]
  have h2 := split_at_index _ _ _ hj2
  have h3 : (text.drop (i + 1)).drop (j - i - 1 + 1) = text.drop (j + 1) := by
    rw [List.drop_drop]
    congr 1
    omega
  rw [h3] at h2
  refine ⟨by rw [← h2]; exact h1, ?_⟩
  obtain ⟨hlt, hc⟩ := List.getElem?_eq_some.1 hi
  rw [List.drop_eq_getElem_cons hlt, hc]
  have e : j - i + 1 = (j - i - 1 + 1) + 1 := by omega
  rw [e, List.take_succ_cons]
  congr 1
  conv_lhs => rw [h2]
  have e2 : (text.drop (i + 1)).take (j - i - 1) ++ rbrace :: text.drop (j + 1)
      = ((text.drop (i + 1)).take (j - i - 1) ++ [rbrace]) ++ text.drop (j + 1) := by simp
  have e3 : j - i - 1 + 1 = ((text.drop (i + 1)).take (j - i - 1) ++ [rbrace]).length := by
    obtain ⟨hlt2, _⟩ := List.getElem?_eq_some.1 hj
    simp [List.length_take, List.length_drop]
    omega
  rw [e2, e3, List.take_left]

/-- C2: for every ASCII-only text whose leftmost opening brace is at position `i` and whose
last closing brace is at position `j`, with `i < j`, the two trimming steps leave exactly
the runes `i` to `j` (inclusive) as the payload; on `noise{"a""b"}more noise` the payload is
`{"a""b"}`. -/
theorem C2_payload_ascii (text : List Char) (i j : Nat)
    (hascii : ∀ c ∈ text, c.toNat < 128)
    (hi : text[i]? = some lbrace) (hfirst : ∀ k, k < i → text[k]? ≠ some lbrace)
    (hj : text[j]? = some rbrace) (hlast : ∀ k, j < k → text[k]? ≠ some rbrace)
    (hij : i < j) :
    appInfoPayload text = (text.drop i).take (j - i + 1) := by
  obtain ⟨hs, hr⟩ := split_at_braces text i j hi hj hij
  rw [hr]
  have hmid : ∀ c ∈ (text.drop (i + 1)).take (j - i - 1), c.toNat < 128 :=
    fun c hc => hascii c (List.mem_of_mem_drop (List.mem_of_mem_take hc))
  have hpo : ∀ c ∈ text.drop (j + 1), c.toNat < 128 :=
    fun c hc => hascii c (List.mem_of_mem_drop hc)
  have := appInfoPayload_ascii_split (text.take i) ((text.drop (i + 1)).take (j - i - 1))
    (text.drop (j + 1)) (not_mem_take_of_first text i lbrace hfirst)
    (not_mem_drop_of_last text j rbrace hlast) hmid hpo
  rw [← hs] at this
  exact this

/-- Witness of C2: the text `noise{"a""b"}more noise`, braces at positions 5 and 12. -/
theorem C2_payload_ascii_witness :
    appInfoPayload "noise\x7b\"a\"\"b\"\x7dmore noise".toList = "\x7b\"a\"\"b\"\x7d".toList :=
  (C2_payload_ascii "noise\x7b\"a\"\"b\"\x7dmore noise".toList 5 12
    (by decide) (by decide) (by decide) (by decide)
    (last_of_not_mem_drop _ 12 rbrace (by decide)) (by decide)).trans (by decide)

/-! ## `strings.Replace` -/

theorem replaceGo_skip (old new : List Char) (k : Nat) (s : List Char) :
    replaceGo old new k s = replaceAll old new (s.drop k) := by
  induction k generalizing s with
  | zero => simp [replaceAll]
  | succ k ih =>
    cases s with
    | nil => simp [replaceAll, replaceGo]
    | cons c cs => simp [replaceGo, ih]

theorem replaceAll_nil (old new : List Char) : replaceAll old new [] = [] := by
  simp [replaceAll, replaceGo]

theorem replaceAll_nomatch (old new : List Char) (c : Char) (cs : List Char)
    (h : old.isPrefixOf (c :: cs) = false) :
    replaceAll old new (c :: cs) = c :: replaceAll old new cs := by
  simp [replaceAll, replaceGo, h]

theorem replaceAll_match (old new rest : List Char) (h : old ≠ []) :
    replaceAll old new (old ++ rest) = new ++ replaceAll old new rest := by
  cases old with
  | nil => exact absurd rfl h
  | cons o os =>
    have hp : (o :: os).isPrefixOf (o :: (os ++ rest)) = true := by
      rw [List.isPrefixOf_iff_prefix]
      exact ⟨rest, rfl⟩
    show replaceGo (o :: os) new 0 (o :: (os ++ rest)) = _
    rw [replaceGo, if_pos hp, replaceGo_skip]
    simp

/-- Case analysis for one step of a replacement pass. -/
theorem replaceAll_cons_cases (old new : List Char) (c : Char) (cs : List Char) (h : old ≠ []) :
    (old.isPrefixOf (c :: cs) = false ∧
      replaceAll old new (c :: cs) = c :: replaceAll old new cs) ∨
    (∃ rest, c :: cs = old ++ rest ∧
      replaceAll old new (c :: cs) = new ++ replaceAll old new rest) := by
  by_cases hp : old.isPrefixOf (c :: cs) = true
  · right
    obtain ⟨rest, hr⟩ := List.isPrefixOf_iff_prefix.1 hp
    exact ⟨rest, hr.symm, by rw [← hr, replaceAll_match _ _ _ h]⟩
  · left
    have hp2 : old.isPrefixOf (c :: cs) = false := Bool.eq_false_iff.2 hp
    exact ⟨hp2, replaceAll_nomatch _ _ _ _ hp2⟩

/-- A replacement whose pattern and substitute agree on the runes selected by `p` leaves
the selected runes of the text unchanged. -/
theorem filter_replaceAll (p : Char → Bool) (old new : List Char) (h : old ≠ [])
    (hp : old.filter p = new.filter p) :
    ∀ (n : Nat) (s : List Char), s.length ≤ n →
      (replaceAll old new s).filter p = s.filter p := by
  intro n
  induction n with
  | zero =>
    intro s hs
    have : s = [] := List.length_eq_zero.1 (by omega)
    subst this
    simp [replaceAll_nil]
  | succ n ih =>
    intro s hs
    cases s with
    | nil => simp [replaceAll_nil]
    | cons c cs =>
      rcases replaceAll_cons_cases old new c cs h with ⟨_, h2⟩ | ⟨rest, h1, h2⟩
      · rw [h2, List.filter_cons, List.filter_cons, ih cs (by simpa using hs)]
      · have hl : rest.length ≤ n := by
          have := congrArg List.length h1
          have hpos : 0 < old.length := List.length_pos.2 h
          simp only [List.length_cons, List.length_append] at this hs
          omega
        rw [h2, h1, List.filter_append, List.filter_append, ih rest hl, hp]

theorem filter_replaceAll_eq (p : Char → Bool) (old new s : List Char) (h : old ≠ [])
    (hp : old.filter p = new.filter p) : (replaceAll old new s).filter p = s.filter p :=
  filter_replaceAll p old new h hp s.length s (le_refl _)

/-- Removing a one-rune pattern is a filter. -/
theorem replaceAll_remove (c : Char) (s : List Char) :
    replaceAll [c] [] s = s.filter (fun x => x != c) := by
  induction s with
  | nil => simp [replaceAll_nil]
  | cons x xs ih =>
    by_cases hx : x = c
    · subst hx
      have := replaceAll_match [x] [] xs (by simp)
      simp only [List.singleton_append, List.nil_append] at this
      rw [this, ih]
      simp
    · have hp : [c].isPrefixOf (x :: xs) = false := by
        simp [List.isPrefixOf, Ne.symm hx]
      rw [replaceAll_nomatch _ _ _ _ hp, ih]
      simp [hx]

/-- The rewrite passes keep the runes selected by `p` when `p` selects neither a tab, a
newline, a colon nor a comma. -/
theorem filter_appInfoRewrite (p : Char → Bool) (s : List Char)
    (ht : p tab = false) (hn : p nl = false) (hc : p ':' = false) (hm : p ',' = false) :
    (appInfoRewrite s).filter p = s.filter p := by
  unfold appInfoRewrite removeNewlines commaQuote commaBrace colonScalar colonNested removeTabs
  rw [filter_replaceAll_eq p _ _ _ (by simp) (by simp [List.filter, hn]),
    filter_replaceAll_eq p _ _ _ (by simp) (by simp [List.filter, hn, hm]),
    filter_replaceAll_eq p _ _ _ (by simp) (by simp [List.filter, hn, hm]),
    filter_replaceAll_eq p _ _ _ (by simp) (by simp [List.filter, hc]),
    filter_replaceAll_eq p _ _ _ (by simp) (by simp [List.filter, hn, hc]),
    filter_replaceAll_eq p _ _ _ (by simp) (by simp [List.filter, ht])]

/-! ## The text consumed by the lexical parsers -/

theorem skipWs_split (s : List Char) :
    ∃ ws, s = ws ++ skipWs s ∧ ∀ c ∈ ws, isWs c = true := by
  induction s with
  | nil => exact ⟨[], rfl, by simp⟩
  | cons c cs ih =>
    by_cases hc : isWs c = true
    · obtain ⟨ws, h1, h2⟩ := ih
      refine ⟨c :: ws, ?_, ?_⟩
      · simp only [skipWs, hc, if_true, List.cons_append]
        rw [← h1]
      · intro d hd
        rcases List.mem_cons.1 hd with h | h
        · rw [h]; exact hc
        · exact h2 d h
    · exact ⟨[], by simp [skipWs, hc], by simp⟩

theorem isWs_ne (c x : Char) (h : isWs c = true) (hx : isWs x = false) : c ≠ x := by
  intro e
  rw [e, hx] at h
  exact Bool.false_ne_true h

theorem spanDigits_split (s : List Char) :
    s = (spanDigits s).1 ++ (spanDigits s).2 ∧ ∀ c ∈ (spanDigits s).1, isDigit c = true := by
  induction s with
  | nil => exact ⟨rfl, by simp [spanDigits]⟩
  | cons c cs ih =>
    by_cases hc : isDigit c = true
    · obtain ⟨h1, h2⟩ := ih
      constructor
      · simp only [spanDigits, hc, if_true, List.cons_append]
        rw [← h1]
      · intro d hd
        simp only [spanDigits, hc, if_true] at hd
        rcases List.mem_cons.1 hd with h | h
        · rw [h]; exact hc
        · exact h2 d h
    · exact ⟨by simp [spanDigits, hc], by simp [spanDigits, hc]⟩

theorem isNumChar_of_digit (c : Char) (h : isDigit c = true) : isNumChar c = true := by
  simp [isNumChar, h]

theorem parseInt_split (s ip r : List Char) (h : parseInt s = some (ip, r)) :
    s = ip ++ r ∧ ∀ c ∈ ip, isNumChar c = true := by
  cases s with
  | nil => simp [parseInt] at h
  | cons c cs =>
    simp only [parseInt] at h
    split_ifs at h with h0 hd
    · simp only [Option.some.injEq, Prod.mk.injEq] at h
      obtain ⟨rfl, rfl⟩ := h
      refine ⟨rfl, ?_⟩
      intro d hd
      simp only [List.mem_singleton] at hd
      subst hd; subst h0; decide
    · simp only [Option.some.injEq, Prod.mk.injEq] at h
      obtain ⟨rfl, rfl⟩ := h
      obtain ⟨h1, h2⟩ := spanDigits_split cs
      refine ⟨by rw [List.cons_append, ← h1], ?_⟩
      intro d hd'
      rcases List.mem_cons.1 hd' with e | e
      · rw [e]; exact isNumChar_of_digit _ hd
      · exact isNumChar_of_digit _ (h2 d e)

theorem parseFrac_split (s fr r : List Char) (h : parseFrac s = some (fr, r)) :
    s = (if fr = [] then [] else '.' :: fr) ++ r ∧ ∀ c ∈ fr, isNumChar c = true := by
  cases s with
  | nil =>
    simp only [parseFrac, Option.some.injEq, Prod.mk.injEq] at h
    obtain ⟨rfl, rfl⟩ := h
    simp
  | cons c cs =>
    simp only [parseFrac] at h
    split_ifs at h with h0 h1
    · simp only [Option.some.injEq] at h
      obtain ⟨h2, h3⟩ := spanDigits_split cs
      have hfr : fr = (spanDigits cs).1 := by rw [h]
      have hr : r = (spanDigits cs).2 := by rw [h]
      subst h0
      rw [hfr, hr, if_neg h1]
      exact ⟨by rw [List.cons_append, ← h2], fun d hd => isNumChar_of_digit _ (h3 d hd)⟩
    · simp only [Option.some.injEq, Prod.mk.injEq] at h
      obtain ⟨rfl, rfl⟩ := h
      simp

theorem parseExp_split (s mark ed r : List Char) (neg : Bool)
    (h : parseExp s = some (mark, neg, ed, r)) :
    s = mark ++ ed ++ r ∧ ∀ c ∈ mark ++ ed, isNumChar c = true := by
  cases s with
  | nil =>
    simp only [parseExp, Option.some.injEq, Prod.mk.injEq] at h
    obtain ⟨rfl, _, rfl, rfl⟩ := h
    simp
  | cons c cs =>
    by_cases h0 : c = 'e' ∨ c = 'E'
    · have hc : isNumChar c = true := by
        rcases h0 with e | e <;> (rw [e]; decide)
      cases cs with
      | nil => simp [parseExp, h0] at h
      | cons d ds =>
        by_cases h1 : d = '+' ∨ d = '-'
        · have hd : isNumChar d = true := by
            rcases h1 with e | e <;> (rw [e]; decide)
          by_cases h2 : (spanDigits ds).1 = []
          · simp [parseExp, h0, h1, h2] at h
          · simp only [parseExp, h0, h1, h2, if_true, if_false, Option.some.injEq,
              Prod.mk.injEq] at h
            obtain ⟨rfl, _, rfl, rfl⟩ := h
            obtain ⟨h4, h5⟩ := spanDigits_split ds
            refine ⟨by simp only [List.cons_append, List.nil_append]; rw [← h4], ?_⟩
            intro x hx
            rcases List.mem_append.1 hx with e | e
            · rcases List.mem_cons.1 e with e | e
              · rw [e]; exact hc
              · rw [List.mem_singleton.1 e]; exact hd
            · exact isNumChar_of_digit _ (h5 x e)
        · by_cases h2 : (spanDigits (d :: ds)).1 = []
          · simp [parseExp, h0, h1, h2] at h
          · simp only [parseExp, h0, h1, h2, if_true, if_false, Option.some.injEq,
              Prod.mk.injEq] at h
            obtain ⟨rfl, _, rfl, rfl⟩ := h
            obtain ⟨h4, h5⟩ := spanDigits_split (d :: ds)
            refine ⟨by simp only [List.cons_append, List.nil_append]; rw [← h4], ?_⟩
            intro x hx
            rcases List.mem_append.1 hx with e | e
            · rw [List.mem_singleton.1 e]; exact hc
            · exact isNumChar_of_digit _ (h5 x e)
    · simp only [parseExp, h0, if_false, Option.some.injEq, Prod.mk.injEq] at h
      obtain ⟨rfl, _, rfl, rfl⟩ := h
      simp

theorem parseUnsigned_split (s lit r : List Char) (h : parseUnsigned s = some (lit, r)) :
    s = lit ++ r ∧ (∀ c ∈ lit, isNumChar c = true) ∧
      ∃ ip r1, parseInt s = some (ip, r1) ∧ ip <+: lit := by
  unfold parseUnsigned at h
  split at h
  · simp at h
  · rename_i ip r1 h1
    split at h
    · simp at h
    · rename_i fr r2 h2
      split at h
      · simp at h
      · rename_i mark neg ed r3 h3
        by_cases hf : floatInRange ip fr neg ed = true
        · rw [if_pos hf] at h
          simp only [Option.some.injEq, Prod.mk.injEq] at h
          obtain ⟨hl, rfl⟩ := h
          obtain ⟨a1, a2⟩ := parseInt_split _ _ _ h1
          obtain ⟨b1, b2⟩ := parseFrac_split _ _ _ h2
          obtain ⟨c1, c2⟩ := parseExp_split _ _ _ _ _ h3
          refine ⟨by rw [← hl, a1, b1, c1]; simp, ?_, ip, r1, h1, ?_⟩
          · intro x hx
            rw [← hl] at hx
            rcases List.mem_append.1 hx with e | e
            · rcases List.mem_append.1 e with e | e
              · rcases List.mem_append.1 e with e | e
                · exact a2 x e
                · by_cases hfr : fr = []
                  · rw [if_pos hfr] at e
                    simp at e
                  · rw [if_neg hfr] at e
                    rcases List.mem_cons.1 e with e | e
                    · rw [e]; decide
                    · exact b2 x e
              · exact c2 x (List.mem_append.2 (Or.inl e))
            · exact c2 x (List.mem_append.2 (Or.inr e))
          · rw [← hl]
            exact ⟨(if fr = [] then [] else '.' :: fr) ++ mark ++ ed, by simp⟩
        · rw [if_neg hf] at h
          simp at h

theorem parseInt_ne_nil (s ip r : List Char) (h : parseInt s = some (ip, r)) : ip ≠ [] := by
  cases s with
  | nil => simp [parseInt] at h
  | cons c cs =>
    simp only [parseInt] at h
    split_ifs at h <;> simp only [Option.some.injEq, Prod.mk.injEq] at h <;>
      (obtain ⟨rfl, _⟩ := h; simp)

theorem parseNum_split (s lit r : List Char) (h : parseNum s = some (lit, r)) :
    s = lit ++ r ∧ lit ≠ [] ∧ ∀ c ∈ lit, isNumChar c = true := by
  cases s with
  | nil => simp [parseNum] at h
  | cons c cs =>
    simp only [parseNum] at h
    by_cases h0 : c = '-'
    · rw [if_pos h0] at h
      split at h
      · simp at h
      · rename_i l r1 h1
        simp only [Option.some.injEq, Prod.mk.injEq] at h
        obtain ⟨rfl, rfl⟩ := h
        obtain ⟨a1, a2, _⟩ := parseUnsigned_split _ _ _ h1
        refine ⟨by rw [a1]; simp, by simp, ?_⟩
        intro x hx
        rcases List.mem_cons.1 hx with e | e
        · rw [e, h0]; decide
        · exact a2 x e
    · rw [if_neg h0] at h
      obtain ⟨a1, a2, ip, r1, a3, a4⟩ := parseUnsigned_split _ _ _ h
      refine ⟨a1, ?_, a2⟩
      intro e
      subst e
      exact parseInt_ne_nil _ _ _ a3 (List.prefix_nil.1 a4)

theorem parseLit_split (kw s r : List Char) (h : parseLit kw s = some r) : s = kw ++ r := by
  unfold parseLit at h
  split_ifs at h with hp
  simp only [Option.some.injEq] at h
  obtain ⟨t, ht⟩ := List.isPrefixOf_iff_prefix.1 hp
  rw [← ht] at h
  rw [← ht, ← h]
  simp

theorem hex4_split (r r1 : List Char) (n : Nat) (h : hex4 r = some (n, r1)) :
    ∃ p, r = p ++ r1 := by
  match r, h with
  | a :: b :: c :: d :: t, h =>
    simp only [hex4] at h
    split at h
    · simp only [Option.some.injEq, Prod.mk.injEq] at h
      exact ⟨[a, b, c, d], by rw [← h.2]; rfl⟩
    · simp at h

theorem unescapeU_split (n : Nat) (r : List Char) : ∃ p, r = p ++ (unescapeU n r).2 := by
  unfold unescapeU
  split_ifs with h0
  · split
    · rename_i b u r1
      split_ifs with h1
      · split
        · rename_i m r2 h2
          obtain ⟨p, hp⟩ := hex4_split _ _ _ h2
          split_ifs
          · exact ⟨b :: u :: p, by simp [hp]⟩
          · exact ⟨[], rfl⟩
        · exact ⟨[], rfl⟩
      · exact ⟨[], rfl⟩
    · exact ⟨[], rfl⟩
  · exact ⟨[], rfl⟩

/-- A string literal ends at a quote; without a backslash its body is the decoded text, has
no quote and no rune below U+0020. -/
theorem parseStr_split : ∀ (n : Nat) (s w r : List Char), parseStr n s = some (w, r) →
    ∃ body, s = body ++ quote :: r ∧
      (bslash ∉ body → w = body ∧ quote ∉ body ∧ ∀ c ∈ body, ¬ c.toNat < 0x20) := by
  intro n
  induction n with
  | zero => intro s w r h; simp [parseStr] at h
  | succ n ih =>
    intro s w r h
    cases s with
    | nil => simp [parseStr] at h
    | cons c cs =>
      simp only [parseStr] at h
      by_cases hq : c = quote
      · rw [if_pos hq] at h
        simp only [Option.some.injEq, Prod.mk.injEq] at h
        obtain ⟨rfl, rfl⟩ := h
        exact ⟨[], by simp [hq], fun _ => ⟨rfl, by simp, by simp⟩⟩
      · rw [if_neg hq] at h
        by_cases hb : c = bslash
        · rw [if_pos hb] at h
          cases cs with
          | nil => simp at h
          | cons e t =>
            simp only at h
            by_cases hu : e = 'u'
            · rw [if_pos hu] at h
              split at h
              · simp at h
              · rename_i m r1 h4
                obtain ⟨p1, hp1⟩ := hex4_split _ _ _ h4
                obtain ⟨p2, hp2⟩ := unescapeU_split m r1
                split at h
                · simp at h
                · rename_i w1 rest h5
                  simp only [Option.some.injEq, Prod.mk.injEq] at h
                  obtain ⟨_, rfl⟩ := h
                  obtain ⟨body, hbody, _⟩ := ih _ _ _ h5
                  refine ⟨c :: e :: (p1 ++ p2 ++ body), ?_, ?_⟩
                  · rw [hp1, hp2, hbody]; simp
                  · intro hn
                    exact absurd (hb ▸ List.mem_cons_self _ _) hn
            · rw [if_neg hu] at h
              split at h
              · simp at h
              · rename_i x hx
                split at h
                · simp at h
                · rename_i w1 rest h5
                  simp only [Option.some.injEq, Prod.mk.injEq] at h
                  obtain ⟨_, rfl⟩ := h
                  obtain ⟨body, hbody, _⟩ := ih _ _ _ h5
                  refine ⟨c :: e :: body, by rw [hbody]; simp, ?_⟩
                  intro hn
                  exact absurd (hb ▸ List.mem_cons_self _ _) hn
        · rw [if_neg hb] at h
          by_cases hc : c.toNat < 0x20
          · rw [if_pos hc] at h; simp at h
          · rw [if_neg hc] at h
            split at h
            · simp at h
            · rename_i w1 rest h5
              simp only [Option.some.injEq, Prod.mk.injEq] at h
              obtain ⟨rfl, rfl⟩ := h
              obtain ⟨body, hbody, hclean⟩ := ih _ _ _ h5
              refine ⟨c :: body, by rw [hbody]; simp, ?_⟩
              intro hn
              have hn2 : bslash ∉ body := fun e => hn (List.mem_cons_of_mem _ e)
              obtain ⟨e1, e2, e3⟩ := hclean hn2
              refine ⟨by rw [e1], ?_, ?_⟩
              · intro hm
                rcases List.mem_cons.1 hm with e | e
                · exact hq e.symm
                · exact e2 e
              · intro d hd
                rcases List.mem_cons.1 hd with e | e
                · rw [e]; exact hc
                · exact e3 d e

/-! ## Quote parity of accepted texts -/

theorem QOK_nil : QOK [] := by
  intro _; rfl

theorem QOK_append (a b : List Char) (ha : QOK a) (hb : QOK b) : QOK (a ++ b) := by
  intro h
  have h1 : bslash ∉ a := fun e => h (List.mem_append.2 (Or.inl e))
  have h2 : bslash ∉ b := fun e => h (List.mem_append.2 (Or.inr e))
  have := ha h1
  have := hb h2
  rw [List.count_append]
  omega

theorem QOK_of_no_quote (a : List Char) (h : quote ∉ a) : QOK a := by
  intro _
  rw [List.count_eq_zero.2 h]

theorem QOK_ws (ws : List Char) (h : ∀ c ∈ ws, isWs c = true) : QOK ws :=
  QOK_of_no_quote ws (fun e => by have := h _ e; revert this; decide)

theorem QOK_num (lit : List Char) (h : ∀ c ∈ lit, isNumChar c = true) : QOK lit :=
  QOK_of_no_quote lit (fun e => by have := h _ e; revert this; decide)

theorem QOK_single (x : Char) (h : x ≠ quote) : QOK [x] :=
  QOK_of_no_quote [x] (by simpa using Ne.symm h)

theorem QOK_str (body : List Char) (h : bslash ∉ body → quote ∉ body) :
    QOK (quote :: (body ++ [quote])) := by
  intro hb
  have h1 : bslash ∉ body := fun e =>
    hb (List.mem_cons_of_mem _ (List.mem_append.2 (Or.inl e)))
  have h2 := List.count_eq_zero.2 (h h1)
  rw [List.count_cons_self, List.count_append, h2]
  simp

/-- What the three mutually recursive parsers consume, for a given fuel. -/
theorem parse_consumed : ∀ (n : Nat),
    (∀ dep s v r, parseValue n dep s = some (v, r) →
      ∃ c, s = c ++ r ∧ c ≠ [] ∧ QOK c ∧
        (∀ m, v = JVal.obj m → ∃ mid, c = lbrace :: (mid ++ [rbrace]))) ∧
    (∀ dep s acc m r, parseMembers n dep s acc = some (m, r) →
      ∃ c, s = c ++ rbrace :: r ∧ QOK c) ∧
    (∀ dep s acc l r, parseElements n dep s acc = some (l, r) →
      ∃ c, s = c ++ r ∧ QOK c) := by
  intro n
  induction n with
  | zero =>
    refine ⟨?_, ?_, ?_⟩
    · intro dep s v r h; simp [parseValue] at h
    · intro dep s acc m r h; simp [parseMembers] at h
    · intro dep s acc l r h; simp [parseElements] at h
  | succ n ih =>
    obtain ⟨ihV, ihM, ihE⟩ := ih
    refine ⟨?_, ?_, ?_⟩
    · intro dep s v r h
      cases s with
      | nil => simp [parseValue] at h
      | cons c cs =>
        simp only [parseValue] at h
        by_cases h1 : c = lbrace
        · rw [if_pos h1] at h
          have hd0 : ¬ dep = 0 := by
            intro e
            rw [if_pos e] at h
            simp at h
          rw [if_neg hd0] at h
          obtain ⟨ws, hws, hwsp⟩ := skipWs_split cs
          split at h
          · simp at h
          · rename_i d ds hd
            rw [hd] at hws
            by_cases h2 : d = rbrace
            · rw [if_pos h2] at h
              simp only [Option.some.injEq, Prod.mk.injEq] at h
              obtain ⟨_, rfl⟩ := h
              refine ⟨c :: (ws ++ [d]), by rw [hws]; simp, by simp, ?_, ?_⟩
              · have := QOK_append [c] (ws ++ [d]) (QOK_single c (by rw [h1]; decide))
                  (QOK_append ws [d] (QOK_ws ws hwsp) (QOK_single d (by rw [h2]; decide)))
                simpa using this
              · intro m _
                exact ⟨ws, by rw [h1, h2]⟩
            · rw [if_neg h2] at h
              split at h
              · simp at h
              · rename_i m r1 hm
                simp only [Option.some.injEq, Prod.mk.injEq] at h
                obtain ⟨_, rfl⟩ := h
                obtain ⟨cm, hcm, hq⟩ := ihM _ _ _ _ _ hm
                refine ⟨c :: (ws ++ cm ++ [rbrace]), by rw [hws, hcm]; simp, by simp, ?_, ?_⟩
                · have := QOK_append [c] (ws ++ cm ++ [rbrace])
                    (QOK_single c (by rw [h1]; decide))
                    (QOK_append _ _ (QOK_append ws cm (QOK_ws ws hwsp) hq)
                      (QOK_single rbrace (by decide)))
                  simpa using this
                · intro _ _
                  exact ⟨ws ++ cm, by rw [h1]⟩
        · rw [if_neg h1] at h
          by_cases h2 : c = '['
          · rw [if_pos h2] at h
            have hd0 : ¬ dep = 0 := by
              intro e
              rw [if_pos e] at h
              simp at h
            rw [if_neg hd0] at h
            obtain ⟨ws, hws, hwsp⟩ := skipWs_split cs
            split at h
            · simp at h
            · rename_i d ds hd
              rw [hd] at hws
              by_cases h3 : d = ']'
              · rw [if_pos h3] at h
                simp only [Option.some.injEq, Prod.mk.injEq] at h
                obtain ⟨rfl, rfl⟩ := h
                refine ⟨c :: (ws ++ [d]), by rw [hws]; simp, by simp, ?_, ?_⟩
                · have := QOK_append [c] (ws ++ [d]) (QOK_single c (by rw [h2]; decide))
                    (QOK_append ws [d] (QOK_ws ws hwsp) (QOK_single d (by rw [h3]; decide)))
                  simpa using this
                · intro m hm; cases hm
              · rw [if_neg h3] at h
                split at h
                · simp at h
                · rename_i l r1 hl
                  simp only [Option.some.injEq, Prod.mk.injEq] at h
                  obtain ⟨rfl, rfl⟩ := h
                  obtain ⟨ce, hce, hq⟩ := ihE _ _ _ _ _ hl
                  refine ⟨c :: (ws ++ ce), by rw [hws, hce]; simp, by simp, ?_, ?_⟩
                  · have := QOK_append [c] (ws ++ ce) (QOK_single c (by rw [h2]; decide))
                      (QOK_append ws ce (QOK_ws ws hwsp) hq)
                    simpa using this
                  · intro m hm; cases hm
          · rw [if_neg h2] at h
            by_cases h3 : c = quote
            · rw [if_pos h3] at h
              split at h
              · simp at h
              · rename_i w r1 hw
                simp only [Option.some.injEq, Prod.mk.injEq] at h
                obtain ⟨rfl, rfl⟩ := h
                obtain ⟨body, hb, hclean⟩ := parseStr_split _ _ _ _ hw
                refine ⟨c :: (body ++ [quote]), by rw [hb]; simp, by simp, ?_, ?_⟩
                · rw [h3]
                  exact QOK_str body (fun e => (hclean e).2.1)
                · intro m hm; cases hm
            · rw [if_neg h3] at h
              by_cases h4 : c = 't'
              · rw [if_pos h4] at h
                simp only [Option.map_eq_some', Prod.mk.injEq] at h
                obtain ⟨r1, hl, rfl, rfl⟩ := h
                have := parseLit_split _ _ _ hl
                refine ⟨c :: ['r', 'u', 'e'], by rw [this]; simp, by simp, ?_, ?_⟩
                · rw [h4]; exact QOK_of_no_quote _ (by decide)
                · intro m hm; cases hm
              · rw [if_neg h4] at h
                by_cases h5 : c = 'f'
                · rw [if_pos h5] at h
                  simp only [Option.map_eq_some', Prod.mk.injEq] at h
                  obtain ⟨r1, hl, rfl, rfl⟩ := h
                  have := parseLit_split _ _ _ hl
                  refine ⟨c :: ['a', 'l', 's', 'e'], by rw [this]; simp, by simp, ?_, ?_⟩
                  · rw [h5]; exact QOK_of_no_quote _ (by decide)
                  · intro m hm; cases hm
                · rw [if_neg h5] at h
                  by_cases h6 : c = 'n'
                  · rw [if_pos h6] at h
                    simp only [Option.map_eq_some', Prod.mk.injEq] at h
                    obtain ⟨r1, hl, rfl, rfl⟩ := h
                    have := parseLit_split _ _ _ hl
                    refine ⟨c :: ['u', 'l', 'l'], by rw [this]; simp, by simp, ?_, ?_⟩
                    · rw [h6]; exact QOK_of_no_quote _ (by decide)
                    · intro m hm; cases hm
                  · rw [if_neg h6] at h
                    split at h
                    · simp at h
                    · rename_i lit r1 hn
                      simp only [Option.some.injEq, Prod.mk.injEq] at h
                      obtain ⟨rfl, rfl⟩ := h
                      obtain ⟨e1, e2, e3⟩ := parseNum_split _ _ _ hn
                      exact ⟨lit, e1, e2, QOK_num lit e3, by intro m hm; cases hm⟩
    · intro dep s acc m r h
      cases s with
      | nil => simp [parseMembers] at h
      | cons c cs =>
        simp only [parseMembers] at h
        by_cases h1 : c = quote
        · rw [if_pos h1] at h
          split at h
          · simp at h
          · rename_i k r1 hk
            obtain ⟨body, hb, hclean⟩ := parseStr_split _ _ _ _ hk
            obtain ⟨ws1, hws1, hwsp1⟩ := skipWs_split r1
            split at h
            · simp at h
            · rename_i d r2 hd
              rw [hd] at hws1
              by_cases h2 : d = ':'
              · rw [if_pos h2] at h
                obtain ⟨ws2, hws2, hwsp2⟩ := skipWs_split r2
                split at h
                · simp at h
                · rename_i v r3 hv
                  obtain ⟨cv, hcv, _, hqv, _⟩ := ihV _ _ _ _ hv
                  obtain ⟨ws3, hws3, hwsp3⟩ := skipWs_split r3
                  have hpre : QOK (quote :: (body ++ [quote]) ++ ws1 ++ [d] ++ ws2 ++ cv ++ ws3) :=
                    QOK_append _ _ (QOK_append _ _ (QOK_append _ _ (QOK_append _ _
                      (QOK_append _ _ (QOK_str body (fun e => (hclean e).2.1))
                        (QOK_ws ws1 hwsp1)) (QOK_single d (by rw [h2]; decide)))
                      (QOK_ws ws2 hwsp2)) hqv) (QOK_ws ws3 hwsp3)
                  have hs : c :: cs = (quote :: (body ++ [quote]) ++ ws1 ++ [d] ++ ws2 ++ cv ++ ws3)
                      ++ skipWs r3 := by
                    rw [h1, hb]
                    conv_lhs => rw [hws1, hws2, hcv, hws3]
                    simp
                  split at h
                  · simp at h
                  · rename_i e r4 he
                    rw [he] at hs
                    by_cases h3 : e = ','
                    · rw [if_pos h3] at h
                      obtain ⟨ws4, hws4, hwsp4⟩ := skipWs_split r4
                      obtain ⟨cm, hcm, hqm⟩ := ihM _ _ _ _ _ h
                      refine ⟨(quote :: (body ++ [quote]) ++ ws1 ++ [d] ++ ws2 ++ cv ++ ws3)
                        ++ [e] ++ ws4 ++ cm, ?_, ?_⟩
                      · rw [hs]
                        conv_lhs => rw [hws4, hcm]
                        simp
                      · exact QOK_append _ _ (QOK_append _ _ (QOK_append _ _ hpre
                          (QOK_single e (by rw [h3]; decide))) (QOK_ws ws4 hwsp4)) hqm
                    · rw [if_neg h3] at h
                      by_cases h4 : e = rbrace
                      · rw [if_pos h4] at h
                        simp only [Option.some.injEq, Prod.mk.injEq] at h
                        obtain ⟨_, rfl⟩ := h
                        exact ⟨_, by rw [hs, h4], hpre⟩
                      · rw [if_neg h4] at h
                        simp at h
              · rw [if_neg h2] at h
                simp at h
        · rw [if_neg h1] at h
          simp at h
    · intro dep s acc l r h
      simp only [parseElements] at h
      split at h
      · simp at h
      · rename_i v r1 hv
        obtain ⟨cv, hcv, _, hqv, _⟩ := ihV _ _ _ _ hv
        obtain ⟨ws1, hws1, hwsp1⟩ := skipWs_split r1
        split at h
        · simp at h
        · rename_i e r2 he
          rw [he] at hws1
          by_cases h3 : e = ','
          · rw [if_pos h3] at h
            obtain ⟨ws2, hws2, hwsp2⟩ := skipWs_split r2
            obtain ⟨ce, hce, hqe⟩ := ihE _ _ _ _ _ h
            refine ⟨cv ++ ws1 ++ [e] ++ ws2 ++ ce, ?_, ?_⟩
            · rw [hcv]
              conv_lhs => rw [hws1, hws2, hce]
              simp
            · exact QOK_append _ _ (QOK_append _ _ (QOK_append _ _ (QOK_append _ _ hqv
                (QOK_ws ws1 hwsp1)) (QOK_single e (by rw [h3]; decide))) (QOK_ws ws2 hwsp2)) hqe
          · rw [if_neg h3] at h
            by_cases h4 : e = ']'
            · rw [if_pos h4] at h
              simp only [Option.some.injEq, Prod.mk.injEq] at h
              obtain ⟨_, rfl⟩ := h
              refine ⟨cv ++ ws1 ++ [e], by rw [hcv, hws1]; simp, ?_⟩
              exact QOK_append _ _ (QOK_append _ _ hqv (QOK_ws ws1 hwsp1))
                (QOK_single e (by rw [h4]; decide))
            · rw [if_neg h4] at h
              simp at h

/-! ## Texts accepted by `json.Unmarshal` -/

/-- An accepted text is whitespace, one value, whitespace; the value has even quote parity
and an object starts and ends with a brace. -/
theorem jsonDecode_shape (s : List Char) (v : JVal) (h : jsonDecode s = some v) :
    ∃ ws c r, s = ws ++ c ++ r ∧ (∀ x ∈ ws, isWs x = true) ∧ (∀ x ∈ r, isWs x = true) ∧
      QOK c ∧ (∀ m, v = JVal.obj m → ∃ mid, c = lbrace :: (mid ++ [rbrace])) := by
  unfold jsonDecode at h
  split at h
  · simp at h
  · rename_i v1 r hv
    split_ifs at h with hr
    simp only [Option.some.injEq] at h
    subst h
    obtain ⟨ws, hws, hwsp⟩ := skipWs_split s
    obtain ⟨c, hc, _, hq, hobj⟩ := (parse_consumed _).1 _ _ _ _ hv
    obtain ⟨ws2, hws2, hwsp2⟩ := skipWs_split r
    rw [hr, List.append_nil] at hws2
    refine ⟨ws, c, r, ?_, hwsp, by rw [hws2]; exact hwsp2, hq, hobj⟩
    rw [List.append_assoc, ← hc]
    exact hws

/-- Without a backslash, an accepted text has an even number of double quotes. -/
theorem jsonDecode_quotes_even (s : List Char) (v : JVal) (h : jsonDecode s = some v)
    (hb : bslash ∉ s) : s.count quote % 2 = 0 := by
  obtain ⟨ws, c, r, hs, hws, hr, hq, _⟩ := jsonDecode_shape s v h
  have := QOK_append _ _ (QOK_append _ _ (QOK_ws ws hws) hq) (QOK_ws r hr)
  rw [← hs] at this
  exact this hb

theorem openThenClose_split (a b c : List Char) :
    openThenClose (a ++ lbrace :: (b ++ rbrace :: c)) = true := by
  induction a with
  | nil => simp [openThenClose]
  | cons x xs ih =>
    by_cases hx : x = lbrace
    · simp [openThenClose, hx]
    · simp only [List.cons_append, openThenClose, if_neg hx]
      exact ih

theorem openThenClose_exists (s : List Char) (h : openThenClose s = true) :
    ∃ a b c, s = a ++ lbrace :: (b ++ rbrace :: c) := by
  induction s with
  | nil => simp [openThenClose] at h
  | cons x xs ih =>
    by_cases hx : x = lbrace
    · simp only [openThenClose, if_pos hx, decide_eq_true_eq] at h
      obtain ⟨b, c, hbc⟩ := List.append_of_mem h
      exact ⟨[], b, c, by rw [hx, hbc]; rfl⟩
    · simp only [openThenClose, if_neg hx] at h
      obtain ⟨a, b, c, habc⟩ := ih h
      exact ⟨x :: a, b, c, by rw [habc]; rfl⟩

theorem openThenClose_filter (s : List Char) :
    openThenClose (s.filter isBrace) = openThenClose s := by
  induction s with
  | nil => rfl
  | cons x xs ih =>
    by_cases hx : x = lbrace
    · have hb : isBrace x = true := by rw [hx]; decide
      rw [List.filter_cons_of_pos hb]
      simp only [openThenClose, if_pos hx]
      congr 1
      simp only [List.mem_filter, eq_iff_iff]
      exact ⟨fun h => h.1, fun h => ⟨h, by decide⟩⟩
    · by_cases hr : x = rbrace
      · have hb : isBrace x = true := by rw [hr]; decide
        rw [List.filter_cons_of_pos hb]
        simp only [openThenClose, if_neg hx]
        exact ih
      · have hb : ¬ isBrace x = true := by simp [isBrace, hx, hr]
        rw [List.filter_cons_of_neg hb]
        simp only [openThenClose, if_neg hx]
        exact ih

theorem openThenClose_of_take_drop (s : List Char) (i j : Nat)
    (h : openThenClose ((s.drop i).take j) = true) : openThenClose s = true := by
  obtain ⟨a, b, c, habc⟩ := openThenClose_exists _ h
  have h1 : s = s.take i ++ ((s.drop i).take j ++ (s.drop i).drop j) := by
    rw [List.take_append_drop, List.take_append_drop]
  rw [habc] at h1
  rw [h1]
  have := openThenClose_split (s.take i ++ a) b (c ++ (s.drop i).drop j)
  simpa using this

/-- The first trimming step drops a prefix of the text. -/
theorem trimFront_eq_drop (t : List Char) : ∃ k, trimFront t = t.drop k := by
  unfold trimFront
  simp only
  split_ifs
  · exact ⟨_, reverse_trimLength_reverse t _⟩
  · exact ⟨0, rfl⟩

/-- The second trimming step keeps a prefix of the text. -/
theorem trimBack_eq_take (t : List Char) : ∃ k, trimBack t = t.take k := by
  unfold trimBack
  simp only
  split_ifs
  · exact ⟨_, trimLength_eq_take t _⟩
  · exact ⟨t.length, by simp⟩

/-- The payload is a contiguous part of the text. -/
theorem appInfoPayload_eq_take_drop (t : List Char) :
    ∃ i j, appInfoPayload t = (t.drop i).take j := by
  obtain ⟨i, hi⟩ := trimFront_eq_drop t
  obtain ⟨j, hj⟩ := trimBack_eq_take (trimFront t)
  exact ⟨i, j, by rw [appInfoPayload, hj, hi]⟩

/-- A returned object document requires an opening brace before a closing brace in the
input text. -/
theorem openThenClose_of_object (text : List Char) (m : JMembers)
    (h : jsonUnmarshalMap (appInfoRewrite (appInfoPayload text)) = some (JVal.obj m)) :
    openThenClose text = true := by
  have hd : jsonDecode (appInfoRewrite (appInfoPayload text)) = some (JVal.obj m) := by
    unfold jsonUnmarshalMap at h
    split at h
    · rename_i m1 hm
      simp only [Option.some.injEq] at h
      rw [hm, h]
    · simp at h
    · simp at h
  obtain ⟨ws, c, r, hs, _, _, _, hobj⟩ := jsonDecode_shape _ _ hd
  obtain ⟨mid, hmid⟩ := hobj m rfl
  have h1 : openThenClose (appInfoRewrite (appInfoPayload text)) = true := by
    rw [hs, hmid]
    have := openThenClose_split ws mid r
    simpa using this
  rw [← openThenClose_filter, filter_appInfoRewrite isBrace _ (by decide) (by decide)
    (by decide) (by decide), openThenClose_filter] at h1
  obtain ⟨i, j, hij⟩ := appInfoPayload_eq_take_drop text
  rw [hij] at h1
  exact openThenClose_of_take_drop text i j h1

/-! ## C3 and C9: texts that are rejected -/

theorem openThenClose_first (pre rest : List Char) (h : lbrace ∉ pre) :
    openThenClose (pre ++ lbrace :: rest) = decide (rbrace ∈ rest) := by
  induction pre with
  | nil => simp [openThenClose]
  | cons x xs ih =>
    have hx : x ≠ lbrace := fun e => h (e ▸ List.mem_cons_self _ _)
    simp only [List.cons_append, openThenClose, if_neg hx]
    exact ih (fun e => h (List.mem_cons_of_mem _ e))

theorem openThenClose_false (text : List Char)
    (h : lbrace ∉ text ∨ rbrace ∉ text ∨
      ∃ pre rest, text = pre ++ lbrace :: rest ∧ lbrace ∉ pre ∧ rbrace ∉ rest) :
    openThenClose text = false := by
  rcases h with h | h | ⟨pre, rest, h1, h2, h3⟩
  · by_contra hc
    obtain ⟨a, b, c, habc⟩ := openThenClose_exists text (by simpa using hc)
    exact h (by rw [habc]; simp)
  · by_contra hc
    obtain ⟨a, b, c, habc⟩ := openThenClose_exists text (by simpa using hc)
    exact h (by rw [habc]; simp)
  · rw [h1, openThenClose_first _ _ h2]
    simpa using h3

theorem jsonUnmarshalMap_cases (s : List Char) (v : JVal) (h : jsonUnmarshalMap s = some v) :
    v = JVal.null ∨ ∃ m, v = JVal.obj m := by
  unfold jsonUnmarshalMap at h
  split at h
  · simp only [Option.some.injEq] at h
    exact Or.inr ⟨_, h.symm⟩
  · simp only [Option.some.injEq] at h
    exact Or.inl h.symm
  · simp at h

theorem appInfoFormat_eq (text : List Char) :
    appInfoFormat text = (appInfoRaw text).map prettyDoc := by
  unfold appInfoFormat appInfoRaw isJSON
  simp only
  cases h : jsonUnmarshalMap (appInfoRewrite (appInfoPayload text)) with
  | none => simp
  | some v => simp

/-- Counterexample to C3 as stated: the text `null` contains no brace, yet `appInfoFormat`
returns a document for it. -/
theorem C3_null_is_accepted :
    lbrace ∉ "null".toList ∧ rbrace ∉ "null".toList ∧
      appInfoFormat "null".toList = some JVal.null := by
  decide

theorem count_quote_appInfoRewrite (s : List Char) :
    (appInfoRewrite s).count quote = s.count quote := by
  rw [List.count_eq_countP, List.count_eq_countP, List.countP_eq_length_filter,
    List.countP_eq_length_filter,
    filter_appInfoRewrite _ s (by decide) (by decide) (by decide) (by decide)]

theorem bslash_not_mem_appInfoRewrite (s : List Char) (h : bslash ∉ s) :
    bslash ∉ appInfoRewrite s := by
  have h1 := filter_appInfoRewrite (fun c => c == bslash) s (by decide) (by decide)
    (by decide) (by decide)
  have h2 : s.filter (fun c => c == bslash) = [] := by
    rw [List.filter_eq_nil_iff]
    intro a ha hab
    rw [beq_iff_eq] at hab
    exact h (hab ▸ ha)
  rw [h2, List.filter_eq_nil_iff] at h1
  intro hm
  exact h1 _ hm (by simp)

/-- C9: for every payload that contains no backslash and an odd number of double quotes,
the conversion fails and no document is returned: the rewrite passes neither add nor remove
a quote, and the strict parse rejects the rewritten text. -/
theorem C9_odd_quotes_rejected (text : List Char)
    (hb : bslash ∉ appInfoPayload text)
    (hq : (appInfoPayload text).count quote % 2 = 1) :
    appInfoFormat text = none ∧
      (appInfoRewrite (appInfoPayload text)).count quote = (appInfoPayload text).count quote ∧
      isJSON (appInfoRewrite (appInfoPayload text)) = false := by
  have hdec : jsonDecode (appInfoRewrite (appInfoPayload text)) = none := by
    cases hd : jsonDecode (appInfoRewrite (appInfoPayload text)) with
    | none => rfl
    | some v =>
      have := jsonDecode_quotes_even _ v hd (bslash_not_mem_appInfoRewrite _ hb)
      rw [count_quote_appInfoRewrite] at this
      omega
  have hu : jsonUnmarshalMap (appInfoRewrite (appInfoPayload text)) = none := by
    unfold jsonUnmarshalMap
    rw [hdec]
  refine ⟨?_, count_quote_appInfoRewrite _, by simp [isJSON, hu]⟩
  rw [appInfoFormat_eq, appInfoRaw, hu]
  rfl

/-- Witness of C9: the payload `{"a""b"c"}` has five quotes and is rejected. -/
theorem C9_odd_quotes_rejected_witness :
    appInfoFormat "\x7b\"a\"\"b\"c\"\x7d".toList = none :=
  (C9_odd_quotes_rejected "\x7b\"a\"\"b\"c\"\x7d".toList (by decide) (by decide)).1

/-! ## C7: trimming a text with multi-byte runes -/

/-- C7 (the code at the failing inputs): `strings.LastIndex` counts bytes and `trimLength`
counts runes, so a multi-byte rune after the first opening brace lets noise before the
brace through, and one before the last closing brace lets noise after it through.  On
`ab{"é""1"}` the payload is `b{"é""1"}` and `appInfoFormat` fails, although the text from the
first opening brace to the last closing brace, `{"é""1"}`, is accepted; on `{"é""1"}xy` the
payload is `{"é""1"}x`. -/
theorem C7_multibyte_keeps_noise :
    appInfoPayload "ab\x7b\"é\"\"1\"\x7d".toList = "b\x7b\"é\"\"1\"\x7d".toList ∧
    appInfoFormat "ab\x7b\"é\"\"1\"\x7d".toList = none ∧
    appInfoFormat "\x7b\"é\"\"1\"\x7d".toList
      = some (JVal.obj (JMembers.cons "é".toList (JVal.str "1".toList) JMembers.nil)) ∧
    appInfoPayload "\x7b\"é\"\"1\"\x7dxy".toList = "\x7b\"é\"\"1\"\x7dx".toList ∧
    appInfoFormat "\x7b\"é\"\"1\"\x7dxy".toList = none := by
  decide

/-! ## C8: the empty payload -/

/-- A pattern with a rune that does not occur in the text is never found. -/
theorem replaceAll_absent (old new : List Char) (x : Char) (hx : x ∈ old) :
    ∀ s : List Char, x ∉ s → replaceAll old new s = s := by
  intro s
  induction s with
  | nil => intro _; exact replaceAll_nil _ _
  | cons c cs ih =>
    intro h
    have hp : old.isPrefixOf (c :: cs) = false := by
      apply Bool.eq_false_iff.2
      intro hpre
      obtain ⟨t, ht⟩ := List.isPrefixOf_iff_prefix.1 hpre
      exact h (by rw [← ht]; exact List.mem_append.2 (Or.inl hx))
    rw [replaceAll_nomatch _ _ _ _ hp, ih (fun e => h (List.mem_cons_of_mem _ e))]

/-- The rewrite of a text without a double quote only removes tabs and newlines. -/
theorem appInfoRewrite_no_quote (s : List Char) (h : quote ∉ s) :
    appInfoRewrite s = s.filter (fun x => x != tab && x != nl) := by
  unfold appInfoRewrite removeNewlines commaQuote commaBrace colonScalar colonNested removeTabs
  have h1 : quote ∉ replaceAll [tab] [] s := by
    rw [replaceAll_remove]
    exact fun e => h (List.mem_of_mem_filter e)
  rw [replaceAll_absent _ _ quote (by simp) _ h1, replaceAll_absent _ _ quote (by simp) _ h1,
    replaceAll_absent _ _ quote (by simp) _ h1, replaceAll_absent _ _ quote (by simp) _ h1,
    replaceAll_remove, replaceAll_remove, List.filter_filter]
  congr 1
  funext x
  exact Bool.and_comm _ _

/-- C8: the empty payload is not an error.  On an opening brace and a closing brace that
are separated only by tabs and newlines, after noise without an opening brace and before
ASCII noise without a closing brace, `appInfoFormat` succeeds and the parsed document is the
empty object. -/
theorem C8_empty_payload (pre ws post : List Char)
    (hpre : lbrace ∉ pre) (hws : ∀ c ∈ ws, c = tab ∨ c = nl)
    (hpost : rbrace ∉ post) (hascii : ∀ c ∈ post, c.toNat < 128) :
    appInfoRaw (pre ++ lbrace :: (ws ++ rbrace :: post)) = some (JVal.obj JMembers.nil) ∧
    appInfoFormat (pre ++ lbrace :: (ws ++ rbrace :: post)) = some (JVal.obj JMembers.nil) := by
  have hpay := appInfoPayload_ascii_split pre ws post hpre hpost
    (fun c hc => by rcases hws c hc with e | e <;> (rw [e]; decide)) hascii
  have hq : quote ∉ lbrace :: (ws ++ [rbrace]) := by
    intro e
    rcases List.mem_cons.1 e with e | e
    · exact absurd e (by decide)
    · rcases List.mem_append.1 e with e | e
      · rcases hws _ e with e2 | e2 <;> exact absurd e2 (by decide)
      · exact absurd (List.mem_singleton.1 e) (by decide)
  have hf : ws.filter (fun x => x != tab && x != nl) = [] := by
    rw [List.filter_eq_nil_iff]
    intro a ha
    rcases hws a ha with e | e <;> (rw [e]; decide)
  have hrw : appInfoRewrite (appInfoPayload (pre ++ lbrace :: (ws ++ rbrace :: post)))
      = [lbrace, rbrace] := by
    rw [hpay, appInfoRewrite_no_quote _ hq, List.filter_cons_of_pos (by decide),
      List.filter_append, hf]
    rfl
  have hraw : appInfoRaw (pre ++ lbrace :: (ws ++ rbrace :: post))
      = some (JVal.obj JMembers.nil) := by
    rw [appInfoRaw, hrw]
    decide
  exact ⟨hraw, by rw [appInfoFormat_eq, hraw]; rfl⟩

/-- Witness of C8: the text `log {` tab newline `} done`. -/
theorem C8_empty_payload_witness :
    appInfoFormat "log \x7b\t\n\x7d done".toList = some (JVal.obj JMembers.nil) :=
  (C8_empty_payload "log ".toList "\t\n".toList " done".toList
    (by decide) (by decide) (by decide) (by decide)).2

/-! ## C6: all or nothing -/

/-- C6: there is no partial success.  `appInfoFormat` returns a document exactly when
`isJSON` accepts the whole rewritten text; when the text is rejected nothing is returned;
and a returned document is the printed form of the value that the parser reads from the
entire rewritten text, with nothing but whitespace left over. -/
theorem C6_all_or_nothing (text : List Char) :
    ((appInfoFormat text).isSome = isJSON (appInfoRewrite (appInfoPayload text))) ∧
    (isJSON (appInfoRewrite (appInfoPayload text)) = false → appInfoFormat text = none) ∧
    (∀ doc, appInfoFormat text = some doc →
      ∃ v rest, parseValue ((appInfoRewrite (appInfoPayload text)).length + 1) maxNestingDepth
          (skipWs (appInfoRewrite (appInfoPayload text))) = some (v, rest) ∧
        skipWs rest = [] ∧ doc = prettyDoc v) := by
  refine ⟨?_, ?_, ?_⟩
  · rw [appInfoFormat_eq, appInfoRaw, isJSON]
    simp
  · intro h
    rw [appInfoFormat_eq, appInfoRaw]
    rw [isJSON] at h
    cases hv : jsonUnmarshalMap (appInfoRewrite (appInfoPayload text)) with
    | none => rfl
    | some v => rw [hv] at h; simp at h
  · intro doc h
    rw [appInfoFormat_eq, appInfoRaw] at h
    simp only [Option.map_eq_some'] at h
    obtain ⟨v, hv, hdoc⟩ := h
    have hd : jsonDecode (appInfoRewrite (appInfoPayload text)) = some v := by
      unfold jsonUnmarshalMap at hv
      split at hv
      · rename_i m hm
        simp only [Option.some.injEq] at hv
        rw [hm, hv]
      · rename_i hm
        simp only [Option.some.injEq] at hv
        rw [hm, hv]
      · simp at hv
    unfold jsonDecode at hd
    split at hd
    · simp at hd
    · rename_i v1 r hp
      split_ifs at hd with hr
      simp only [Option.some.injEq] at hd
      exact ⟨v1, r, hp, hr, by rw [hd, hdoc]⟩

/-- Witness of C6: a text with a second object after the first is rejected as a whole, and
a well-formed text is returned in full. -/
theorem C6_all_or_nothing_witness :
    appInfoFormat "\x7b\"a\"\"1\"\x7d\n\x7b\"b\"\"2\"\x7d".toList = none ∧
    ∃ v rest, parseValue ((appInfoRewrite (appInfoPayload "\x7b\"a\"\"1\"\x7d".toList)).length + 1)
        maxNestingDepth (skipWs (appInfoRewrite (appInfoPayload "\x7b\"a\"\"1\"\x7d".toList))) = some (v, rest) ∧
      skipWs rest = [] ∧
      JVal.obj (JMembers.cons "a".toList (JVal.str "1".toList) JMembers.nil) = prettyDoc v :=
  ⟨(C6_all_or_nothing "\x7b\"a\"\"1\"\x7d\n\x7b\"b\"\"2\"\x7d".toList).2.1 (by decide),
   (C6_all_or_nothing "\x7b\"a\"\"1\"\x7d".toList).2.2 _ (by decide)⟩

/-! ## C10: distinct keys -/

theorem keys_mapSet (k : List Char) (v : JVal) : ∀ m : JMembers,
    (mapSet k v m).keys = if k ∈ m.keys then m.keys else m.keys ++ [k]
  | .nil => by simp [mapSet, JMembers.keys]
  | .cons k1 v1 m => by
    have ih := keys_mapSet k v m
    by_cases h : k1 = k
    · simp [mapSet, JMembers.keys, h]
    · simp only [mapSet, if_neg h, JMembers.keys, ih, List.mem_cons]
      by_cases h2 : k ∈ m.keys
      · simp [h2]
      · simp [h2, Ne.symm h]

theorem nodup_mapSet (k : List Char) (v : JVal) (m : JMembers) (h : m.keys.Nodup) :
    (mapSet k v m).keys.Nodup := by
  rw [keys_mapSet]
  split_ifs with hk
  · exact h
  · rw [List.nodup_append]
    refine ⟨h, List.nodup_singleton k, ?_⟩
    intro a ha hb
    rw [List.mem_singleton] at hb
    exact hk (hb ▸ ha)

theorem uniqueKeysM_mapSet (k : List Char) (v : JVal) (hv : uniqueKeysV v) :
    ∀ m : JMembers, uniqueKeysM m → uniqueKeysM (mapSet k v m)
  | .nil => by intro _; simp [mapSet, uniqueKeysM, hv]
  | .cons k1 v1 m => by
    intro hm
    have ih := uniqueKeysM_mapSet k v hv m
    simp only [uniqueKeysM] at hm
    by_cases h : k1 = k
    · simp [mapSet, h, uniqueKeysM, hv, hm.2]
    · simp [mapSet, h, uniqueKeysM, hm.1, ih hm.2]

theorem uniqueKeysL_snoc (v : JVal) (hv : uniqueKeysV v) :
    ∀ l : JList, uniqueKeysL l → uniqueKeysL (l.snoc v)
  | .nil => by intro _; simp [JList.snoc, uniqueKeysL, hv]
  | .cons a l => by
    intro hl
    have ih := uniqueKeysL_snoc v hv l
    simp only [uniqueKeysL] at hl
    simp [JList.snoc, uniqueKeysL, hl.1, ih hl.2]

/-- The values read by the parsers have pairwise distinct keys in every object. -/
theorem parse_unique : ∀ (n : Nat),
    (∀ dep s v r, parseValue n dep s = some (v, r) → uniqueKeysV v) ∧
    (∀ dep s acc m r, parseMembers n dep s acc = some (m, r) → acc.keys.Nodup → uniqueKeysM acc →
      m.keys.Nodup ∧ uniqueKeysM m) ∧
    (∀ dep s acc l r, parseElements n dep s acc = some (l, r) → uniqueKeysL acc → uniqueKeysL l) := by
  intro n
  induction n with
  | zero =>
    refine ⟨?_, ?_, ?_⟩
    · intro dep s v r h; simp [parseValue] at h
    · intro dep s acc m r h; simp [parseMembers] at h
    · intro dep s acc l r h; simp [parseElements] at h
  | succ n ih =>
    obtain ⟨ihV, ihM, ihE⟩ := ih
    refine ⟨?_, ?_, ?_⟩
    · intro dep s v r h
      cases s with
      | nil => simp [parseValue] at h
      | cons c cs =>
        simp only [parseValue] at h
        split_ifs at h
        · split at h
          · simp at h
          · split_ifs at h
            · simp only [Option.some.injEq, Prod.mk.injEq] at h
              rw [← h.1]
              simp [uniqueKeysV, uniqueKeysM, JMembers.keys]
            · split at h
              · simp at h
              · rename_i m r1 hm
                simp only [Option.some.injEq, Prod.mk.injEq] at h
                rw [← h.1]
                have := ihM _ _ _ _ _ hm (by simp [JMembers.keys]) (by simp [uniqueKeysM])
                simpa [uniqueKeysV] using this
        · split at h
          · simp at h
          · split_ifs at h
            · simp only [Option.some.injEq, Prod.mk.injEq] at h
              rw [← h.1]
              simp [uniqueKeysV, uniqueKeysL]
            · split at h
              · simp at h
              · rename_i l r1 hl
                simp only [Option.some.injEq, Prod.mk.injEq] at h
                rw [← h.1]
                have := ihE _ _ _ _ _ hl (by simp [uniqueKeysL])
                simpa [uniqueKeysV] using this
        · split at h
          · simp at h
          · simp only [Option.some.injEq, Prod.mk.injEq] at h
            rw [← h.1]
            simp [uniqueKeysV]
        · simp only [Option.map_eq_some', Prod.mk.injEq] at h
          obtain ⟨_, _, h1, _⟩ := h
          rw [← h1]
          simp [uniqueKeysV]
        · simp only [Option.map_eq_some', Prod.mk.injEq] at h
          obtain ⟨_, _, h1, _⟩ := h
          rw [← h1]
          simp [uniqueKeysV]
        · simp only [Option.map_eq_some', Prod.mk.injEq] at h
          obtain ⟨_, _, h1, _⟩ := h
          rw [← h1]
          simp [uniqueKeysV]
        · split at h
          · simp at h
          · simp only [Option.some.injEq, Prod.mk.injEq] at h
            rw [← h.1]
            simp [uniqueKeysV]
    · intro dep s acc m r h hn hu
      cases s with
      | nil => simp [parseMembers] at h
      | cons c cs =>
        simp only [parseMembers] at h
        split_ifs at h
        split at h
        · simp at h
        · split at h
          · simp at h
          · split_ifs at h
            split at h
            · simp at h
            · rename_i v r3 hv
              have hv1 := ihV _ _ _ _ hv
              split at h
              · simp at h
              · split_ifs at h
                · exact ihM _ _ _ _ _ h (nodup_mapSet _ _ _ hn) (uniqueKeysM_mapSet _ _ hv1 _ hu)
                · simp only [Option.some.injEq, Prod.mk.injEq] at h
                  rw [← h.1]
                  exact ⟨nodup_mapSet _ _ _ hn, uniqueKeysM_mapSet _ _ hv1 _ hu⟩
    · intro dep s acc l r h hu
      simp only [parseElements] at h
      split at h
      · simp at h
      · rename_i v r1 hv
        have hv1 := ihV _ _ _ _ hv
        split at h
        · simp at h
        · split_ifs at h
          · exact ihE _ _ _ _ _ h (uniqueKeysL_snoc _ hv1 _ hu)
          · simp only [Option.some.injEq, Prod.mk.injEq] at h
            rw [← h.1]
            exact uniqueKeysL_snoc _ hv1 _ hu

theorem keys_insertSorted (k : List Char) (v : JVal) : ∀ m : JMembers,
    (insertSorted k v m).keys.Perm (k :: m.keys)
  | .nil => by simp [insertSorted, JMembers.keys]
  | .cons k1 v1 m => by
    have ih := keys_insertSorted k v m
    by_cases h : strLt k k1 = true
    · simp [insertSorted, h, JMembers.keys]
    · simp only [insertSorted, h, JMembers.keys]
      exact (List.Perm.cons k1 ih).trans (List.Perm.swap k k1 m.keys)

theorem uniqueKeysM_insertSorted (k : List Char) (v : JVal) (hv : uniqueKeysV v) :
    ∀ m : JMembers, uniqueKeysM m → uniqueKeysM (insertSorted k v m)
  | .nil => by intro _; simp [insertSorted, uniqueKeysM, hv]
  | .cons k1 v1 m => by
    intro hm
    have ih := uniqueKeysM_insertSorted k v hv m
    simp only [uniqueKeysM] at hm
    by_cases h : strLt k k1 = true
    · simp [insertSorted, h, uniqueKeysM, hv, hm.1, hm.2]
    · simp [insertSorted, h, uniqueKeysM, hm.1, ih hm.2]

theorem keys_prettyMembers : ∀ m : JMembers, (prettyMembers m).keys.Perm m.keys
  | .nil => by simp [prettyMembers, JMembers.keys]
  | .cons k v m => by
    have ih := keys_prettyMembers m
    simp only [prettyMembers, JMembers.keys]
    exact (keys_insertSorted k _ _).trans (List.Perm.cons k ih)

mutual
theorem prettyDoc_unique : ∀ v : JVal, uniqueKeysV v → uniqueKeysV (prettyDoc v)
  | .null => fun h => by simpa [prettyDoc] using h
  | .bool _ => fun h => by simpa [prettyDoc] using h
  | .num _ => fun h => by simpa [prettyDoc] using h
  | .str _ => fun h => by simpa [prettyDoc] using h
  | .arr l => fun h => by
    simp only [prettyDoc, uniqueKeysV] at h ⊢
    exact prettyList_unique l h
  | .obj m => fun h => by
    simp only [prettyDoc, uniqueKeysV] at h ⊢
    exact ⟨(keys_prettyMembers m).nodup_iff.2 h.1, prettyMembers_unique m h.2⟩
theorem prettyList_unique : ∀ l : JList, uniqueKeysL l → uniqueKeysL (prettyList l)
  | .nil => fun h => by simpa [prettyList] using h
  | .cons v l => fun h => by
    simp only [prettyList, uniqueKeysL] at h ⊢
    exact ⟨prettyDoc_unique v h.1, prettyList_unique l h.2⟩
theorem prettyMembers_unique : ∀ m : JMembers, uniqueKeysM m → uniqueKeysM (prettyMembers m)
  | .nil => fun h => by simpa [prettyMembers] using h
  | .cons k v m => fun h => by
    simp only [prettyMembers, uniqueKeysM] at h ⊢
    exact uniqueKeysM_insertSorted k _ (prettyDoc_unique v h.1) _ (prettyMembers_unique m h.2)
end

theorem jsonUnmarshalMap_unique (s : List Char) (v : JVal) (h : jsonUnmarshalMap s = some v) :
    uniqueKeysV v := by
  have hd : jsonDecode s = some v := by
    unfold jsonUnmarshalMap at h
    split at h
    · rename_i m hm
      simp only [Option.some.injEq] at h
      rw [hm, h]
    · rename_i hm
      simp only [Option.some.injEq] at h
      rw [hm, h]
    · simp at h
  unfold jsonDecode at hd
  split at hd
  · simp at hd
  · rename_i v1 r hp
    split_ifs at hd
    simp only [Option.some.injEq] at hd
    rw [← hd]
    exact (parse_unique _).1 _ _ _ _ hp

/-- C10: for every input on which `appInfoFormat` succeeds, every object of the map `raw`
and of the returned document has pairwise distinct keys, at every nesting level. -/
theorem C10_unique_keys (text : List Char) (doc : JVal) (h : appInfoFormat text = some doc) :
    uniqueKeysV doc ∧ ∃ raw, appInfoRaw text = some raw ∧ uniqueKeysV raw := by
  rw [appInfoFormat_eq] at h
  simp only [Option.map_eq_some'] at h
  obtain ⟨raw, hraw, hdoc⟩ := h
  have hu := jsonUnmarshalMap_unique _ _ hraw
  exact ⟨hdoc ▸ prettyDoc_unique raw hu, raw, hraw, hu⟩

/-- Witness of C10: a dump that repeats the key `a` inside one object, at top level and in
a nested object; each object of the document has `a` once, with the last value. -/
theorem C10_unique_keys_witness :
    appInfoFormat "\x7b\"a\"\"1\"\n\"a\"\n\x7b\n\"a\"\"2\"\n\"a\"\"3\"\n\x7d\n\x7d".toList
      = some (JVal.obj (JMembers.cons "a".toList
          (JVal.obj (JMembers.cons "a".toList (JVal.str "3".toList) JMembers.nil))
          JMembers.nil)) ∧
    uniqueKeysV (JVal.obj (JMembers.cons "a".toList
          (JVal.obj (JMembers.cons "a".toList (JVal.str "3".toList) JMembers.nil))
          JMembers.nil)) :=
  ⟨by decide,
   (C10_unique_keys "\x7b\"a\"\"1\"\n\"a\"\n\x7b\n\"a\"\"2\"\n\"a\"\"3\"\n\x7d\n\x7d".toList _
     (by decide)).1⟩

/-! ## C4: the order of the keys in the document -/

theorem char_eq_of_toNat (a b : Char) (h : a.toNat = b.toNat) : a = b :=
  Char.ext (UInt32.eq_of_val_eq (Fin.ext h))

theorem strLt_trans : ∀ a b c : List Char, strLt a b = true → strLt b c = true →
    strLt a c = true
  | [], [], _, h, _ => by simp [strLt] at h
  | [], _ :: _, [], _, h => by simp [strLt] at h
  | [], _ :: _, _ :: _, _, _ => by simp [strLt]
  | _ :: _, [], _, h, _ => by simp [strLt] at h
  | _ :: _, _ :: _, [], _, h => by simp [strLt] at h
  | x :: xs, y :: ys, z :: zs, h1, h2 => by
    have ih := strLt_trans xs ys zs
    simp only [strLt] at h1 h2 ⊢
    split_ifs at h1 h2 ⊢ <;> first | rfl | omega | exact ih h1 h2

theorem strLt_total : ∀ a b : List Char, strLt a b = false → a ≠ b → strLt b a = true
  | [], [], _, h => absurd rfl h
  | [], _ :: _, h, _ => by simp [strLt] at h
  | _ :: _, [], _, _ => by simp [strLt]
  | x :: xs, y :: ys, h1, h2 => by
    have ih := strLt_total xs ys
    simp only [strLt] at h1 ⊢
    split_ifs at h1 ⊢ with c1 c3
    · rfl
    · have hxy : x = y := char_eq_of_toNat _ _ (by omega)
      exact ih h1 (fun e => h2 (by rw [hxy, e]))

theorem pairwise_insertSorted (k : List Char) (v : JVal) : ∀ m : JMembers,
    m.keys.Pairwise (fun a b => strLt a b = true) → k ∉ m.keys →
      (insertSorted k v m).keys.Pairwise (fun a b => strLt a b = true)
  | .nil => by intro _ _; simp [insertSorted, JMembers.keys]
  | .cons k1 v1 m => by
    intro hp hk
    have ih := pairwise_insertSorted k v m
    simp only [JMembers.keys, List.pairwise_cons, List.mem_cons, not_or] at hp hk
    by_cases h : strLt k k1 = true
    · simp only [insertSorted, h, if_true, JMembers.keys, List.pairwise_cons, List.mem_cons]
      refine ⟨?_, hp.1, hp.2⟩
      intro a ha
      rcases ha with e | e
      · rw [e]; exact h
      · exact strLt_trans _ _ _ h (hp.1 a e)
    · simp only [insertSorted, h, JMembers.keys, List.pairwise_cons]
      refine ⟨?_, ih hp.2 hk.2⟩
      intro a ha
      rcases List.mem_cons.1 ((List.Perm.mem_iff (keys_insertSorted k v m)).1 ha) with e | e
      · rw [e]
        exact strLt_total _ _ (by simpa using h) hk.1
      · exact hp.1 a e

theorem sortedKeysM_insertSorted (k : List Char) (v : JVal) (hv : sortedKeysV v) :
    ∀ m : JMembers, sortedKeysM m → sortedKeysM (insertSorted k v m)
  | .nil => by intro _; simp [insertSorted, sortedKeysM, hv]
  | .cons k1 v1 m => by
    intro hm
    have ih := sortedKeysM_insertSorted k v hv m
    simp only [sortedKeysM] at hm
    by_cases h : strLt k k1 = true
    · simp [insertSorted, h, sortedKeysM, hv, hm.1, hm.2]
    · simp [insertSorted, h, sortedKeysM, hm.1, ih hm.2]

theorem pairwise_prettyMembers : ∀ m : JMembers, m.keys.Nodup →
    (prettyMembers m).keys.Pairwise (fun a b => strLt a b = true)
  | .nil => by intro _; simp [prettyMembers, JMembers.keys]
  | .cons k v m => by
    intro h
    have ih := pairwise_prettyMembers m
    simp only [JMembers.keys, List.nodup_cons] at h
    simp only [prettyMembers]
    exact pairwise_insertSorted k _ _ (ih h.2)
      (fun e => h.1 ((List.Perm.mem_iff (keys_prettyMembers m)).1 e))

mutual
theorem prettyDoc_sorted : ∀ v : JVal, uniqueKeysV v → sortedKeysV (prettyDoc v)
  | .null => fun _ => by simp [prettyDoc, sortedKeysV]
  | .bool _ => fun _ => by simp [prettyDoc, sortedKeysV]
  | .num _ => fun _ => by simp [prettyDoc, sortedKeysV]
  | .str _ => fun _ => by simp [prettyDoc, sortedKeysV]
  | .arr l => fun h => by
    simp only [uniqueKeysV] at h
    simp only [prettyDoc, sortedKeysV]
    exact prettyList_sorted l h
  | .obj m => fun h => by
    simp only [uniqueKeysV] at h
    simp only [prettyDoc, sortedKeysV]
    exact ⟨pairwise_prettyMembers m h.1, prettyMembers_sorted m h.2⟩
theorem prettyList_sorted : ∀ l : JList, uniqueKeysL l → sortedKeysL (prettyList l)
  | .nil => fun _ => by simp [prettyList, sortedKeysL]
  | .cons v l => fun h => by
    simp only [uniqueKeysL] at h
    simp only [prettyList, sortedKeysL]
    exact ⟨prettyDoc_sorted v h.1, prettyList_sorted l h.2⟩
theorem prettyMembers_sorted : ∀ m : JMembers, uniqueKeysM m → sortedKeysM (prettyMembers m)
  | .nil => fun _ => by simp [prettyMembers, sortedKeysM]
  | .cons k v m => fun h => by
    simp only [uniqueKeysM] at h
    simp only [prettyMembers]
    exact sortedKeysM_insertSorted k _ (prettyDoc_sorted v h.1) _ (prettyMembers_sorted m h.2)
end

theorem replaceAll_skip1 (a : Char) (t new : List Char) (c : Char) (rest : List Char)
    (h : c ≠ a) :
    replaceAll (a :: t) new (c :: rest) = c :: replaceAll (a :: t) new rest := by
  apply replaceAll_nomatch
  simp [List.isPrefixOf, Ne.symm h]

theorem replaceAll_skip2 (a b : Char) (t new : List Char) (c d : Char) (rest : List Char)
    (h : d ≠ b) :
    replaceAll (a :: b :: t) new (c :: d :: rest)
      = c :: replaceAll (a :: b :: t) new (d :: rest) := by
  apply replaceAll_nomatch
  simp [List.isPrefixOf, Ne.symm h]

theorem replaceAll_skip3 (a b c : Char) (t new : List Char) (x y e : Char) (rest : List Char)
    (h : e ≠ c) :
    replaceAll (a :: b :: c :: t) new (x :: y :: e :: rest)
      = x :: replaceAll (a :: b :: c :: t) new (y :: e :: rest) := by
  apply replaceAll_nomatch
  simp [List.isPrefixOf, Ne.symm h]

/-- A pass whose pattern starts with a quote or has a newline in second place steps over a
word without quote and newline that is followed by a quote. -/
theorem replaceAll_word (a b : Char) (t new : List Char) (hab : a = quote ∨ b = nl) :
    ∀ (w rest : List Char), (∀ c ∈ w, c ≠ quote ∧ c ≠ nl) →
      replaceAll (a :: b :: t) new (w ++ quote :: rest)
        = w ++ replaceAll (a :: b :: t) new (quote :: rest) := by
  intro w
  induction w with
  | nil => intro rest _; rfl
  | cons c cs ih =>
    intro rest h
    have hc := h c (List.mem_cons_self _ _)
    have hcs : ∀ x ∈ cs, x ≠ quote ∧ x ≠ nl := fun x hx => h x (List.mem_cons_of_mem _ hx)
    rw [List.cons_append]
    rcases hab with e | e
    · rw [replaceAll_skip1 _ _ _ _ _ (by rw [e]; exact hc.1), ih rest hcs]
      rfl
    · cases cs with
      | nil =>
        rw [List.nil_append, replaceAll_skip2 _ _ _ _ _ _ _ (by rw [e]; decide)]
        rfl
      | cons d ds =>
        rw [List.cons_append,
          replaceAll_skip2 _ _ _ _ _ _ _ (by rw [e]; exact (hcs d (List.mem_cons_self _ _)).2),
          ← List.cons_append, ih rest hcs]
        rfl

theorem cleanWord_no_quote_nl (w : List Char) (h : cleanWord w) :
    ∀ c ∈ w, c ≠ quote ∧ c ≠ nl := by
  intro c hc
  obtain ⟨h1, _, h3⟩ := h c hc
  refine ⟨h1, ?_⟩
  intro e
  rw [e] at h3
  exact h3 (by decide)

/-- A pass whose pattern has a newline in second place steps over a quoted word. -/
theorem replaceAll_qword (a : Char) (t new : List Char) (w rest : List Char)
    (hw : cleanWord w) :
    replaceAll (a :: nl :: t) new (quote :: (w ++ quote :: rest))
      = quote :: (w ++ replaceAll (a :: nl :: t) new (quote :: rest)) := by
  have h := cleanWord_no_quote_nl w hw
  cases w with
  | nil =>
    rw [List.nil_append, replaceAll_skip2 _ _ _ _ _ _ _ (by decide)]
    rfl
  | cons c cs =>
    rw [List.cons_append, replaceAll_skip2 _ _ _ _ _ _ _ (h c (List.mem_cons_self _ _)).2,
      ← List.cons_append, replaceAll_word _ _ _ _ (Or.inr rfl) _ _ h]

theorem sepAfter_same (rest : Dump) (x : List Char) : sepAfter rest x x = x := by
  cases rest <;> rfl

/-- The text after the members of an object starts with a quote or a closing brace. -/
theorem render_head (st : Style) (d : Dump) (ctx : List Char) :
    ∃ c tl, d.render st ++ rbrace :: ctx = c :: tl ∧ (c = quote ∨ c = rbrace) := by
  cases d with
  | nil => exact ⟨rbrace, ctx, rfl, Or.inr rfl⟩
  | scalar i k s v rest => exact ⟨quote, _, rfl, Or.inl rfl⟩
  | nested i k oi onl sub ci rest => exact ⟨quote, _, rfl, Or.inl rfl⟩

/-! ## The rewrite passes on a well-formed dump -/

theorem colonNested_render : ∀ (d : Dump), d.WF → ∀ ctx : List Char,
    colonNested (d.render stage1 ++ rbrace :: ctx)
      = d.render stage2 ++ colonNested (rbrace :: ctx) := by
  intro d
  induction d with
  | nil => intro _ ctx; rfl
  | scalar i k s v rest ih =>
    intro hwf ctx
    obtain ⟨_, hck, hcv, _, hrest⟩ := hwf
    obtain ⟨c, tl, hhead, hc⟩ := render_head stage1 rest ctx
    have hcl : c ≠ lbrace := by rcases hc with e | e <;> (rw [e]; decide)
    simp only [Dump.render, stage1, stage2, sepAfter_same, List.nil_append, List.cons_append,
      List.append_assoc, List.singleton_append]
    have ih2 := ih hrest ctx
    simp only [stage1, stage2] at ih2 hhead
    unfold colonNested at ih2 ⊢
    rw [replaceAll_qword _ _ _ _ _ hck, replaceAll_skip2 _ _ _ _ _ _ _ (by decide),
      replaceAll_qword _ _ _ _ _ hcv, hhead, replaceAll_skip3 _ _ _ _ _ _ _ _ _ hcl,
      replaceAll_skip1 _ _ _ _ _ (by decide), ← hhead, ih2]
  | nested i k oi onl sub ci rest ihs ihr =>
    intro hwf ctx
    obtain ⟨_, hck, _, hsub, hrest⟩ := hwf
    simp only [Dump.render, stage1, stage2, sepAfter_same, List.nil_append, List.cons_append,
      List.append_assoc, List.singleton_append]
    have ih1 := ihs hsub (nl :: (rest.render stage1 ++ rbrace :: ctx))
    have ih2 := ihr hrest ctx
    simp only [stage1, stage2] at ih1 ih2
    unfold colonNested at ih1 ih2 ⊢
    rw [replaceAll_qword _ _ _ _ _ hck]
    have hm := replaceAll_match [quote, nl, lbrace] [quote, ':', nl, lbrace]
      ((if onl = true then [nl] else []) ++ (sub.render stage1 ++ rbrace :: nl ::
        (rest.render stage1 ++ rbrace :: ctx))) (by simp)
    simp only [List.cons_append, List.nil_append, stage1] at hm
    rw [hm]
    have hstep : replaceAll [quote, nl, lbrace] [quote, ':', nl, lbrace]
        (rbrace :: nl :: (rest.render ⟨[nl], [], [nl], [nl], [nl], [nl]⟩ ++ rbrace :: ctx))
        = rbrace :: nl :: (rest.render ⟨[':', nl], [], [nl], [nl], [nl], [nl]⟩ ++
          replaceAll [quote, nl, lbrace] [quote, ':', nl, lbrace] (rbrace :: ctx)) := by
      rw [replaceAll_skip1 _ _ _ _ _ (by decide), replaceAll_skip1 _ _ _ _ _ (by decide), ih2]
    cases onl with
    | false =>
      simp only [Bool.false_eq_true, if_false, List.nil_append, List.cons_append]
      rw [ih1, hstep]
    | true =>
      simp only [if_true, List.cons_append, List.nil_append]
      rw [replaceAll_skip1 _ _ _ _ _ (by decide), ih1, hstep]

/-- A pass whose pattern starts with two quotes steps over a quoted non-empty word. -/
theorem replaceAll_qkey (t new : List Char) (k rest : List Char)
    (hk : k ≠ []) (hw : cleanWord k) :
    replaceAll (quote :: quote :: t) new (quote :: (k ++ quote :: rest))
      = quote :: (k ++ replaceAll (quote :: quote :: t) new (quote :: rest)) := by
  have h := cleanWord_no_quote_nl k hw
  cases k with
  | nil => exact absurd rfl hk
  | cons c cs =>
    rw [List.cons_append, replaceAll_skip2 _ _ _ _ _ _ _ (h c (List.mem_cons_self _ _)).1,
      ← List.cons_append, replaceAll_word _ _ _ _ (Or.inl rfl) _ _ h]

theorem colonScalar_render : ∀ (d : Dump), d.WF → ∀ ctx : List Char,
    colonScalar (d.render stage2 ++ rbrace :: ctx)
      = d.render stage3 ++ colonScalar (rbrace :: ctx) := by
  intro d
  induction d with
  | nil => intro _ ctx; rfl
  | scalar i k s v rest ih =>
    intro hwf ctx
    obtain ⟨hk, hck, hcv, _, hrest⟩ := hwf
    simp only [Dump.render, stage2, stage3, sepAfter_same, List.nil_append, List.cons_append,
      List.append_assoc, List.singleton_append]
    have ih2 := ih hrest ctx
    simp only [stage2, stage3] at ih2
    unfold colonScalar at ih2 ⊢
    rw [replaceAll_qkey _ _ _ _ hk hck]
    have hm := replaceAll_match [quote, quote] [quote, ':', quote]
      (v ++ quote :: nl :: (rest.render stage2 ++ rbrace :: ctx)) (by simp)
    simp only [List.cons_append, List.nil_append, stage2] at hm
    rw [hm, replaceAll_word _ _ _ _ (Or.inl rfl) _ _ (cleanWord_no_quote_nl v hcv),
      replaceAll_skip2 _ _ _ _ _ _ _ (by decide), replaceAll_skip1 _ _ _ _ _ (by decide), ih2]
  | nested i k oi onl sub ci rest ihs ihr =>
    intro hwf ctx
    obtain ⟨hk, hck, _, hsub, hrest⟩ := hwf
    simp only [Dump.render, stage2, stage3, sepAfter_same, List.nil_append, List.cons_append,
      List.append_assoc, List.singleton_append]
    have ih1 := ihs hsub (nl :: (rest.render stage2 ++ rbrace :: ctx))
    have ih2 := ihr hrest ctx
    simp only [stage2, stage3] at ih1 ih2
    unfold colonScalar at ih1 ih2 ⊢
    rw [replaceAll_qkey _ _ _ _ hk hck, replaceAll_skip2 _ _ _ _ _ _ _ (by decide),
      replaceAll_skip1 _ _ _ _ _ (by decide), replaceAll_skip1 _ _ _ _ _ (by decide),
      replaceAll_skip1 _ _ _ _ _ (by decide)]
    have hstep : replaceAll [quote, quote] [quote, ':', quote]
        (rbrace :: nl :: (rest.render ⟨[':', nl], [], [nl], [nl], [nl], [nl]⟩ ++ rbrace :: ctx))
        = rbrace :: nl :: (rest.render ⟨[':', nl], [':'], [nl], [nl], [nl], [nl]⟩ ++
          replaceAll [quote, quote] [quote, ':', quote] (rbrace :: ctx)) := by
      rw [replaceAll_skip1 _ _ _ _ _ (by decide), replaceAll_skip1 _ _ _ _ _ (by decide), ih2]
    cases onl with
    | false =>
      simp only [Bool.false_eq_true, if_false, List.nil_append, List.cons_append]
      rw [ih1, hstep]
    | true =>
      simp only [if_true, List.cons_append, List.nil_append]
      rw [replaceAll_skip1 _ _ _ _ _ (by decide), ih1, hstep]

theorem sepAfter_cons (d : Dump) (a b : List Char) (h : d ≠ Dump.nil) : sepAfter d a b = a := by
  cases d with
  | nil => exact absurd rfl h
  | scalar i k s v rest => rfl
  | nested i k oi onl sub ci rest => rfl

/-- The text of a non-empty list of members starts with a quote and the first rune of a
key. -/
theorem render_quote (st : Style) (d : Dump) (hd : d ≠ Dump.nil) (hwf : d.WF)
    (ctx : List Char) :
    ∃ c Y, d.render st ++ ctx = quote :: c :: Y ∧ c ≠ nl ∧ c ≠ quote := by
  cases d with
  | nil => exact absurd rfl hd
  | scalar i k s v rest =>
    obtain ⟨hk, hck, _⟩ := hwf
    cases k with
    | nil => exact absurd rfl hk
    | cons c cs =>
      have := cleanWord_no_quote_nl _ hck c (List.mem_cons_self _ _)
      exact ⟨c, _, by simp only [Dump.render, List.cons_append]; rfl, this.2, this.1⟩
  | nested i k oi onl sub ci rest =>
    obtain ⟨hk, hck, _⟩ := hwf
    cases k with
    | nil => exact absurd rfl hk
    | cons c cs =>
      have := cleanWord_no_quote_nl _ hck c (List.mem_cons_self _ _)
      exact ⟨c, _, by simp only [Dump.render, List.cons_append]; rfl, this.2, this.1⟩

theorem commaBrace_render : ∀ (d : Dump), d.WF → ∀ ctx : List Char,
    commaBrace (d.render stage3 ++ rbrace :: ctx)
      = d.render stage4 ++ commaBrace (rbrace :: ctx) := by
  intro d
  induction d with
  | nil => intro _ ctx; rfl
  | scalar i k s v rest ih =>
    intro hwf ctx
    obtain ⟨hk, hck, hcv, _, hrest⟩ := hwf
    simp only [Dump.render, stage3, stage4, sepAfter_same, List.nil_append, List.cons_append,
      List.append_assoc, List.singleton_append]
    have ih2 := ih hrest ctx
    simp only [stage3, stage4] at ih2
    unfold commaBrace at ih2 ⊢
    rw [replaceAll_qword _ _ _ _ _ hck, replaceAll_skip1 _ _ _ _ _ (by decide),
      replaceAll_skip1 _ _ _ _ _ (by decide), replaceAll_qword _ _ _ _ _ hcv,
      replaceAll_skip1 _ _ _ _ _ (by decide), replaceAll_skip1 _ _ _ _ _ (by decide), ih2]
  | nested i k oi onl sub ci rest ihs ihr =>
    intro hwf ctx
    obtain ⟨hk, hck, _, hsub, hrest⟩ := hwf
    have ih2 := ihr hrest ctx
    have hstep : commaBrace (rbrace :: nl :: (rest.render stage3 ++ rbrace :: ctx))
        = rbrace :: (sepAfter rest [',', nl] [nl] ++ (rest.render stage4 ++
          commaBrace (rbrace :: ctx))) := by
      by_cases hnil : rest = Dump.nil
      · subst hnil
        unfold commaBrace
        simp only [Dump.render, sepAfter, List.nil_append, List.cons_append]
        rw [replaceAll_skip3 _ _ _ _ _ _ _ _ _ (by decide),
          replaceAll_skip1 _ _ _ _ _ (by decide)]
      · obtain ⟨c, Y, hY, _, _⟩ := render_quote stage3 rest hnil hrest (rbrace :: ctx)
        rw [sepAfter_cons _ _ _ hnil, ← ih2, hY]
        unfold commaBrace
        have hm := replaceAll_match [rbrace, nl, quote] [rbrace, ',', nl, quote] (c :: Y)
          (by simp)
        simp only [List.cons_append, List.nil_append] at hm
        rw [hm, replaceAll_skip1 _ _ _ quote _ (by decide)]
        rfl
    have ih1 := ihs hsub (nl :: (rest.render stage3 ++ rbrace :: ctx))
    rw [hstep] at ih1
    simp only [Dump.render, stage3, stage4, sepAfter_same, List.nil_append, List.cons_append,
      List.append_assoc, List.singleton_append]
    simp only [stage3, stage4] at ih1
    unfold commaBrace at ih1 ⊢
    rw [replaceAll_qword _ _ _ _ _ hck, replaceAll_skip1 _ _ _ _ _ (by decide),
      replaceAll_skip1 _ _ _ _ _ (by decide), replaceAll_skip1 _ _ _ _ _ (by decide),
      replaceAll_skip1 _ _ _ _ _ (by decide)]
    cases onl with
    | false =>
      simp only [Bool.false_eq_true, if_false, List.nil_append, List.cons_append]
      rw [ih1]
    | true =>
      simp only [if_true, List.cons_append, List.nil_append]
      rw [replaceAll_skip1 _ _ _ _ _ (by decide), ih1]

theorem commaQuote_render : ∀ (d : Dump), d.WF → ∀ ctx : List Char,
    commaQuote (d.render stage4 ++ rbrace :: ctx)
      = d.render stage5 ++ commaQuote (rbrace :: ctx) := by
  intro d
  induction d with
  | nil => intro _ ctx; rfl
  | scalar i k s v rest ih =>
    intro hwf ctx
    obtain ⟨hk, hck, hcv, _, hrest⟩ := hwf
    have ih2 := ih hrest ctx
    have hstep : commaQuote (quote :: nl :: (rest.render stage4 ++ rbrace :: ctx))
        = quote :: (sepAfter rest [',', nl] [nl] ++ (rest.render stage5 ++
          commaQuote (rbrace :: ctx))) := by
      by_cases hnil : rest = Dump.nil
      · subst hnil
        unfold commaQuote
        simp only [Dump.render, sepAfter, List.nil_append, List.cons_append]
        rw [replaceAll_skip3 _ _ _ _ _ _ _ _ _ (by decide),
          replaceAll_skip1 _ _ _ _ _ (by decide)]
      · obtain ⟨c, Y, hY, hcn, _⟩ := render_quote stage4 rest hnil hrest (rbrace :: ctx)
        rw [sepAfter_cons _ _ _ hnil, ← ih2, hY]
        unfold commaQuote
        have hm := replaceAll_match [quote, nl, quote] [quote, ',', nl, quote] (c :: Y)
          (by simp)
        simp only [List.cons_append, List.nil_append] at hm
        rw [hm, replaceAll_skip2 _ _ _ _ quote c _ hcn]
        rfl
    simp only [Dump.render, stage4, stage5, sepAfter_same, List.nil_append, List.cons_append,
      List.append_assoc, List.singleton_append]
    simp only [stage4, stage5] at hstep
    unfold commaQuote at hstep ⊢
    rw [replaceAll_qword _ _ _ _ _ hck, replaceAll_skip2 _ _ _ _ _ _ _ (by decide),
      replaceAll_skip1 _ _ _ _ _ (by decide), replaceAll_qword _ _ _ _ _ hcv, hstep]
  | nested i k oi onl sub ci rest ihs ihr =>
    intro hwf ctx
    obtain ⟨hk, hck, _, hsub, hrest⟩ := hwf
    have ih2 := ihr hrest ctx
    have hstep : commaQuote (rbrace :: (sepAfter rest [',', nl] [nl] ++
          (rest.render stage4 ++ rbrace :: ctx)))
        = rbrace :: (sepAfter rest [',', nl] [nl] ++ (rest.render stage5 ++
          commaQuote (rbrace :: ctx))) := by
      by_cases hnil : rest = Dump.nil
      · subst hnil
        unfold commaQuote
        simp only [Dump.render, sepAfter, List.nil_append, List.cons_append]
        rw [replaceAll_skip1 _ _ _ _ _ (by decide), replaceAll_skip1 _ _ _ _ _ (by decide)]
      · rw [sepAfter_cons _ _ _ hnil, ← ih2]
        unfold commaQuote
        simp only [List.cons_append, List.nil_append]
        rw [replaceAll_skip1 _ _ _ _ _ (by decide), replaceAll_skip1 _ _ _ _ _ (by decide),
          replaceAll_skip1 _ _ _ _ _ (by decide)]
    have ih1 := ihs hsub (sepAfter rest [',', nl] [nl] ++ (rest.render stage4 ++ rbrace :: ctx))
    rw [hstep] at ih1
    simp only [Dump.render, stage4, stage5, sepAfter_same, List.nil_append, List.cons_append,
      List.append_assoc, List.singleton_append]
    simp only [stage4, stage5] at ih1
    unfold commaQuote at ih1 ⊢
    rw [replaceAll_qword _ _ _ _ _ hck, replaceAll_skip2 _ _ _ _ _ _ _ (by decide),
      replaceAll_skip1 _ _ _ _ _ (by decide), replaceAll_skip1 _ _ _ _ _ (by decide),
      replaceAll_skip1 _ _ _ _ _ (by decide)]
    cases onl with
    | false =>
      simp only [Bool.false_eq_true, if_false, List.nil_append, List.cons_append]
      rw [ih1]
    | true =>
      simp only [if_true, List.cons_append, List.nil_append]
      rw [replaceAll_skip1 _ _ _ _ _ (by decide), ih1]

theorem filter_tabs (n : Nat) : (tabs n).filter (fun x => x != tab) = [] := by
  rw [List.filter_eq_nil_iff]
  intro a ha
  rw [tabs, List.mem_replicate] at ha
  simp [ha.2]

theorem filter_clean_tab (w : List Char) (h : cleanWord w) :
    w.filter (fun x => x != tab) = w := by
  rw [List.filter_eq_self]
  intro a ha
  obtain ⟨_, _, h3⟩ := h a ha
  have : a ≠ tab := by
    intro e
    rw [e] at h3
    exact h3 (by decide)
  simpa using this

theorem filter_clean_nl (w : List Char) (h : cleanWord w) :
    w.filter (fun x => x != nl) = w := by
  rw [List.filter_eq_self]
  intro a ha
  simpa using (cleanWord_no_quote_nl w h a ha).2

theorem text_filter_tab : ∀ (d : Dump), d.WF →
    d.text.filter (fun x => x != tab) = d.render stage1 := by
  intro d
  induction d with
  | nil => intro _; rfl
  | scalar i k s v rest ih =>
    intro hwf
    obtain ⟨_, hck, hcv, _, hrest⟩ := hwf
    simp only [Dump.text, Dump.render, stage1, sepAfter_same, List.filter_append,
      List.filter_cons, filter_tabs, filter_clean_tab _ hck, filter_clean_tab _ hcv,
      List.nil_append]
    have := ih hrest
    simp only [stage1] at this
    rw [this]
    simp [quote, tab, nl]
  | nested i k oi onl sub ci rest ihs ihr =>
    intro hwf
    obtain ⟨_, hck, _, hsub, hrest⟩ := hwf
    simp only [Dump.text, Dump.render, stage1, sepAfter_same, List.filter_append,
      List.filter_cons, filter_tabs, filter_clean_tab _ hck, List.nil_append]
    have h1 := ihs hsub
    have h2 := ihr hrest
    simp only [stage1] at h1 h2
    rw [h1, h2]
    cases onl <;> simp [quote, tab, nl, lbrace, rbrace, optNl]

theorem render_filter_nl : ∀ (d : Dump), d.WF →
    (d.render stage5).filter (fun x => x != nl) = d.render stage6 := by
  intro d
  induction d with
  | nil => intro _; rfl
  | scalar i k s v rest ih =>
    intro hwf
    obtain ⟨_, hck, hcv, _, hrest⟩ := hwf
    simp only [Dump.render, stage5, stage6, List.filter_append,
      List.filter_cons, filter_clean_nl _ hck, filter_clean_nl _ hcv, List.nil_append]
    have := ih hrest
    simp only [stage5, stage6] at this
    rw [this]
    cases rest <;> simp [quote, nl, sepAfter]
  | nested i k oi onl sub ci rest ihs ihr =>
    intro hwf
    obtain ⟨_, hck, _, hsub, hrest⟩ := hwf
    simp only [Dump.render, stage5, stage6, List.filter_append,
      List.filter_cons, filter_clean_nl _ hck, List.nil_append]
    have h1 := ihs hsub
    have h2 := ihr hrest
    simp only [stage5, stage6] at h1 h2
    rw [h1, h2]
    cases onl <;> cases rest <;> simp [quote, nl, lbrace, rbrace, sepAfter]

/-- The rewrite of a well-formed dump is its JSON text. -/
theorem appInfoRewrite_dump (onl : Bool) (d : Dump) (ci : Nat) (hwf : d.WF) :
    appInfoRewrite (dumpText onl d ci) = lbrace :: (d.render stage6 ++ [rbrace]) := by
  have h1 : removeTabs (dumpText onl d ci)
      = lbrace :: (optNl onl ++ (d.render stage1 ++ rbrace :: [])) := by
    unfold removeTabs dumpText
    rw [replaceAll_remove]
    simp only [List.filter_cons, List.filter_append, text_filter_tab d hwf, filter_tabs]
    cases onl <;> simp [lbrace, rbrace, tab, nl, optNl]
  have h2 : colonNested (lbrace :: (optNl onl ++ (d.render stage1 ++ rbrace :: [])))
      = lbrace :: (optNl onl ++ (d.render stage2 ++ rbrace :: [])) := by
    have := colonNested_render d hwf []
    unfold colonNested at this ⊢
    cases onl
    · simp only [optNl, Bool.false_eq_true, if_false, List.nil_append]
      rw [replaceAll_skip1 _ _ _ _ _ (by decide), this]
      rfl
    · simp only [optNl, if_true, List.cons_append, List.nil_append]
      rw [replaceAll_skip1 _ _ _ _ _ (by decide), replaceAll_skip1 _ _ _ _ _ (by decide), this]
      rfl
  have h3 : colonScalar (lbrace :: (optNl onl ++ (d.render stage2 ++ rbrace :: [])))
      = lbrace :: (optNl onl ++ (d.render stage3 ++ rbrace :: [])) := by
    have := colonScalar_render d hwf []
    unfold colonScalar at this ⊢
    cases onl
    · simp only [optNl, Bool.false_eq_true, if_false, List.nil_append]
      rw [replaceAll_skip1 _ _ _ _ _ (by decide), this]
      rfl
    · simp only [optNl, if_true, List.cons_append, List.nil_append]
      rw [replaceAll_skip1 _ _ _ _ _ (by decide), replaceAll_skip1 _ _ _ _ _ (by decide), this]
      rfl
  have h4 : commaBrace (lbrace :: (optNl onl ++ (d.render stage3 ++ rbrace :: [])))
      = lbrace :: (optNl onl ++ (d.render stage4 ++ rbrace :: [])) := by
    have := commaBrace_render d hwf []
    unfold commaBrace at this ⊢
    cases onl
    · simp only [optNl, Bool.false_eq_true, if_false, List.nil_append]
      rw [replaceAll_skip1 _ _ _ _ _ (by decide), this]
      rfl
    · simp only [optNl, if_true, List.cons_append, List.nil_append]
      rw [replaceAll_skip1 _ _ _ _ _ (by decide), replaceAll_skip1 _ _ _ _ _ (by decide), this]
      rfl
  have h5 : commaQuote (lbrace :: (optNl onl ++ (d.render stage4 ++ rbrace :: [])))
      = lbrace :: (optNl onl ++ (d.render stage5 ++ rbrace :: [])) := by
    have := commaQuote_render d hwf []
    unfold commaQuote at this ⊢
    cases onl
    · simp only [optNl, Bool.false_eq_true, if_false, List.nil_append]
      rw [replaceAll_skip1 _ _ _ _ _ (by decide), this]
      rfl
    · simp only [optNl, if_true, List.cons_append, List.nil_append]
      rw [replaceAll_skip1 _ _ _ _ _ (by decide), replaceAll_skip1 _ _ _ _ _ (by decide), this]
      rfl
  unfold appInfoRewrite
  rw [h1, h2, h3, h4, h5]
  unfold removeNewlines
  rw [replaceAll_remove]
  simp only [List.filter_cons, List.filter_append, render_filter_nl d hwf]
  cases onl <;> simp [lbrace, rbrace, nl, optNl]

/-! ## Reading the JSON text of a well-formed dump -/

theorem skipWs_cons (c : Char) (cs : List Char) (h : isWs c = false) :
    skipWs (c :: cs) = c :: cs := by
  simp [skipWs, h]

theorem parseStr_word : ∀ (w rest : List Char) (n : Nat), cleanWord w → w.length + 1 ≤ n →
    parseStr n (w ++ quote :: rest) = some (w, rest) := by
  intro w
  induction w with
  | nil =>
    intro rest n _ hn
    obtain ⟨m, rfl⟩ : ∃ m, n = m + 1 := ⟨n - 1, by simp at hn; omega⟩
    simp [parseStr]
  | cons c cs ih =>
    intro rest n hw hn
    obtain ⟨m, rfl⟩ : ∃ m, n = m + 1 := ⟨n - 1, by simp at hn; omega⟩
    obtain ⟨h1, h2, h3⟩ := hw c (List.mem_cons_self _ _)
    have hcs : cleanWord cs := fun x hx => hw x (List.mem_cons_of_mem _ hx)
    have := ih rest m hcs (by simp at hn; omega)
    simp only [List.cons_append, parseStr, if_neg h1, if_neg h2, if_neg h3, List.append_eq, this]

theorem JMembers.append_nil : ∀ a : JMembers, a.append .nil = a
  | .nil => rfl
  | .cons k v a => by
    have := JMembers.append_nil a
    simp [JMembers.append, this]

theorem JMembers.keys_append : ∀ a b : JMembers, (a.append b).keys = a.keys ++ b.keys
  | .nil, b => rfl
  | .cons k v a, b => by
    have := JMembers.keys_append a b
    simp [JMembers.append, JMembers.keys, this]

theorem JMembers.append_cons : ∀ (a : JMembers) (k : List Char) (v : JVal) (m : JMembers),
    (a.append (.cons k v .nil)).append m = a.append (.cons k v m)
  | .nil, k, v, m => rfl
  | .cons k1 v1 a, k, v, m => by
    have := JMembers.append_cons a k v m
    simp [JMembers.append, this]

theorem mapSet_new (k : List Char) (v : JVal) : ∀ acc : JMembers, k ∉ acc.keys →
    mapSet k v acc = acc.append (.cons k v .nil)
  | .nil, _ => rfl
  | .cons k1 v1 a, h => by
    simp only [JMembers.keys, List.mem_cons, not_or] at h
    have := mapSet_new k v a h.2
    simp [mapSet, JMembers.append, Ne.symm h.1, this]

theorem size_pos (d : Dump) : 1 ≤ d.size := by
  cases d <;> simp [Dump.size]

theorem parseValue_str (f dep : Nat) (v Y : List Char) (hv : cleanWord v) (hf : 1 ≤ f) :
    parseValue f dep (quote :: (v ++ quote :: Y)) = some (JVal.str v, Y) := by
  obtain ⟨m, rfl⟩ : ∃ m, f = m + 1 := ⟨f - 1, by omega⟩
  have h := parseStr_word v Y ((v ++ quote :: Y).length + 1) hv (by simp)
  simp only [parseValue, h]
  simp [quote, lbrace]

/-- One member: a key, a colon and a value; what follows depends on what the value parser
reads. -/
theorem parseMembers_member (f dep : Nat) (k X : List Char) (acc : JMembers)
    (hk : cleanWord k) (hX : skipWs X = X) :
    parseMembers (f + 1) dep (quote :: (k ++ quote :: ':' :: X)) acc =
      match parseValue f dep X with
      | none => none
      | some (v, Y) =>
        match skipWs Y with
        | [] => none
        | e :: r4 =>
          if e = ',' then parseMembers f dep (skipWs r4) (mapSet k v acc)
          else if e = rbrace then some (mapSet k v acc, r4)
          else none := by
  have h := parseStr_word k (':' :: X) ((k ++ quote :: ':' :: X).length + 1) hk
    (by simp)
  simp only [parseMembers, if_true, h, skipWs_cons ':' X (by decide), hX]

theorem render_skipWs (st : Style) (d : Dump) (ctx : List Char) :
    skipWs (d.render st ++ rbrace :: ctx) = d.render st ++ rbrace :: ctx := by
  obtain ⟨c, tl, h, hc⟩ := render_head st d ctx
  rw [h]
  exact skipWs_cons c tl (by rcases hc with e | e <;> (rw [e]; decide))

/-- What follows a member in the JSON text of a dump: the closing brace of the object, or
a comma and the further members. -/
theorem parseMembers_after (f dep : Nat) (k : List Char) (v : JVal) (acc : JMembers)
    (rest : Dump) (ctx : List Char) (hk : k ∉ acc.keys) :
    (match skipWs (sepAfter rest [','] [] ++ (rest.render stage6 ++ rbrace :: ctx)) with
      | [] => none
      | e :: r4 =>
        if e = ',' then parseMembers f dep (skipWs r4) (mapSet k v acc)
        else if e = rbrace then some (mapSet k v acc, r4)
        else none)
      = if rest = Dump.nil then some (acc.append (JMembers.cons k v JMembers.nil), ctx)
        else parseMembers f dep (rest.render stage6 ++ rbrace :: ctx)
          (acc.append (JMembers.cons k v JMembers.nil)) := by
  by_cases hnil : rest = Dump.nil
  · subst hnil
    simp only [sepAfter, Dump.render, List.nil_append, skipWs_cons rbrace ctx (by decide),
      if_true]
    rw [mapSet_new k _ acc hk]
    simp [rbrace]
  · rw [sepAfter_cons _ _ _ hnil, if_neg hnil]
    simp only [List.singleton_append, skipWs_cons ',' _ (by decide), if_true]
    rw [render_skipWs, mapSet_new k _ acc hk]

theorem depth_pos_ne_nil (d : Dump) (h : 0 < d.depth) : d ≠ Dump.nil := by
  intro e
  subst e
  simp [Dump.depth] at h

/-- Reading the members of a well-formed dump from its JSON text appends its tree to the
map when the objects below the members are nested at most `dep` deep, and fails when they
are nested deeper. -/
theorem parseMembers_render : ∀ (d : Dump), d.WF → d ≠ Dump.nil →
    ∀ (fuel dep : Nat) (acc : JMembers) (ctx : List Char), d.size ≤ fuel →
      (∀ k ∈ d.keys, k ∉ acc.keys) →
      parseMembers fuel dep (d.render stage6 ++ rbrace :: ctx) acc
        = if d.depth ≤ dep then some (acc.append d.tree, ctx) else none := by
  intro d
  induction d with
  | nil => intro _ h; exact absurd rfl h
  | scalar i k s v rest ih =>
    intro hwf _ fuel dep acc ctx hf hacc
    obtain ⟨hk, hck, hcv, hnk, hrest⟩ := hwf
    simp only [Dump.size] at hf
    obtain ⟨f, rfl⟩ : ∃ f, fuel = f + 1 := ⟨fuel - 1, by omega⟩
    have hsz := size_pos rest
    have hkacc : k ∉ acc.keys := hacc k (by simp [Dump.keys])
    simp only [Dump.render, stage6, List.cons_append, List.append_assoc, List.nil_append,
      List.singleton_append]
    rw [parseMembers_member f dep k _ acc hck (skipWs_cons _ _ (by decide)),
      parseValue_str f dep v _ hcv (by omega)]
    have hafter := parseMembers_after f dep k (JVal.str v) acc rest ctx hkacc
    simp only [stage6] at hafter
    simp only
    rw [hafter]
    by_cases hnil : rest = Dump.nil
    · subst hnil
      simp [Dump.depth, Dump.tree]
    · rw [if_neg hnil]
      have hih := ih hrest hnil f dep (acc.append (JMembers.cons k (JVal.str v) JMembers.nil))
        ctx (by omega) (by
        intro k1 hk1
        rw [JMembers.keys_append]
        simp only [JMembers.keys, List.mem_append, List.mem_singleton, not_or]
        exact ⟨hacc k1 (by simp [Dump.keys, hk1]), fun e => hnk (e ▸ hk1)⟩)
      simp only [stage6] at hih
      rw [hih, JMembers.append_cons]
      simp only [Dump.depth, Dump.tree]
  | nested i k oi onl sub ci rest ihs ihr =>
    intro hwf _ fuel dep acc ctx hf hacc
    obtain ⟨hk, hck, hnk, hsub, hrest⟩ := hwf
    simp only [Dump.size] at hf
    obtain ⟨f, rfl⟩ : ∃ f, fuel = f + 1 := ⟨fuel - 1, by omega⟩
    have hsz := size_pos rest
    have hsz2 := size_pos sub
    obtain ⟨g, rfl⟩ : ∃ g, f = g + 1 := ⟨f - 1, by omega⟩
    have hkacc : k ∉ acc.keys := hacc k (by simp [Dump.keys])
    have hval : ∀ Y, parseValue (g + 1) dep (lbrace :: (sub.render stage6 ++ rbrace :: Y))
        = if sub.depth + 1 ≤ dep then some (JVal.obj sub.tree, Y) else none := by
      intro Y
      by_cases hd0 : dep = 0
      · subst hd0
        simp [parseValue]
      · by_cases hs : sub = Dump.nil
        · subst hs
          have : Dump.nil.depth + 1 ≤ dep := by simp [Dump.depth]; omega
          rw [if_pos this]
          simp only [Dump.render, List.nil_append, parseValue, if_true, if_neg hd0,
            skipWs_cons rbrace Y (by decide), Dump.tree]
        · have h1 := ihs hsub hs g (dep - 1) JMembers.nil Y (by omega)
            (by simp [JMembers.keys])
          obtain ⟨c, Z, hZ, _, hcq⟩ := render_quote stage6 sub hs hsub (rbrace :: Y)
          have hq : quote ≠ rbrace := by decide
          simp only [parseValue, if_true, if_neg hd0, render_skipWs]
          rw [hZ] at h1 ⊢
          simp only [if_neg hq, h1]
          by_cases hdep : sub.depth + 1 ≤ dep
          · have : sub.depth ≤ dep - 1 := by omega
            rw [if_pos hdep, if_pos this]
            rfl
          · have : ¬ sub.depth ≤ dep - 1 := by omega
            rw [if_neg hdep, if_neg this]
    simp only [Dump.render, stage6, List.cons_append, List.append_assoc, List.nil_append,
      List.singleton_append, ite_self]
    simp only [stage6] at hval
    rw [parseMembers_member (g + 1) dep k _ acc hck (skipWs_cons _ _ (by decide)), hval]
    by_cases hdep : sub.depth + 1 ≤ dep
    · rw [if_pos hdep]
      have hafter := parseMembers_after (g + 1) dep k (JVal.obj sub.tree) acc rest ctx hkacc
      simp only [stage6] at hafter
      simp only
      rw [hafter]
      by_cases hnil : rest = Dump.nil
      · subst hnil
        have : (Dump.nested i k oi onl sub ci Dump.nil).depth ≤ dep := by
          simp [Dump.depth]; omega
        rw [if_pos this]
        simp [Dump.tree]
      · rw [if_neg hnil]
        have hih := ihr hrest hnil (g + 1) dep
          (acc.append (JMembers.cons k (JVal.obj sub.tree) JMembers.nil)) ctx (by omega) (by
          intro k1 hk1
          rw [JMembers.keys_append]
          simp only [JMembers.keys, List.mem_append, List.mem_singleton, not_or]
          exact ⟨hacc k1 (by simp [Dump.keys, hk1]), fun e => hnk (e ▸ hk1)⟩)
        simp only [stage6] at hih
        rw [hih, JMembers.append_cons]
        by_cases hr : rest.depth ≤ dep
        · have : (Dump.nested i k oi onl sub ci rest).depth ≤ dep := by
            simp only [Dump.depth]; omega
          rw [if_pos hr, if_pos this]
          rfl
        · have : ¬ (Dump.nested i k oi onl sub ci rest).depth ≤ dep := by
            simp only [Dump.depth]; omega
          rw [if_neg hr, if_neg this]
    · rw [if_neg hdep]
      have : ¬ (Dump.nested i k oi onl sub ci rest).depth ≤ dep := by
        simp only [Dump.depth]; omega
      rw [if_neg this]

/-! ## C1: a well-formed dump is parsed into its tree -/

theorem parseValue_obj (g dep : Nat) (d : Dump) (Y : List Char) (hwf : d.WF)
    (hg : d.size ≤ g) :
    parseValue (g + 1) dep (lbrace :: (d.render stage6 ++ rbrace :: Y))
      = if d.depth + 1 ≤ dep then some (JVal.obj d.tree, Y) else none := by
  by_cases hd0 : dep = 0
  · subst hd0
    simp [parseValue]
  · by_cases hs : d = Dump.nil
    · subst hs
      have : Dump.nil.depth + 1 ≤ dep := by simp [Dump.depth]; omega
      rw [if_pos this]
      simp only [Dump.render, List.nil_append, parseValue, if_true, if_neg hd0,
        skipWs_cons rbrace Y (by decide), Dump.tree]
    · have h1 := parseMembers_render d hwf hs g (dep - 1) JMembers.nil Y hg
        (by simp [JMembers.keys])
      obtain ⟨c, Z, hZ, _, hcq⟩ := render_quote stage6 d hs hwf (rbrace :: Y)
      have hq : quote ≠ rbrace := by decide
      simp only [parseValue, if_true, if_neg hd0, render_skipWs]
      rw [hZ] at h1 ⊢
      simp only [if_neg hq, h1]
      by_cases hdep : d.depth + 1 ≤ dep
      · have : d.depth ≤ dep - 1 := by omega
        rw [if_pos hdep, if_pos this]
        rfl
      · have : ¬ d.depth ≤ dep - 1 := by omega
        rw [if_neg hdep, if_neg this]

theorem size_le_length (st : Style) : ∀ d : Dump, d.size ≤ (d.render st).length + 1 := by
  intro d
  induction d with
  | nil => simp [Dump.size]
  | scalar i k s v rest ih =>
    simp only [Dump.size, Dump.render, List.length_cons, List.length_append]
    omega
  | nested i k oi onl sub ci rest ihs ihr =>
    simp only [Dump.size, Dump.render, List.length_cons, List.length_append]
    omega

theorem tree_depth : ∀ d : Dump, d.tree.depth = d.depth := by
  intro d
  induction d with
  | nil => rfl
  | scalar i k s v rest ih => simp [Dump.tree, Dump.depth, JMembers.depth, JVal.depth, ih]
  | nested i k oi onl sub ci rest ihs ihr =>
    simp [Dump.tree, Dump.depth, JMembers.depth, JVal.depth, ihs, ihr]

/-- A text that starts with an opening brace and ends with a closing brace is its own
payload. -/
theorem appInfoPayload_braced (body : List Char) :
    appInfoPayload (lbrace :: (body ++ [rbrace])) = lbrace :: (body ++ [rbrace]) := by
  have hf : trimFront (lbrace :: (body ++ [rbrace])) = lbrace :: (body ++ [rbrace]) := by
    have := trimFront_split [] (body ++ [rbrace]) (by simp)
    simp only [List.nil_append] at this
    rw [this]
    split_ifs
    · have hl := length_le_byteLen (body ++ [rbrace])
      have : (lbrace :: (body ++ [rbrace])).length - (byteLen (body ++ [rbrace]) + 1) = 0 := by
        simp only [List.length_cons]
        omega
      rw [this, List.drop_zero]
    · rfl
  unfold appInfoPayload
  rw [hf]
  have := trimBack_split (lbrace :: body) [] (by simp)
  simp only [List.cons_append] at this
  rw [this]
  split_ifs
  · apply List.take_of_length_le
    have hl := length_le_byteLen (lbrace :: body)
    simp only [List.length_cons, List.length_append, List.length_nil] at hl ⊢
    omega
  · rfl

/-- `json.Unmarshal` on the JSON text of a well-formed dump: the tree of the dump when the
objects of the text are nested at most `maxNestingDepth` deep, an error otherwise. -/
theorem jsonUnmarshalMap_dump (d : Dump) (hwf : d.WF) :
    jsonUnmarshalMap (lbrace :: (d.render stage6 ++ [rbrace]))
      = if d.depth < maxNestingDepth then some (JVal.obj d.tree) else none := by
  have hp := parseValue_obj ((lbrace :: (d.render stage6 ++ [rbrace])).length)
    maxNestingDepth d [] hwf (by
    have := size_le_length stage6 d
    simp only [List.length_cons, List.length_append, List.length_nil]
    omega)
  unfold jsonUnmarshalMap jsonDecode
  rw [skipWs_cons lbrace _ (by decide), hp]
  by_cases h : d.depth < maxNestingDepth
  · have : d.depth + 1 ≤ maxNestingDepth := h
    rw [if_pos h, if_pos this]
    simp [skipWs]
  · have : ¬ d.depth + 1 ≤ maxNestingDepth := h
    rw [if_neg h, if_neg this]

/-- The map parsed from a well-formed dump: the tree of the dump, or nothing when the
objects are nested deeper than `encoding/json` accepts. -/
theorem appInfoRaw_dump (onl : Bool) (d : Dump) (ci : Nat) (hwf : d.WF) :
    appInfoRaw (dumpText onl d ci)
      = if d.depth < maxNestingDepth then some (JVal.obj d.tree) else none := by
  have hpay : appInfoPayload (dumpText onl d ci) = dumpText onl d ci := by
    have := appInfoPayload_braced (optNl onl ++ (d.text ++ tabs ci))
    simpa [dumpText] using this
  rw [appInfoRaw, hpay, appInfoRewrite_dump onl d ci hwf, jsonUnmarshalMap_dump d hwf]

/-- C1 (amended): for every well-formed dump payload (an opening brace, optionally a
newline, members that are each followed by a newline, a closing brace; a member being a
quoted key followed by tabs and a quoted value, or by a newline and an object; any number
of tabs at the start of a line; keys non-empty and distinct within an object; keys and
values without double quote, backslash or rune below U+0020) whose objects, the outermost
included, are nested at most 10000 deep, `appInfoFormat` succeeds and the map it parses is
exactly the tree of the dump, with the same nesting depth. -/
theorem C1_dump_parsed (onl : Bool) (d : Dump) (ci : Nat) (hwf : d.WF)
    (hdepth : d.depth + 1 ≤ 10000) :
    appInfoRaw (dumpText onl d ci) = some (JVal.obj d.tree) ∧
    appInfoFormat (dumpText onl d ci) = some (prettyDoc (JVal.obj d.tree)) ∧
    d.tree.depth = d.depth := by
  have hlt : d.depth < maxNestingDepth := hdepth
  have hraw : appInfoRaw (dumpText onl d ci) = some (JVal.obj d.tree) := by
    rw [appInfoRaw_dump onl d ci hwf, if_pos hlt]
  exact ⟨hraw, by rw [appInfoFormat_eq, hraw]; rfl, tree_depth d⟩

/-- Witness of C1 (amended): the dump `{"a""1"`, `"b"`, `{`, `"c""2"`, `}`, `}` is parsed
into `Object[("a","1"), ("b", Object[("c","2")])]`. -/
theorem C1_dump_parsed_witness :
    appInfoRaw "\x7b\"a\"\"1\"\n\"b\"\n\x7b\n\"c\"\"2\"\n\x7d\n\x7d".toList
      = some (JVal.obj (JMembers.cons "a".toList (JVal.str "1".toList)
          (JMembers.cons "b".toList
            (JVal.obj (JMembers.cons "c".toList (JVal.str "2".toList) JMembers.nil))
            JMembers.nil))) :=
  (C1_dump_parsed false
    (Dump.scalar 0 "a".toList 0 "1".toList
      (Dump.nested 0 "b".toList 0 true (Dump.scalar 0 "c".toList 0 "2".toList Dump.nil) 0
        Dump.nil)) 0
    (by simp [Dump.WF, Dump.keys, cleanWord]; decide)
    (by simp [Dump.depth])).1

theorem deepDump_wf : ∀ n : Nat, (deepDump n).WF := by
  intro n
  induction n with
  | zero => trivial
  | succ n ih =>
    refine ⟨by simp, ?_, by simp [Dump.keys], ih, trivial⟩
    intro c hc
    rw [List.mem_singleton] at hc
    subst hc
    decide

theorem deepDump_depth : ∀ n : Nat, (deepDump n).depth = n := by
  intro n
  induction n with
  | zero => rfl
  | succ n ih => simp [deepDump, Dump.depth, ih]

/-- Counterexample to C1 as stated: the well-formed dump of 10001 objects nested inside
each other (`{`, then 10000 times `"a"` and `{` on a line of their own, then the closing
braces) is refused by `json.Unmarshal` for its depth, and `appInfoFormat` returns no
document. -/
theorem C1_deep_dump_fails :
    (deepDump 10000).WF ∧ (deepDump 10000).depth + 1 = 10001 ∧
      appInfoFormat (dumpText true (deepDump 10000) 0) = none := by
  refine ⟨deepDump_wf 10000, by rw [deepDump_depth], ?_⟩
  rw [appInfoFormat_eq, appInfoRaw_dump true _ 0 (deepDump_wf 10000), deepDump_depth,
    if_neg (by decide)]
  rfl

/-! ## C5: running `appInfoFormat` on the JSON text of its own document -/

theorem escapeStr_clean (w : List Char) (h : cleanWord w) : escapeStr w = w := by
  induction w with
  | nil => rfl
  | cons c cs ih =>
    obtain ⟨h1, h2, h3⟩ := h c (List.mem_cons_self _ _)
    have := ih (fun x hx => h x (List.mem_cons_of_mem _ hx))
    simp [escapeStr, escapeChar1, h1, h2, h3, this]

theorem commaBefore_tree (d : Dump) : commaBefore d.tree = sepAfter d [','] [] := by
  cases d <;> rfl

/-- The compact JSON text of the tree of a dump is the dump written in the last stage. -/
theorem jsonTextMembers_tree : ∀ d : Dump, d.WF → jsonTextMembers d.tree = d.render stage6 := by
  intro d
  induction d with
  | nil => intro _; rfl
  | scalar i k s v rest ih =>
    intro hwf
    obtain ⟨_, hck, hcv, _, hrest⟩ := hwf
    simp only [Dump.tree, jsonTextMembers, jsonText, Dump.render, stage6, escapeStr_clean _ hck,
      escapeStr_clean _ hcv, commaBefore_tree, ih hrest]
    simp
  | nested i k oi onl sub ci rest ihs ihr =>
    intro hwf
    obtain ⟨_, hck, _, hsub, hrest⟩ := hwf
    simp only [Dump.tree, jsonTextMembers, jsonText, Dump.render, stage6, escapeStr_clean _ hck,
      commaBefore_tree, ihs hsub, ihr hrest]
    simp

theorem filter_clean (w : List Char) (x : Char) (hx : x.toNat < 0x20) (h : cleanWord w) :
    w.filter (fun c => c != x) = w := by
  rw [List.filter_eq_self]
  intro a ha
  obtain ⟨_, _, h3⟩ := h a ha
  have : a ≠ x := by
    intro e
    rw [e] at h3
    exact h3 hx
  simpa using this

/-- The JSON text of a well-formed dump contains no rune below U+0020. -/
theorem render6_filter (x : Char) (hx : x.toNat < 0x20) : ∀ d : Dump, d.WF →
    (d.render stage6).filter (fun c => c != x) = d.render stage6 := by
  have hq : (quote != x) = true := by
    simp only [bne_iff_ne]; intro e; rw [← e] at hx; exact absurd hx (by decide)
  have hc : ((':' : Char) != x) = true := by
    simp only [bne_iff_ne]; intro e; rw [← e] at hx; exact absurd hx (by decide)
  have hm : ((',' : Char) != x) = true := by
    simp only [bne_iff_ne]; intro e; rw [← e] at hx; exact absurd hx (by decide)
  have hl : (lbrace != x) = true := by
    simp only [bne_iff_ne]; intro e; rw [← e] at hx; exact absurd hx (by decide)
  have hr : (rbrace != x) = true := by
    simp only [bne_iff_ne]; intro e; rw [← e] at hx; exact absurd hx (by decide)
  intro d
  induction d with
  | nil => intro _; rfl
  | scalar i k s v rest ih =>
    intro hwf
    obtain ⟨_, hck, hcv, _, hrest⟩ := hwf
    have h1 := ih hrest
    have h2 : (sepAfter rest [','] []).filter (fun c => c != x) = sepAfter rest [','] [] := by
      cases rest <;> simp [sepAfter, hm]
    simp only [stage6] at h1
    simp only [Dump.render, stage6, List.filter_append, List.filter_cons, hq, hc, if_true,
      filter_clean _ x hx hck, filter_clean _ x hx hcv, h1, h2, List.filter_nil]
  | nested i k oi onl sub ci rest ihs ihr =>
    intro hwf
    obtain ⟨_, hck, _, hsub, hrest⟩ := hwf
    have h1 := ihs hsub
    have h3 := ihr hrest
    have h2 : (sepAfter rest [','] []).filter (fun c => c != x) = sepAfter rest [','] [] := by
      cases rest <;> simp [sepAfter, hm]
    simp only [stage6] at h1 h3
    simp only [Dump.render, stage6, List.filter_append, List.filter_cons, hq, hc, hl, hr,
      if_true, filter_clean _ x hx hck, h1, h2, h3, List.filter_nil, ite_self]

theorem colonScalar_json : ∀ (d : Dump), d.WF → d.valuesNonempty → ∀ ctx : List Char,
    colonScalar (d.render stage6 ++ rbrace :: ctx)
      = d.render stage6 ++ colonScalar (rbrace :: ctx) := by
  intro d
  induction d with
  | nil => intro _ _ ctx; rfl
  | scalar i k s v rest ih =>
    intro hwf hne ctx
    obtain ⟨hk, hck, hcv, _, hrest⟩ := hwf
    obtain ⟨hv, hne2⟩ := hne
    have ih2 := ih hrest hne2 ctx
    have hstep : colonScalar (quote :: (sepAfter rest [','] [] ++
          (rest.render stage6 ++ rbrace :: ctx)))
        = quote :: (sepAfter rest [','] [] ++ (rest.render stage6 ++
          colonScalar (rbrace :: ctx))) := by
      by_cases hnil : rest = Dump.nil
      · subst hnil
        unfold colonScalar
        simp only [Dump.render, sepAfter, List.nil_append]
        rw [replaceAll_skip2 _ _ _ _ _ _ _ (by decide)]
      · rw [sepAfter_cons _ _ _ hnil, ← ih2]
        unfold colonScalar
        simp only [List.cons_append, List.nil_append]
        rw [replaceAll_skip2 _ _ _ _ _ _ _ (by decide), replaceAll_skip1 _ _ _ _ _ (by decide)]
    simp only [Dump.render, stage6, List.nil_append, List.cons_append, List.append_assoc,
      List.singleton_append]
    simp only [stage6] at hstep
    unfold colonScalar at hstep ⊢
    rw [replaceAll_qkey _ _ _ _ hk hck, replaceAll_skip2 _ _ _ _ _ _ _ (by decide),
      replaceAll_skip1 _ _ _ _ _ (by decide), replaceAll_qkey _ _ _ _ hv hcv, hstep]
  | nested i k oi onl sub ci rest ihs ihr =>
    intro hwf hne ctx
    obtain ⟨hk, hck, _, hsub, hrest⟩ := hwf
    obtain ⟨hne1, hne2⟩ := hne
    have ih2 := ihr hrest hne2 ctx
    have hstep : colonScalar (rbrace :: (sepAfter rest [','] [] ++
          (rest.render stage6 ++ rbrace :: ctx)))
        = rbrace :: (sepAfter rest [','] [] ++ (rest.render stage6 ++
          colonScalar (rbrace :: ctx))) := by
      by_cases hnil : rest = Dump.nil
      · subst hnil
        unfold colonScalar
        simp only [Dump.render, sepAfter, List.nil_append]
        rw [replaceAll_skip1 _ _ _ _ _ (by decide)]
      · rw [sepAfter_cons _ _ _ hnil, ← ih2]
        unfold colonScalar
        simp only [List.cons_append, List.nil_append]
        rw [replaceAll_skip1 _ _ _ _ _ (by decide), replaceAll_skip1 _ _ _ _ _ (by decide)]
    have ih1 := ihs hsub hne1 (sepAfter rest [','] [] ++ (rest.render stage6 ++ rbrace :: ctx))
    rw [hstep] at ih1
    simp only [Dump.render, stage6, List.nil_append, List.cons_append, List.append_assoc,
      List.singleton_append, ite_self]
    simp only [stage6] at ih1
    unfold colonScalar at ih1 ⊢
    rw [replaceAll_qkey _ _ _ _ hk hck, replaceAll_skip2 _ _ _ _ _ _ _ (by decide),
      replaceAll_skip1 _ _ _ _ _ (by decide), replaceAll_skip1 _ _ _ _ _ (by decide), ih1]

theorem not_mem_of_filter_self (x : Char) (s : List Char)
    (h : s.filter (fun c => c != x) = s) : x ∉ s := by
  intro hm
  have := (List.filter_eq_self.1 h) x hm
  simp at this

/-- The rewrite leaves the compact JSON text of a well-formed dump without empty values
unchanged. -/
theorem appInfoRewrite_json (d : Dump) (hwf : d.WF) (hne : d.valuesNonempty) :
    appInfoRewrite (lbrace :: (d.render stage6 ++ [rbrace]))
      = lbrace :: (d.render stage6 ++ [rbrace]) := by
  have hfilter : ∀ x : Char, x.toNat < 0x20 →
      (lbrace :: (d.render stage6 ++ [rbrace])).filter (fun c => c != x)
        = lbrace :: (d.render stage6 ++ [rbrace]) := by
    intro x hx
    have hl : (lbrace != x) = true := by
      simp only [bne_iff_ne]; intro e; rw [← e] at hx; exact absurd hx (by decide)
    have hr : (rbrace != x) = true := by
      simp only [bne_iff_ne]; intro e; rw [← e] at hx; exact absurd hx (by decide)
    simp only [List.filter_cons, List.filter_append, hl, hr, if_true,
      render6_filter x hx d hwf, List.filter_nil]
  have hnl := not_mem_of_filter_self nl _ (hfilter nl (by decide))
  have hcs : colonScalar (lbrace :: (d.render stage6 ++ [rbrace]))
      = lbrace :: (d.render stage6 ++ [rbrace]) := by
    have := colonScalar_json d hwf hne []
    unfold colonScalar at this ⊢
    rw [replaceAll_skip1 _ _ _ _ _ (by decide), this]
    rfl
  unfold appInfoRewrite
  have h1 : removeTabs (lbrace :: (d.render stage6 ++ [rbrace]))
      = lbrace :: (d.render stage6 ++ [rbrace]) := by
    unfold removeTabs
    rw [replaceAll_remove, hfilter tab (by decide)]
  have h2 : colonNested (lbrace :: (d.render stage6 ++ [rbrace]))
      = lbrace :: (d.render stage6 ++ [rbrace]) :=
    replaceAll_absent _ _ nl (by simp) _ hnl
  have h4 : commaBrace (lbrace :: (d.render stage6 ++ [rbrace]))
      = lbrace :: (d.render stage6 ++ [rbrace]) :=
    replaceAll_absent _ _ nl (by simp) _ hnl
  have h5 : commaQuote (lbrace :: (d.render stage6 ++ [rbrace]))
      = lbrace :: (d.render stage6 ++ [rbrace]) :=
    replaceAll_absent _ _ nl (by simp) _ hnl
  have h6 : removeNewlines (lbrace :: (d.render stage6 ++ [rbrace]))
      = lbrace :: (d.render stage6 ++ [rbrace]) := by
    unfold removeNewlines
    rw [replaceAll_remove, hfilter nl (by decide)]
  rw [h1, h2, hcs, h4, h5, h6]

/-! ## The dump of the printed document -/

theorem tree_insertScalar (k v : List Char) : ∀ d : Dump,
    (Dump.insertScalar k v d).tree = insertSorted k (JVal.str v) d.tree := by
  intro d
  induction d with
  | nil => rfl
  | scalar i k1 s v1 rest ih =>
    by_cases h : strLt k k1 = true
    · simp [Dump.insertScalar, Dump.tree, insertSorted, h]
    · simp [Dump.insertScalar, Dump.tree, insertSorted, h, ih]
  | nested i k1 oi onl sub ci rest _ ih =>
    by_cases h : strLt k k1 = true
    · simp [Dump.insertScalar, Dump.tree, insertSorted, h]
    · simp [Dump.insertScalar, Dump.tree, insertSorted, h, ih]

theorem tree_insertNested (k : List Char) (body : Dump) : ∀ d : Dump,
    (Dump.insertNested k body d).tree = insertSorted k (JVal.obj body.tree) d.tree := by
  intro d
  induction d with
  | nil => rfl
  | scalar i k1 s v1 rest ih =>
    by_cases h : strLt k k1 = true
    · simp [Dump.insertNested, Dump.tree, insertSorted, h]
    · simp [Dump.insertNested, Dump.tree, insertSorted, h, ih]
  | nested i k1 oi onl sub ci rest _ ih =>
    by_cases h : strLt k k1 = true
    · simp [Dump.insertNested, Dump.tree, insertSorted, h]
    · simp [Dump.insertNested, Dump.tree, insertSorted, h, ih]

/-- The tree of the sorted dump is the printed document. -/
theorem tree_sorted : ∀ d : Dump, d.sorted.tree = prettyMembers d.tree := by
  intro d
  induction d with
  | nil => rfl
  | scalar i k s v rest ih =>
    simp [Dump.sorted, Dump.tree, prettyMembers, prettyDoc, tree_insertScalar, ih]
  | nested i k oi onl sub ci rest ihs ihr =>
    simp [Dump.sorted, Dump.tree, prettyMembers, prettyDoc, tree_insertNested, ihs, ihr]

theorem tree_keys : ∀ d : Dump, d.tree.keys = d.keys := by
  intro d
  induction d with
  | nil => rfl
  | scalar i k s v rest ih => simp [Dump.tree, Dump.keys, JMembers.keys, ih]
  | nested i k oi onl sub ci rest _ ih => simp [Dump.tree, Dump.keys, JMembers.keys, ih]

theorem mem_keys_insertScalar (k v x : List Char) (d : Dump) :
    x ∈ (Dump.insertScalar k v d).keys ↔ x = k ∨ x ∈ d.keys := by
  rw [← tree_keys, ← tree_keys, tree_insertScalar,
    List.Perm.mem_iff (keys_insertSorted k _ _), List.mem_cons]

theorem mem_keys_insertNested (k x : List Char) (body d : Dump) :
    x ∈ (Dump.insertNested k body d).keys ↔ x = k ∨ x ∈ d.keys := by
  rw [← tree_keys, ← tree_keys, tree_insertNested,
    List.Perm.mem_iff (keys_insertSorted k _ _), List.mem_cons]

theorem mem_keys_sorted (x : List Char) (d : Dump) : x ∈ d.sorted.keys ↔ x ∈ d.keys := by
  rw [← tree_keys, ← tree_keys, tree_sorted, List.Perm.mem_iff (keys_prettyMembers _)]

theorem wf_insertScalar (k v : List Char) (hk : k ≠ []) (hck : cleanWord k)
    (hcv : cleanWord v) : ∀ d : Dump, d.WF → k ∉ d.keys → (Dump.insertScalar k v d).WF := by
  intro d
  induction d with
  | nil => intro _ _; exact ⟨hk, hck, hcv, by simp [Dump.keys], trivial⟩
  | scalar i k1 s v1 rest ih =>
    intro hwf hn
    obtain ⟨h1, h2, h3, h4, h5⟩ := hwf
    simp only [Dump.keys, List.mem_cons, not_or] at hn
    by_cases h : strLt k k1 = true
    · simp only [Dump.insertScalar, h, if_true]
      exact ⟨hk, hck, hcv, by simp [Dump.keys, hn.1, hn.2], h1, h2, h3, h4, h5⟩
    · simp only [Dump.insertScalar, h]
      refine ⟨h1, h2, h3, ?_, ih h5 hn.2⟩
      rw [mem_keys_insertScalar]
      exact fun e => e.elim (fun e => hn.1 e.symm) h4
  | nested i k1 oi onl sub ci rest _ ih =>
    intro hwf hn
    obtain ⟨h1, h2, h3, h4, h5⟩ := hwf
    simp only [Dump.keys, List.mem_cons, not_or] at hn
    by_cases h : strLt k k1 = true
    · simp only [Dump.insertScalar, h, if_true]
      exact ⟨hk, hck, hcv, by simp [Dump.keys, hn.1, hn.2], h1, h2, h3, h4, h5⟩
    · simp only [Dump.insertScalar, h]
      refine ⟨h1, h2, ?_, h4, ih h5 hn.2⟩
      rw [mem_keys_insertScalar]
      exact fun e => e.elim (fun e => hn.1 e.symm) h3

theorem wf_insertNested (k : List Char) (body : Dump) (hk : k ≠ []) (hck : cleanWord k)
    (hb : body.WF) : ∀ d : Dump, d.WF → k ∉ d.keys → (Dump.insertNested k body d).WF := by
  intro d
  induction d with
  | nil => intro _ _; exact ⟨hk, hck, by simp [Dump.keys], hb, trivial⟩
  | scalar i k1 s v1 rest ih =>
    intro hwf hn
    obtain ⟨h1, h2, h3, h4, h5⟩ := hwf
    simp only [Dump.keys, List.mem_cons, not_or] at hn
    by_cases h : strLt k k1 = true
    · simp only [Dump.insertNested, h, if_true]
      exact ⟨hk, hck, by simp [Dump.keys, hn.1, hn.2], hb, h1, h2, h3, h4, h5⟩
    · simp only [Dump.insertNested, h]
      refine ⟨h1, h2, h3, ?_, ih h5 hn.2⟩
      rw [mem_keys_insertNested]
      exact fun e => e.elim (fun e => hn.1 e.symm) h4
  | nested i k1 oi onl sub ci rest _ ih =>
    intro hwf hn
    obtain ⟨h1, h2, h3, h4, h5⟩ := hwf
    simp only [Dump.keys, List.mem_cons, not_or] at hn
    by_cases h : strLt k k1 = true
    · simp only [Dump.insertNested, h, if_true]
      exact ⟨hk, hck, by simp [Dump.keys, hn.1, hn.2], hb, h1, h2, h3, h4, h5⟩
    · simp only [Dump.insertNested, h]
      refine ⟨h1, h2, ?_, h4, ih h5 hn.2⟩
      rw [mem_keys_insertNested]
      exact fun e => e.elim (fun e => hn.1 e.symm) h3

theorem wf_sorted : ∀ d : Dump, d.WF → d.sorted.WF := by
  intro d
  induction d with
  | nil => intro _; trivial
  | scalar i k s v rest ih =>
    intro hwf
    obtain ⟨h1, h2, h3, h4, h5⟩ := hwf
    exact wf_insertScalar k v h1 h2 h3 _ (ih h5) (fun e => h4 ((mem_keys_sorted k rest).1 e))
  | nested i k oi onl sub ci rest ihs ihr =>
    intro hwf
    obtain ⟨h1, h2, h3, h4, h5⟩ := hwf
    exact wf_insertNested k _ h1 h2 (ihs h4) _ (ihr h5)
      (fun e => h3 ((mem_keys_sorted k rest).1 e))

theorem nonempty_insertScalar (k v : List Char) (hv : v ≠ []) : ∀ d : Dump,
    d.valuesNonempty → (Dump.insertScalar k v d).valuesNonempty := by
  intro d
  induction d with
  | nil => intro _; exact ⟨hv, trivial⟩
  | scalar i k1 s v1 rest ih =>
    intro h
    by_cases hlt : strLt k k1 = true
    · simp only [Dump.insertScalar, hlt, if_true]
      exact ⟨hv, h⟩
    · simp only [Dump.insertScalar, hlt]
      exact ⟨h.1, ih h.2⟩
  | nested i k1 oi onl sub ci rest _ ih =>
    intro h
    by_cases hlt : strLt k k1 = true
    · simp only [Dump.insertScalar, hlt, if_true]
      exact ⟨hv, h⟩
    · simp only [Dump.insertScalar, hlt]
      exact ⟨h.1, ih h.2⟩

theorem nonempty_insertNested (k : List Char) (body : Dump) (hb : body.valuesNonempty) :
    ∀ d : Dump, d.valuesNonempty → (Dump.insertNested k body d).valuesNonempty := by
  intro d
  induction d with
  | nil => intro _; exact ⟨hb, trivial⟩
  | scalar i k1 s v1 rest ih =>
    intro h
    by_cases hlt : strLt k k1 = true
    · simp only [Dump.insertNested, hlt, if_true]
      exact ⟨hb, h⟩
    · simp only [Dump.insertNested, hlt]
      exact ⟨h.1, ih h.2⟩
  | nested i k1 oi onl sub ci rest _ ih =>
    intro h
    by_cases hlt : strLt k k1 = true
    · simp only [Dump.insertNested, hlt, if_true]
      exact ⟨hb, h⟩
    · simp only [Dump.insertNested, hlt]
      exact ⟨h.1, ih h.2⟩

theorem nonempty_sorted : ∀ d : Dump, d.valuesNonempty → d.sorted.valuesNonempty := by
  intro d
  induction d with
  | nil => intro _; trivial
  | scalar i k s v rest ih => intro h; exact nonempty_insertScalar k v h.1 _ (ih h.2)
  | nested i k oi onl sub ci rest ihs ihr =>
    intro h; exact nonempty_insertNested k _ (ihs h.1) _ (ihr h.2)

theorem depth_insertScalar (k v : List Char) : ∀ d : Dump,
    (Dump.insertScalar k v d).depth = d.depth := by
  intro d
  induction d with
  | nil => rfl
  | scalar i k1 s v1 rest ih =>
    by_cases h : strLt k k1 = true
    · simp [Dump.insertScalar, Dump.depth, h]
    · simp [Dump.insertScalar, Dump.depth, h, ih]
  | nested i k1 oi onl sub ci rest _ ih =>
    by_cases h : strLt k k1 = true
    · simp [Dump.insertScalar, Dump.depth, h]
    · simp [Dump.insertScalar, Dump.depth, h, ih]

theorem depth_insertNested (k : List Char) (body : Dump) : ∀ d : Dump,
    (Dump.insertNested k body d).depth = max (body.depth + 1) d.depth := by
  intro d
  induction d with
  | nil => rfl
  | scalar i k1 s v1 rest ih =>
    by_cases h : strLt k k1 = true
    · simp [Dump.insertNested, Dump.depth, h]
    · simp [Dump.insertNested, Dump.depth, h, ih]
  | nested i k1 oi onl sub ci rest _ ih =>
    by_cases h : strLt k k1 = true
    · simp [Dump.insertNested, Dump.depth, h]
    · simp only [Dump.insertNested, Dump.depth, h, ih]
      omega

theorem depth_sorted : ∀ d : Dump, d.sorted.depth = d.depth := by
  intro d
  induction d with
  | nil => rfl
  | scalar i k s v rest ih => simp [Dump.sorted, Dump.depth, depth_insertScalar, ih]
  | nested i k oi onl sub ci rest ihs ihr =>
    simp [Dump.sorted, Dump.depth, depth_insertNested, ihs, ihr]

theorem insertSorted_front (k : List Char) (v : JVal) : ∀ m : JMembers,
    (∀ x ∈ m.keys, strLt k x = true) → insertSorted k v m = JMembers.cons k v m
  | .nil, _ => rfl
  | .cons k1 v1 m, h => by
    have := h k1 (by simp [JMembers.keys])
    simp [insertSorted, this]

mutual
/-- Printing a document whose objects already list their keys in ascending order changes
nothing. -/
theorem prettyDoc_of_sorted : ∀ v : JVal, sortedKeysV v → prettyDoc v = v
  | .null => fun _ => rfl
  | .bool _ => fun _ => rfl
  | .num _ => fun _ => rfl
  | .str _ => fun _ => rfl
  | .arr l => fun h => by
    simp only [sortedKeysV] at h
    simp only [prettyDoc, prettyList_of_sorted l h]
  | .obj m => fun h => by
    simp only [sortedKeysV] at h
    simp only [prettyDoc, prettyMembers_of_sorted m h.1 h.2]
theorem prettyList_of_sorted : ∀ l : JList, sortedKeysL l → prettyList l = l
  | .nil => fun _ => rfl
  | .cons v l => fun h => by
    simp only [sortedKeysL] at h
    simp only [prettyList, prettyDoc_of_sorted v h.1, prettyList_of_sorted l h.2]
theorem prettyMembers_of_sorted : ∀ m : JMembers,
    m.keys.Pairwise (fun a b => strLt a b = true) → sortedKeysM m → prettyMembers m = m
  | .nil => fun _ _ => rfl
  | .cons k v m => fun hp h => by
    simp only [sortedKeysM] at h
    simp only [JMembers.keys, List.pairwise_cons] at hp
    simp only [prettyMembers, prettyDoc_of_sorted v h.1, prettyMembers_of_sorted m hp.2 h.2]
    exact insertSorted_front k v m hp.1
end

theorem tree_unique : ∀ d : Dump, d.WF → d.tree.keys.Nodup ∧ uniqueKeysM d.tree := by
  intro d
  induction d with
  | nil => intro _; simp [Dump.tree, JMembers.keys, uniqueKeysM]
  | scalar i k s v rest ih =>
    intro hwf
    obtain ⟨_, _, _, h4, h5⟩ := hwf
    obtain ⟨a, b⟩ := ih h5
    simp only [Dump.tree, JMembers.keys, List.nodup_cons, uniqueKeysM, uniqueKeysV, tree_keys]
    rw [tree_keys] at a
    exact ⟨⟨h4, a⟩, trivial, b⟩
  | nested i k oi onl sub ci rest ihs ihr =>
    intro hwf
    obtain ⟨_, _, h3, h4, h5⟩ := hwf
    obtain ⟨a, b⟩ := ihr h5
    obtain ⟨c, e⟩ := ihs h4
    simp only [Dump.tree, JMembers.keys, List.nodup_cons, uniqueKeysM, uniqueKeysV, tree_keys]
    rw [tree_keys] at a c
    exact ⟨⟨h3, a⟩, ⟨c, e⟩, b⟩

/-- C5 (amended): for every well-formed dump `T` whose scalar values are all non-empty and
on which `appInfoFormat` succeeds with document `D`, running `appInfoFormat` on the compact
JSON text of `D` succeeds: it parses `D` and returns `D` again. -/
theorem C5_idempotent (onl : Bool) (d : Dump) (ci : Nat) (hwf : d.WF)
    (hne : d.valuesNonempty) (D : JVal) (h : appInfoFormat (dumpText onl d ci) = some D) :
    appInfoRaw (jsonText D) = some D ∧ appInfoFormat (jsonText D) = some D := by
  rw [appInfoFormat_eq, appInfoRaw_dump onl d ci hwf] at h
  by_cases hdep : d.depth < maxNestingDepth
  · rw [if_pos hdep] at h
    simp only [Option.map_some', Option.some.injEq] at h
    have hD : D = JVal.obj d.sorted.tree := by
      rw [← h, tree_sorted]
      rfl
    have hwfs := wf_sorted d hwf
    have hjson : jsonText D = lbrace :: (d.sorted.render stage6 ++ [rbrace]) := by
      rw [hD, jsonText, jsonTextMembers_tree _ hwfs]
    have hdeps : d.sorted.depth < maxNestingDepth := by
      rw [depth_sorted]
      exact hdep
    have hraw : appInfoRaw (jsonText D) = some D := by
      rw [hjson, appInfoRaw, appInfoPayload_braced,
        appInfoRewrite_json _ hwfs (nonempty_sorted d hne), jsonUnmarshalMap_dump _ hwfs,
        if_pos hdeps, hD]
    refine ⟨hraw, ?_⟩
    rw [appInfoFormat_eq, hraw]
    have hs : sortedKeysV D := by
      rw [← h]
      exact prettyDoc_sorted _ (by
        simp only [uniqueKeysV]
        exact tree_unique d hwf)
    simp only [Option.map_some', prettyDoc_of_sorted D hs]
  · rw [if_neg hdep] at h
    simp at h

/-- Witness of C5 (amended): the dump lists `b`, then `a` with the nested key `z`;
`appInfoFormat` returns the document that lists `a` first, and the JSON text of that
document is returned unchanged as a document. -/
theorem C5_idempotent_witness :
    appInfoFormat (dumpText true
        (Dump.scalar 1 "b".toList 1 "1".toList
          (Dump.nested 1 "a".toList 1 true
            (Dump.scalar 2 "z".toList 1 "2".toList Dump.nil) 1 Dump.nil)) 0)
      = some (JVal.obj (JMembers.cons "a".toList
        (JVal.obj (JMembers.cons "z".toList (JVal.str "2".toList) JMembers.nil))
        (JMembers.cons "b".toList (JVal.str "1".toList) JMembers.nil))) ∧
    appInfoRaw (jsonText (JVal.obj (JMembers.cons "a".toList
        (JVal.obj (JMembers.cons "z".toList (JVal.str "2".toList) JMembers.nil))
        (JMembers.cons "b".toList (JVal.str "1".toList) JMembers.nil))))
      = some (JVal.obj (JMembers.cons "a".toList
        (JVal.obj (JMembers.cons "z".toList (JVal.str "2".toList) JMembers.nil))
        (JMembers.cons "b".toList (JVal.str "1".toList) JMembers.nil))) ∧
    appInfoFormat (jsonText (JVal.obj (JMembers.cons "a".toList
        (JVal.obj (JMembers.cons "z".toList (JVal.str "2".toList) JMembers.nil))
        (JMembers.cons "b".toList (JVal.str "1".toList) JMembers.nil))))
      = some (JVal.obj (JMembers.cons "a".toList
        (JVal.obj (JMembers.cons "z".toList (JVal.str "2".toList) JMembers.nil))
        (JMembers.cons "b".toList (JVal.str "1".toList) JMembers.nil))) :=
  ⟨by decide,
    C5_idempotent true
      (Dump.scalar 1 "b".toList 1 "1".toList
        (Dump.nested 1 "a".toList 1 true
          (Dump.scalar 2 "z".toList 1 "2".toList Dump.nil) 1 Dump.nil)) 0
      (by simp [Dump.WF, Dump.keys, cleanWord]; decide)
      (by simp [Dump.valuesNonempty])
      _ (by decide)⟩

/-- Counterexample to C5 as stated: on the well-formed dump `{`, tab `"K"` tab `""`, `}`
`appInfoFormat` succeeds with the document that maps `K` to the empty leaf; the JSON text of
that document is `{"K":""}`, and on it `appInfoFormat` returns the document that maps `K` to
the leaf `:`. -/
theorem C5_empty_value_changes :
    appInfoFormat (dumpText true (Dump.scalar 1 "K".toList 1 [] Dump.nil) 0)
      = some (JVal.obj (JMembers.cons "K".toList (JVal.str []) JMembers.nil)) ∧
    jsonText (JVal.obj (JMembers.cons "K".toList (JVal.str []) JMembers.nil))
      = "\x7b\"K\":\"\"\x7d".toList ∧
    appInfoFormat (jsonText (JVal.obj (JMembers.cons "K".toList (JVal.str []) JMembers.nil)))
      = some (JVal.obj (JMembers.cons "K".toList (JVal.str ":".toList) JMembers.nil)) ∧
    appInfoFormat (jsonText (JVal.obj (JMembers.cons "K".toList (JVal.str []) JMembers.nil)))
      ≠ some (JVal.obj (JMembers.cons "K".toList (JVal.str []) JMembers.nil)) := by
  decide

/-! ## The fuel of the parser is sufficient -/

theorem skipWs_length (s : List Char) : (skipWs s).length ≤ s.length := by
  obtain ⟨ws, h, _⟩ := skipWs_split s
  have := congrArg List.length h
  simp only [List.length_append] at this
  omega

theorem parseStr_length (n : Nat) (s w r : List Char) (h : parseStr n s = some (w, r)) :
    r.length < s.length := by
  obtain ⟨body, hb, _⟩ := parseStr_split n s w r h
  have := congrArg List.length hb
  simp only [List.length_append, List.length_cons] at this
  omega

theorem parseValue_length (n dep : Nat) (s : List Char) (v : JVal) (r : List Char)
    (h : parseValue n dep s = some (v, r)) : r.length < s.length := by
  obtain ⟨c, hc, hne, _⟩ := (parse_consumed n).1 dep s v r h
  have := congrArg List.length hc
  have := List.length_pos.2 hne
  simp only [List.length_append] at *
  omega

theorem parseMembers_length (n dep : Nat) (s : List Char) (acc m : JMembers) (r : List Char)
    (h : parseMembers n dep s acc = some (m, r)) : r.length < s.length := by
  obtain ⟨c, hc, _⟩ := (parse_consumed n).2.1 dep s acc m r h
  have := congrArg List.length hc
  simp only [List.length_append, List.length_cons] at this
  omega

theorem parseElements_length : ∀ (n dep : Nat) (s : List Char) (acc l : JList) (r : List Char),
    parseElements n dep s acc = some (l, r) → r.length < s.length := by
  intro n
  induction n with
  | zero => intro dep s acc l r h; simp [parseElements] at h
  | succ n ih =>
    intro dep s acc l r h
    simp only [parseElements] at h
    split at h
    · simp at h
    · rename_i v r1 hv
      have h1 := parseValue_length _ _ _ _ _ hv
      have h2 := skipWs_length r1
      split at h
      · simp at h
      · rename_i e r2 he
        rw [he] at h2
        simp only [List.length_cons] at h2
        split_ifs at h
        · have h3 := ih _ _ _ _ _ h
          have h4 := skipWs_length r2
          omega
        · simp only [Option.some.injEq, Prod.mk.injEq] at h
          rw [← h.2]
          omega

/-- A result obtained with any fuel is obtained with every fuel that is at least the
number of runes consumed. -/
theorem parse_fuel : ∀ (n : Nat),
    (∀ dep s v r, parseValue n dep s = some (v, r) →
      ∀ f, s.length - r.length ≤ f → parseValue f dep s = some (v, r)) ∧
    (∀ dep s acc m r, parseMembers n dep s acc = some (m, r) →
      ∀ f, s.length - r.length ≤ f → parseMembers f dep s acc = some (m, r)) ∧
    (∀ dep s acc l r, parseElements n dep s acc = some (l, r) →
      ∀ f, s.length - r.length ≤ f → parseElements f dep s acc = some (l, r)) := by
  intro n
  induction n with
  | zero =>
    refine ⟨?_, ?_, ?_⟩
    · intro dep s v r h; simp [parseValue] at h
    · intro dep s acc m r h; simp [parseMembers] at h
    · intro dep s acc l r h; simp [parseElements] at h
  | succ n ih =>
    obtain ⟨ihV, ihM, ihE⟩ := ih
    refine ⟨?_, ?_, ?_⟩
    · intro dep s v r h f hf
      have hlen := parseValue_length _ _ _ _ _ h
      obtain ⟨g, rfl⟩ : ∃ g, f = g + 1 := ⟨f - 1, by omega⟩
      cases s with
      | nil => simp [parseValue] at h
      | cons c cs =>
        simp only [List.length_cons] at hf
        simp only [parseValue] at h ⊢
        by_cases h1 : c = lbrace
        · rw [if_pos h1] at h ⊢
          by_cases hd0 : dep = 0
          · rw [if_pos hd0] at h
            simp at h
          rw [if_neg hd0] at h ⊢
          have hws := skipWs_length cs
          split at h
          · simp at h
          · rename_i d ds hd
            rw [hd] at hws
            simp only [List.length_cons] at hws
            by_cases h2 : d = rbrace
            · rw [if_pos h2] at h ⊢
              exact h
            · rw [if_neg h2] at h ⊢
              split at h
              · simp at h
              · rename_i m r1 hm
                simp only [Option.some.injEq, Prod.mk.injEq] at h
                obtain ⟨rfl, rfl⟩ := h
                rw [ihM _ _ _ _ _ hm g (by simp only [List.length_cons]; omega)]
        · rw [if_neg h1] at h ⊢
          by_cases h2 : c = '['
          · rw [if_pos h2] at h ⊢
            by_cases hd0 : dep = 0
            · rw [if_pos hd0] at h
              simp at h
            rw [if_neg hd0] at h ⊢
            have hws := skipWs_length cs
            split at h
            · simp at h
            · rename_i d ds hd
              rw [hd] at hws
              simp only [List.length_cons] at hws
              by_cases h3 : d = ']'
              · rw [if_pos h3] at h ⊢
                exact h
              · rw [if_neg h3] at h ⊢
                split at h
                · simp at h
                · rename_i l r1 hl
                  simp only [Option.some.injEq, Prod.mk.injEq] at h
                  obtain ⟨rfl, rfl⟩ := h
                  rw [ihE _ _ _ _ _ hl g (by simp only [List.length_cons]; omega)]
          · rw [if_neg h2] at h ⊢
            exact h
    · intro dep s acc m r h f hf
      have hlen := parseMembers_length _ _ _ _ _ _ h
      obtain ⟨g, rfl⟩ : ∃ g, f = g + 1 := ⟨f - 1, by omega⟩
      cases s with
      | nil => simp [parseMembers] at h
      | cons c cs =>
        simp only [List.length_cons] at hf
        simp only [parseMembers] at h ⊢
        by_cases h1 : c = quote
        · rw [if_pos h1] at h ⊢
          split at h
          · simp at h
          · rename_i k r1 hk
            have l1 := parseStr_length _ _ _ _ hk
            have l2 := skipWs_length r1
            split at h
            · simp at h
            · rename_i d r2 hd
              rw [hd] at l2
              simp only [List.length_cons] at l2
              by_cases h2 : d = ':'
              · rw [if_pos h2] at h ⊢
                have l3 := skipWs_length r2
                split at h
                · simp at h
                · rename_i v r3 hv
                  have l4 := parseValue_length _ _ _ _ _ hv
                  have l5 := skipWs_length r3
                  split at h
                  · simp at h
                  · rename_i e r4 he
                    rw [he] at l5
                    simp only [List.length_cons] at l5
                    have l6 := skipWs_length r4
                    have hr : r.length ≤ r4.length := by
                      by_cases h3 : e = ','
                      · rw [if_pos h3] at h
                        have := parseMembers_length _ _ _ _ _ _ h
                        omega
                      · rw [if_neg h3] at h
                        by_cases h4 : e = rbrace
                        · rw [if_pos h4] at h
                          simp only [Option.some.injEq, Prod.mk.injEq] at h
                          rw [← h.2]
                        · rw [if_neg h4] at h
                          simp at h
                    rw [ihV _ _ _ _ hv g (by omega)]
                    simp only [he]
                    by_cases h3 : e = ','
                    · rw [if_pos h3] at h ⊢
                      exact ihM _ _ _ _ _ h g (by omega)
                    · rw [if_neg h3] at h ⊢
                      exact h
              · rw [if_neg h2] at h
                simp at h
        · rw [if_neg h1] at h
          simp at h
    · intro dep s acc l r h f hf
      have hlen := parseElements_length _ _ _ _ _ _ h
      obtain ⟨g, rfl⟩ : ∃ g, f = g + 1 := ⟨f - 1, by omega⟩
      simp only [parseElements] at h ⊢
      split at h
      · simp at h
      · rename_i v r1 hv
        have l1 := parseValue_length _ _ _ _ _ hv
        have l2 := skipWs_length r1
        split at h
        · simp at h
        · rename_i e r2 he
          rw [he] at l2
          simp only [List.length_cons] at l2
          have l3 := skipWs_length r2
          have hr : r.length ≤ r2.length := by
            by_cases h3 : e = ','
            · rw [if_pos h3] at h
              have := parseElements_length _ _ _ _ _ _ h
              omega
            · rw [if_neg h3] at h
              by_cases h4 : e = ']'
              · rw [if_pos h4] at h
                simp only [Option.some.injEq, Prod.mk.injEq] at h
                rw [← h.2]
              · rw [if_neg h4] at h
                simp at h
          rw [ihV _ _ _ _ hv g (by omega)]
          simp only [he]
          by_cases h3 : e = ','
          · rw [if_pos h3] at h ⊢
            exact ihE _ _ _ _ _ h g (by omega)
          · rw [if_neg h3] at h ⊢
            exact h

/-- The fuel that `jsonDecode` gives the parser never runs out: a value that is read from
a text with any fuel is read with the fuel `jsonDecode` uses. -/
theorem jsonDecode_fuel (n : Nat) (s : List Char) (v : JVal) (r : List Char)
    (h : parseValue n maxNestingDepth (skipWs s) = some (v, r)) (hr : skipWs r = []) :
    jsonDecode s = some v := by
  have := (parse_fuel n).1 _ _ _ _ h (s.length + 1) (by
    have := skipWs_length s
    omega)
  unfold jsonDecode
  rw [this]
  simp [hr]

/-! ## C11: texts without a payload -/

/-- C11: `appInfoFormat` fails, returning no document, on the empty text and on the text
`no braces here`. -/
theorem C11_no_payload_fails :
    appInfoFormat [] = none ∧ appInfoFormat "no braces here".toList = none := by
  decide

/-! ## C14: the text handed to the parser has no layout runes -/

theorem not_mem_replaceAll (x : Char) (old new s : List Char) (h : old ≠ [])
    (hn : x ∉ new) (hs : x ∉ s) : x ∉ replaceAll old new s := by
  have key : ∀ (n : Nat) (t : List Char), t.length ≤ n → x ∉ t → x ∉ replaceAll old new t := by
    intro n
    induction n with
    | zero =>
      intro t ht _
      have : t = [] := List.length_eq_zero.1 (by omega)
      subst this
      simp [replaceAll_nil]
    | succ n ih =>
      intro t ht hx
      cases t with
      | nil => simp [replaceAll_nil]
      | cons c cs =>
        have hc : x ≠ c := fun e => hx (e ▸ List.mem_cons_self _ _)
        have hcs : x ∉ cs := fun e => hx (List.mem_cons_of_mem _ e)
        rcases replaceAll_cons_cases old new c cs h with ⟨_, h2⟩ | ⟨rest, h1, h2⟩
        · rw [h2]
          intro hm
          rcases List.mem_cons.1 hm with e | e
          · exact hc e
          · exact ih cs (by simpa using ht) hcs e
        · have hl : rest.length ≤ n := by
            have := congrArg List.length h1
            have hpos : 0 < old.length := List.length_pos.2 h
            simp only [List.length_cons, List.length_append] at this ht
            omega
          have hr : x ∉ rest := fun e => hx (by rw [h1]; exact List.mem_append.2 (Or.inr e))
          rw [h2]
          intro hm
          rcases List.mem_append.1 hm with e | e
          · exact hn e
          · exact ih rest hl hr e
  exact key s.length s (le_refl _) hs

theorem not_mem_remove (x : Char) (s : List Char) : x ∉ replaceAll [x] [] s := by
  rw [replaceAll_remove]
  intro h
  have := (List.mem_filter.1 h).2
  simp at this

theorem not_mem_remove_of (x y : Char) (s : List Char) (h : x ∉ s) :
    x ∉ replaceAll [y] [] s := by
  rw [replaceAll_remove]
  exact fun e => h (List.mem_of_mem_filter e)

/-- C14: for every input, the text handed to the strict parse contains no tab and no
newline: the first pass removes the tabs, no later pass introduces one, and the removal of
newlines runs last. -/
theorem C14_single_line (text : List Char) :
    tab ∉ appInfoRewrite (appInfoPayload text) ∧ nl ∉ appInfoRewrite (appInfoPayload text) := by
  refine ⟨?_, ?_⟩
  · unfold appInfoRewrite removeNewlines commaQuote commaBrace colonScalar colonNested
    apply not_mem_remove_of
    apply not_mem_replaceAll _ _ _ _ (by simp) (by decide)
    apply not_mem_replaceAll _ _ _ _ (by simp) (by decide)
    apply not_mem_replaceAll _ _ _ _ (by simp) (by decide)
    apply not_mem_replaceAll _ _ _ _ (by simp) (by decide)
    exact not_mem_remove tab _
  · unfold appInfoRewrite
    exact not_mem_remove nl _

/-! ## C12: the payload is a run of whole runes of the input -/

theorem encodeText_append (a b : List Char) :
    encodeText (a ++ b) = encodeText a ++ encodeText b := by
  induction a with
  | nil => rfl
  | cons c cs ih => simp [encodeText, ih]

theorem utf8Size_eq_encodeRune (c : Char) : c.utf8Size = (encodeRune c).length := by
  have hle : ∀ k : Nat, k < 4294967296 → (c.val ≤ UInt32.ofNat k ↔ c.toNat ≤ k) := by
    intro k hk
    rw [UInt32.le_def]
    show c.val.val ≤ (UInt32.ofNat k).val ↔ _
    rw [Fin.le_def]
    have h1 : ((UInt32.ofNat k).val : Nat) = k := by
      show k % 4294967296 = k
      exact Nat.mod_eq_of_lt hk
    have h2 : (c.val.val : Nat) = c.toNat := rfl
    rw [h1, h2]
  have h127 := hle 127 (by decide)
  have h2047 := hle 2047 (by decide)
  have h65535 := hle 65535 (by decide)
  unfold Char.utf8Size encodeRune
  simp only
  by_cases a1 : c.toNat ≤ 127
  · have b1 : c.val ≤ UInt32.ofNat 127 := h127.2 a1
    have : c.toNat < 0x80 := by omega
    rw [if_pos this]
    have b2 : c.val ≤ UInt32.ofNatCore 127 (by decide) := b1
    rw [if_pos b2]
    rfl
  · have b1 : ¬ c.val ≤ UInt32.ofNatCore 127 (by decide) := fun e => a1 (h127.1 e)
    have c1 : ¬ c.toNat < 0x80 := by omega
    rw [if_neg b1, if_neg c1]
    by_cases a2 : c.toNat ≤ 2047
    · have b2 : c.val ≤ UInt32.ofNatCore 2047 (by decide) := h2047.2 a2
      have c2 : c.toNat < 0x800 := by omega
      rw [if_pos b2, if_pos c2]
      rfl
    · have b2 : ¬ c.val ≤ UInt32.ofNatCore 2047 (by decide) := fun e => a2 (h2047.1 e)
      have c2 : ¬ c.toNat < 0x800 := by omega
      rw [if_neg b2, if_neg c2]
      by_cases a3 : c.toNat ≤ 65535
      · have b3 : c.val ≤ UInt32.ofNatCore 65535 (by decide) := h65535.2 a3
        have c3 : c.toNat < 0x10000 := by omega
        rw [if_pos b3, if_pos c3]
        rfl
      · have b3 : ¬ c.val ≤ UInt32.ofNatCore 65535 (by decide) := fun e => a3 (h65535.1 e)
        have c3 : ¬ c.toNat < 0x10000 := by omega
        rw [if_neg b3, if_neg c3]
        rfl

/-- The byte length of a text is the number of bytes of its encoding. -/
theorem byteLen_eq_encodeText (s : List Char) : byteLen s = (encodeText s).length := by
  induction s with
  | nil => rfl
  | cons c cs ih => simp [byteLen, encodeText, ih, utf8Size_eq_encodeRune]

/-- C12: for every input text, the candidate payload left by the two trimming steps is a
contiguous run of whole runes of the input: the input is a prefix of runes, the payload,
and a suffix of runes, and so are its bytes; no rune is split, altered, duplicated or
reordered. -/
theorem C12_payload_contiguous (text : List Char) :
    ∃ pre post, text = pre ++ appInfoPayload text ++ post ∧
      encodeText text = encodeText pre ++ encodeText (appInfoPayload text) ++ encodeText post := by
  obtain ⟨i, j, hij⟩ := appInfoPayload_eq_take_drop text
  have h : text = text.take i ++ appInfoPayload text ++ (text.drop i).drop j := by
    rw [hij, List.append_assoc, List.take_append_drop, List.take_append_drop]
  refine ⟨text.take i, (text.drop i).drop j, h, ?_⟩
  conv_lhs => rw [h]
  rw [encodeText_append, encodeText_append]

/-! ## C13: the rewrite at most doubles the text -/

/-- A pass whose substitute is at most one rune longer than its pattern adds at most one
rune per occurrence of any rune of the pattern. -/
theorem length_replaceAll_le (c : Char) (old new : List Char) (hc : c ∈ old)
    (hlen : new.length ≤ old.length + 1) :
    ∀ (n : Nat) (s : List Char), s.length ≤ n →
      (replaceAll old new s).length ≤ s.length + s.count c := by
  have hne : old ≠ [] := List.ne_nil_of_mem hc
  have hcount : 1 ≤ old.count c := List.count_pos_iff.2 hc
  intro n
  induction n with
  | zero =>
    intro s hs
    have : s = [] := List.length_eq_zero.1 (by omega)
    subst this
    simp [replaceAll_nil]
  | succ n ih =>
    intro s hs
    cases s with
    | nil => simp [replaceAll_nil]
    | cons x xs =>
      rcases replaceAll_cons_cases old new x xs hne with ⟨_, h2⟩ | ⟨rest, h1, h2⟩
      · have := ih xs (by simpa using hs)
        rw [h2, List.count_cons]
        simp only [List.length_cons]
        omega
      · have hl : rest.length ≤ n := by
          have := congrArg List.length h1
          have hpos : 0 < old.length := List.length_pos.2 hne
          simp only [List.length_cons, List.length_append] at this hs
          omega
        have := ih rest hl
        rw [h2, h1, List.count_append]
        simp only [List.length_append]
        omega

theorem count_replaceAll (c : Char) (old new s : List Char) (h : old ≠ [])
    (hc : old.filter (fun x => x == c) = new.filter (fun x => x == c)) :
    (replaceAll old new s).count c = s.count c := by
  rw [List.count_eq_countP, List.count_eq_countP, List.countP_eq_length_filter,
    List.countP_eq_length_filter, filter_replaceAll_eq _ old new s h hc]

theorem length_remove_le (c : Char) (s : List Char) :
    (replaceAll [c] [] s).length ≤ s.length := by
  rw [replaceAll_remove]
  exact List.length_filter_le _ _

/-- The braces, quotes and newlines of a text are at most as many as its runes. -/
theorem count_structural_le (s : List Char) :
    s.count lbrace + s.count quote + s.count rbrace + s.count nl ≤ s.length := by
  induction s with
  | nil => simp
  | cons x xs ih =>
    simp only [List.count_cons, List.length_cons]
    by_cases h1 : x = lbrace
    · subst h1
      simp only [beq_self_eq_true, if_true]
      have a : (lbrace == quote) = false := by decide
      have b : (lbrace == rbrace) = false := by decide
      have c : (lbrace == nl) = false := by decide
      simp only [a, b, c]
      simp only [Bool.false_eq_true, if_false]
      omega
    · by_cases h2 : x = quote
      · subst h2
        have a : (quote == lbrace) = false := by decide
        have b : (quote == rbrace) = false := by decide
        have c : (quote == nl) = false := by decide
        simp only [beq_self_eq_true, if_true, a, b, c, Bool.false_eq_true, if_false]
        omega
      · by_cases h3 : x = rbrace
        · subst h3
          have a : (rbrace == lbrace) = false := by decide
          have b : (rbrace == quote) = false := by decide
          have c : (rbrace == nl) = false := by decide
          simp only [beq_self_eq_true, if_true, a, b, c, Bool.false_eq_true, if_false]
          omega
        · have a : (x == lbrace) = false := by simpa using h1
          have b : (x == quote) = false := by simpa using h2
          have c : (x == rbrace) = false := by simpa using h3
          simp only [a, b, c, Bool.false_eq_true, if_false]
          split_ifs <;> omega

/-- C13: the rewrite grows the text by at most a constant factor: for every payload of `n`
runes, the text after each of the six passes has at most `2 * n` runes. -/
theorem C13_rewrite_at_most_doubles (payload : List Char) :
    (removeTabs payload).length ≤ 2 * payload.length ∧
    (colonNested (removeTabs payload)).length ≤ 2 * payload.length ∧
    (colonScalar (colonNested (removeTabs payload))).length ≤ 2 * payload.length ∧
    (commaBrace (colonScalar (colonNested (removeTabs payload)))).length
      ≤ 2 * payload.length ∧
    (commaQuote (commaBrace (colonScalar (colonNested (removeTabs payload))))).length
      ≤ 2 * payload.length ∧
    (appInfoRewrite payload).length ≤ 2 * payload.length := by
  have h1 : (removeTabs payload).length ≤ payload.length := length_remove_le tab payload
  have hc := count_structural_le (removeTabs payload)
  have h2 := length_replaceAll_le lbrace [quote, nl, lbrace] [quote, ':', nl, lbrace]
    (by simp) (by simp) _ (removeTabs payload) (le_refl _)
  have h3 := length_replaceAll_le quote [quote, quote] [quote, ':', quote]
    (by simp) (by simp) _ (colonNested (removeTabs payload)) (le_refl _)
  have h4 := length_replaceAll_le rbrace [rbrace, nl, quote] [rbrace, ',', nl, quote]
    (by simp) (by simp) _ (colonScalar (colonNested (removeTabs payload))) (le_refl _)
  have h5 := length_replaceAll_le nl [quote, nl, quote] [quote, ',', nl, quote]
    (by simp) (by simp) _ (commaBrace (colonScalar (colonNested (removeTabs payload))))
    (le_refl _)
  have h6 := length_remove_le nl
    (commaQuote (commaBrace (colonScalar (colonNested (removeTabs payload)))))
  have q2 : (colonNested (removeTabs payload)).count quote = (removeTabs payload).count quote :=
    count_replaceAll quote _ _ _ (by simp) (by decide)
  have r2 : (colonNested (removeTabs payload)).count rbrace
      = (removeTabs payload).count rbrace :=
    count_replaceAll rbrace _ _ _ (by simp) (by decide)
  have n2 : (colonNested (removeTabs payload)).count nl = (removeTabs payload).count nl :=
    count_replaceAll nl _ _ _ (by simp) (by decide)
  have r3 : (colonScalar (colonNested (removeTabs payload))).count rbrace
      = (colonNested (removeTabs payload)).count rbrace :=
    count_replaceAll rbrace _ _ _ (by simp) (by decide)
  have n3 : (colonScalar (colonNested (removeTabs payload))).count nl
      = (colonNested (removeTabs payload)).count nl :=
    count_replaceAll nl _ _ _ (by simp) (by decide)
  have n4 : (commaBrace (colonScalar (colonNested (removeTabs payload)))).count nl
      = (colonScalar (colonNested (removeTabs payload))).count nl :=
    count_replaceAll nl _ _ _ (by simp) (by decide)
  have e2 : (colonNested (removeTabs payload)).length
      ≤ (removeTabs payload).length + (removeTabs payload).count lbrace := h2
  have e3 : (colonScalar (colonNested (removeTabs payload))).length
      ≤ (colonNested (removeTabs payload)).length
        + (colonNested (removeTabs payload)).count quote := h3
  have e4 : (commaBrace (colonScalar (colonNested (removeTabs payload)))).length
      ≤ (colonScalar (colonNested (removeTabs payload))).length
        + (colonScalar (colonNested (removeTabs payload))).count rbrace := h4
  have e5 : (commaQuote (commaBrace (colonScalar (colonNested (removeTabs payload))))).length
      ≤ (commaBrace (colonScalar (colonNested (removeTabs payload)))).length
        + (commaBrace (colonScalar (colonNested (removeTabs payload)))).count nl := h5
  have e6 : (appInfoRewrite payload).length
      ≤ (commaQuote (commaBrace (colonScalar (colonNested (removeTabs payload))))).length := h6
  refine ⟨?_, ?_, ?_, ?_, ?_, ?_⟩ <;> omega

/-! ## One scalar member on a single line -/

/-- A pass whose pattern starts with a quote steps over a text without quote. -/
theorem replaceAll_noquote (t new : List Char) : ∀ (w rest : List Char), quote ∉ w →
    replaceAll (quote :: t) new (w ++ quote :: rest)
      = w ++ replaceAll (quote :: t) new (quote :: rest) := by
  intro w
  induction w with
  | nil => intro rest _; rfl
  | cons c cs ih =>
    intro rest h
    have hc : c ≠ quote := fun e => h (e ▸ List.mem_cons_self _ _)
    have hcs : quote ∉ cs := fun e => h (List.mem_cons_of_mem _ e)
    rw [List.cons_append, replaceAll_skip1 _ _ _ _ _ hc, ih rest hcs]
    rfl

/-- A pass whose pattern is a quote, a newline and more steps over an opening quote and a
text without quote that does not start with a newline. -/
theorem replaceAll_qtext (t new : List Char) (w rest : List Char) (hq : quote ∉ w)
    (hhead : w.head? ≠ some nl) :
    replaceAll (quote :: nl :: t) new (quote :: (w ++ quote :: rest))
      = quote :: (w ++ replaceAll (quote :: nl :: t) new (quote :: rest)) := by
  cases w with
  | nil =>
    rw [List.nil_append, replaceAll_skip2 _ _ _ _ _ _ _ (by decide)]
    rfl
  | cons c cs =>
    have hc : c ≠ nl := fun e => hhead (by rw [e]; rfl)
    rw [List.cons_append, replaceAll_skip2 _ _ _ _ _ _ _ hc, ← List.cons_append,
      replaceAll_noquote _ _ _ _ hq]

theorem getLast?_cons_cons (c d : Char) (ds : List Char) :
    (c :: d :: ds).getLast? = (d :: ds).getLast? := by
  simp [List.getLast?_cons_cons]

/-- The pass that looks for a closing brace, a newline and a quote steps over a text
without quote that does not end with a newline. -/
theorem replaceAll_brace_text (new : List Char) : ∀ (w rest : List Char), quote ∉ w →
    w.getLast? ≠ some nl →
    replaceAll [rbrace, nl, quote] new (w ++ quote :: rest)
      = w ++ replaceAll [rbrace, nl, quote] new (quote :: rest) := by
  intro w
  induction w with
  | nil => intro rest _ _; rfl
  | cons c cs ih =>
    intro rest hq hlast
    have hcs : quote ∉ cs := fun e => hq (List.mem_cons_of_mem _ e)
    cases cs with
    | nil =>
      rw [List.cons_append, List.nil_append, replaceAll_skip2 _ _ _ _ _ _ _ (by decide)]
      rfl
    | cons d ds =>
      have hl2 : (d :: ds).getLast? ≠ some nl := by
        rw [← getLast?_cons_cons c d ds]
        exact hlast
      have step : replaceAll [rbrace, nl, quote] new (c :: (d :: ds ++ quote :: rest))
          = c :: replaceAll [rbrace, nl, quote] new (d :: ds ++ quote :: rest) := by
        cases ds with
        | nil =>
          have hd : d ≠ nl := fun e => hl2 (by rw [e]; rfl)
          exact replaceAll_skip2 _ _ _ _ _ _ _ hd
        | cons e es =>
          have he : e ≠ quote := fun h => hcs (by rw [h]; simp)
          exact replaceAll_skip3 _ _ _ _ _ _ _ _ _ he
      rw [List.cons_append, step, ih rest hcs hl2]
      rfl

/-- The colon pass on an object with one scalar member written on one line: the closing
quote of the key and the opening quote of the value are replaced together. -/
theorem colonScalar_single (K W : List Char) (hk : K ≠ []) (hck : cleanWord K)
    (hq : quote ∉ W) :
    colonScalar (lbrace :: quote :: (K ++ quote :: quote :: (W ++ [quote, rbrace])))
      = lbrace :: quote :: (K ++ quote :: ':' :: quote :: (W ++ [quote, rbrace])) := by
  unfold colonScalar
  have hm := replaceAll_match [quote, quote] [quote, ':', quote] (W ++ [quote, rbrace])
    (by simp)
  simp only [List.cons_append, List.nil_append] at hm
  rw [replaceAll_skip1 _ _ _ _ _ (by decide), replaceAll_qkey _ _ _ _ hk hck, hm,
    replaceAll_noquote _ _ _ _ hq]
  rfl

/-- The four insertion passes on an object with one scalar member written on one line:
only the colon between the key and the value is inserted. -/
theorem insertions_single (K W : List Char) (hk : K ≠ []) (hck : cleanWord K)
    (hq : quote ∉ W) (hhead : W.head? ≠ some nl) (hlast : W.getLast? ≠ some nl) :
    commaQuote (commaBrace (colonScalar (colonNested
        (lbrace :: quote :: (K ++ quote :: quote :: (W ++ [quote, rbrace]))))))
      = lbrace :: quote :: (K ++ quote :: ':' :: quote :: (W ++ [quote, rbrace])) := by
  have h2 : colonNested (lbrace :: quote :: (K ++ quote :: quote :: (W ++ [quote, rbrace])))
      = lbrace :: quote :: (K ++ quote :: quote :: (W ++ [quote, rbrace])) := by
    unfold colonNested
    rw [replaceAll_skip1 _ _ _ _ _ (by decide), replaceAll_qword _ _ _ _ _ hck,
      replaceAll_skip2 _ _ _ _ _ _ _ (by decide), replaceAll_qtext _ _ _ _ hq hhead]
    rfl
  have h3 := colonScalar_single K W hk hck hq
  have h4 : commaBrace
      (lbrace :: quote :: (K ++ quote :: ':' :: quote :: (W ++ [quote, rbrace])))
      = lbrace :: quote :: (K ++ quote :: ':' :: quote :: (W ++ [quote, rbrace])) := by
    unfold commaBrace
    rw [replaceAll_skip1 _ _ _ _ _ (by decide), replaceAll_qword _ _ _ _ _ hck,
      replaceAll_skip1 _ _ _ _ _ (by decide), replaceAll_skip1 _ _ _ _ _ (by decide),
      replaceAll_skip1 _ _ _ _ _ (by decide), replaceAll_brace_text _ _ _ hq hlast]
    rfl
  have h5 : commaQuote
      (lbrace :: quote :: (K ++ quote :: ':' :: quote :: (W ++ [quote, rbrace])))
      = lbrace :: quote :: (K ++ quote :: ':' :: quote :: (W ++ [quote, rbrace])) := by
    unfold commaQuote
    rw [replaceAll_skip1 _ _ _ _ _ (by decide), replaceAll_qword _ _ _ _ _ hck,
      replaceAll_skip2 _ _ _ _ _ _ _ (by decide), replaceAll_skip1 _ _ _ _ _ (by decide),
      replaceAll_qtext _ _ _ _ hq hhead]
    rfl
  rw [h2, h3, h4, h5]

/-- The rewrite of an object with one scalar member on one line, with a tab-free value
text `W`: the colon is inserted and the newlines of `W` are removed. -/
theorem appInfoRewrite_single (K W : List Char) (hk : K ≠ []) (hck : cleanWord K)
    (hq : quote ∉ W) (htab : tab ∉ W) (hhead : W.head? ≠ some nl)
    (hlast : W.getLast? ≠ some nl) :
    appInfoRewrite (lbrace :: quote :: (K ++ quote :: quote :: (W ++ [quote, rbrace])))
      = lbrace :: quote :: (K ++ quote :: ':' :: quote ::
          (W.filter (fun c => c != nl) ++ [quote, rbrace])) := by
  have h1 : removeTabs (lbrace :: quote :: (K ++ quote :: quote :: (W ++ [quote, rbrace])))
      = lbrace :: quote :: (K ++ quote :: quote :: (W ++ [quote, rbrace])) := by
    unfold removeTabs
    apply replaceAll_absent _ _ tab (by simp)
    intro hm
    simp only [List.mem_cons, List.mem_append, List.mem_singleton] at hm
    rcases hm with e | e | e | e | e | e | e | e
    · exact absurd e (by decide)
    · exact absurd e (by decide)
    · have := (hck tab e).2.2
      exact this (by decide)
    · exact absurd e (by decide)
    · exact absurd e (by decide)
    · exact htab e
    · exact absurd e (by decide)
    · rcases e with e | e
      · exact absurd e (by decide)
      · simp at e
  unfold appInfoRewrite
  rw [h1, insertions_single K W hk hck hq hhead hlast]
  unfold removeNewlines
  rw [replaceAll_remove]
  simp only [List.filter_cons, List.filter_append, filter_clean_nl K hck]
  simp [lbrace, rbrace, quote, nl]

theorem render_single (K W : List Char) :
    lbrace :: quote :: (K ++ quote :: ':' :: quote :: (W ++ [quote, rbrace]))
      = lbrace :: ((Dump.scalar 0 K 0 W Dump.nil).render stage6 ++ [rbrace]) := by
  simp [Dump.render, stage6, sepAfter]

theorem prettyDoc_single (K W : List Char) :
    prettyDoc (JVal.obj (JMembers.cons K (JVal.str W) JMembers.nil))
      = JVal.obj (JMembers.cons K (JVal.str W) JMembers.nil) := by
  simp [prettyDoc, prettyMembers, insertSorted]

/-- C16: an empty scalar value is handled by the substitution of two adjacent quotes: for
every non-empty key `K` without double quote, backslash or rune below U+0020,
`appInfoFormat` on `{"K"""}` succeeds and yields the object that maps `K` to the empty
leaf; the colon pass replaces the closing quote of `K` together with the opening quote of
the value. -/
theorem C16_empty_value (K : List Char) (hk : K ≠ []) (hck : cleanWord K) :
    appInfoRaw (lbrace :: quote :: (K ++ [quote, quote, quote, rbrace]))
      = some (JVal.obj (JMembers.cons K (JVal.str []) JMembers.nil)) ∧
    appInfoFormat (lbrace :: quote :: (K ++ [quote, quote, quote, rbrace]))
      = some (JVal.obj (JMembers.cons K (JVal.str []) JMembers.nil)) ∧
    colonScalar (lbrace :: quote :: (K ++ [quote, quote, quote, rbrace]))
      = lbrace :: quote :: (K ++ [quote, ':', quote, quote, rbrace]) := by
  have hpay : appInfoPayload (lbrace :: quote :: (K ++ [quote, quote, quote, rbrace]))
      = lbrace :: quote :: (K ++ [quote, quote, quote, rbrace]) := by
    have := appInfoPayload_braced (quote :: (K ++ [quote, quote, quote]))
    simpa using this
  have hrw := appInfoRewrite_single K [] hk hck (by simp) (by simp) (by simp) (by simp)
  simp only [List.nil_append, List.filter_nil] at hrw
  have hwf : (Dump.scalar 0 K 0 [] Dump.nil).WF :=
    ⟨hk, hck, by intro c hc; simp at hc, by simp [Dump.keys], trivial⟩
  have hraw : appInfoRaw (lbrace :: quote :: (K ++ [quote, quote, quote, rbrace]))
      = some (JVal.obj (JMembers.cons K (JVal.str []) JMembers.nil)) := by
    have hr := render_single K []
    simp only [List.nil_append] at hr
    rw [appInfoRaw, hpay, hrw, hr, jsonUnmarshalMap_dump _ hwf]
    rfl
  refine ⟨hraw, ?_, ?_⟩
  · rw [appInfoFormat_eq, hraw]
    simp [prettyDoc_single]
  · have := colonScalar_single K [] hk hck (by simp)
    simpa using this

/-- Witness of C16: the key `name`. -/
theorem C16_empty_value_witness :
    appInfoFormat "\x7b\"name\"\"\"\x7d".toList
      = some (JVal.obj (JMembers.cons "name".toList (JVal.str []) JMembers.nil)) :=
  (C16_empty_value "name".toList (by decide) (by simp [cleanWord]; decide)).2.1

/-! ## C15: tabs and newlines inside a quoted value -/

theorem appInfoRewrite_removeTabs (s : List Char) :
    appInfoRewrite (removeTabs s) = appInfoRewrite s := by
  have : removeTabs (removeTabs s) = removeTabs s := by
    unfold removeTabs
    rw [replaceAll_remove, replaceAll_remove, List.filter_filter]
    simp
  unfold appInfoRewrite
  rw [this]

/-- C15 (amended): tabs and newlines inside a quoted value are deleted.  For every
non-empty key `K` without double quote, backslash or rune below U+0020, and every value
`V` that contains a tab or a newline, no double quote, no backslash and no other rune below
U+0020, and that neither starts nor ends with a newline once its tabs are removed,
`appInfoFormat` on `{"K"`, tab, `"V"}` succeeds and the leaf stored under `K` is `V` without
its tabs and newlines, which differs from `V`. -/
theorem C15_layout_in_value (K V : List Char) (hk : K ≠ []) (hck : cleanWord K)
    (hv : ∀ c ∈ V, c ≠ quote ∧ c ≠ bslash ∧ (c.toNat < 0x20 → c = tab ∨ c = nl))
    (hlayout : ∃ c ∈ V, c = tab ∨ c = nl)
    (hhead : (V.filter (fun c => c != tab)).head? ≠ some nl)
    (hlast : (V.filter (fun c => c != tab)).getLast? ≠ some nl) :
    appInfoRaw (lbrace :: quote :: (K ++ quote :: tab :: quote :: (V ++ [quote, rbrace])))
      = some (JVal.obj (JMembers.cons K
          (JVal.str (V.filter (fun c => c != tab && c != nl))) JMembers.nil)) ∧
    appInfoFormat (lbrace :: quote :: (K ++ quote :: tab :: quote :: (V ++ [quote, rbrace])))
      = some (JVal.obj (JMembers.cons K
          (JVal.str (V.filter (fun c => c != tab && c != nl))) JMembers.nil)) ∧
    V.filter (fun c => c != tab && c != nl) ≠ V := by
  have hpay : appInfoPayload
      (lbrace :: quote :: (K ++ quote :: tab :: quote :: (V ++ [quote, rbrace])))
      = lbrace :: quote :: (K ++ quote :: tab :: quote :: (V ++ [quote, rbrace])) := by
    have := appInfoPayload_braced (quote :: (K ++ quote :: tab :: quote :: (V ++ [quote])))
    simpa using this
  have htabs : removeTabs
      (lbrace :: quote :: (K ++ quote :: tab :: quote :: (V ++ [quote, rbrace])))
      = lbrace :: quote :: (K ++ quote :: quote ::
          (V.filter (fun c => c != tab) ++ [quote, rbrace])) := by
    unfold removeTabs
    rw [replaceAll_remove]
    simp only [List.filter_cons, List.filter_append, filter_clean_tab K hck]
    simp [lbrace, rbrace, quote, tab]
  have hq : quote ∉ V.filter (fun c => c != tab) :=
    fun e => (hv _ (List.mem_of_mem_filter e)).1 rfl
  have htab : tab ∉ V.filter (fun c => c != tab) := by
    intro e
    have := (List.mem_filter.1 e).2
    simp at this
  have hrw := appInfoRewrite_single K (V.filter (fun c => c != tab)) hk hck hq htab hhead hlast
  rw [List.filter_filter] at hrw
  have hfun : (fun a => (a != nl && a != tab)) = (fun c : Char => c != tab && c != nl) := by
    funext a
    exact Bool.and_comm _ _
  rw [hfun] at hrw
  have hclean : cleanWord (V.filter (fun c => c != tab && c != nl)) := by
    intro c hc
    obtain ⟨hm, hp⟩ := List.mem_filter.1 hc
    obtain ⟨h1, h2, h3⟩ := hv c hm
    refine ⟨h1, h2, ?_⟩
    intro hlt
    simp only [Bool.and_eq_true, bne_iff_ne, ne_eq] at hp
    rcases h3 hlt with e | e
    · exact hp.1 e
    · exact hp.2 e
  have hwf : (Dump.scalar 0 K 0 (V.filter (fun c => c != tab && c != nl)) Dump.nil).WF :=
    ⟨hk, hck, hclean, by simp [Dump.keys], trivial⟩
  have hraw : appInfoRaw
      (lbrace :: quote :: (K ++ quote :: tab :: quote :: (V ++ [quote, rbrace])))
      = some (JVal.obj (JMembers.cons K
          (JVal.str (V.filter (fun c => c != tab && c != nl))) JMembers.nil)) := by
    rw [appInfoRaw, hpay, ← appInfoRewrite_removeTabs, htabs, hrw, render_single,
      jsonUnmarshalMap_dump _ hwf]
    rfl
  refine ⟨hraw, ?_, ?_⟩
  · rw [appInfoFormat_eq, hraw]
    simp [prettyDoc_single]
  · intro he
    obtain ⟨c, hc, hcl⟩ := hlayout
    have := (List.filter_eq_self.1 he) c hc
    simp only [Bool.and_eq_true, bne_iff_ne, ne_eq] at this
    rcases hcl with e | e
    · exact this.1 e
    · exact this.2 e

/-- Witness of C15 (amended): the key `k` and the value `a`, tab, newline, `b`. -/
theorem C15_layout_in_value_witness :
    appInfoFormat "\x7b\"k\"\t\"a\t\nb\"\x7d".toList
      = some (JVal.obj (JMembers.cons "k".toList (JVal.str "ab".toList) JMembers.nil)) :=
  (C15_layout_in_value "k".toList "a\t\nb".toList (by decide) (by simp [cleanWord]; decide)
    (by decide) (by decide) (by decide) (by decide)).2.1

/-- Counterexample to C15 as stated: the value tab, tab, newline, `{x` has no newline next
to its ends, yet after the removal of the tabs its opening quote is followed by a newline
and an opening brace, a colon is inserted, and the leaf stored under `a` is `:{x` and not
`{x`. -/
theorem C15_newline_behind_tabs :
    appInfoRaw "\x7b\"a\"\t\"\t\t\n\x7bx\"\x7d".toList
      = some (JVal.obj (JMembers.cons "a".toList (JVal.str ":\x7bx".toList) JMembers.nil)) ∧
    "\t\t\n\x7bx".toList.filter (fun c => c != tab && c != nl) = "\x7bx".toList ∧
    appInfoRaw "\x7b\"a\"\t\"\t\t\n\x7bx\"\x7d".toList
      ≠ some (JVal.obj (JMembers.cons "a".toList
          (JVal.str ("\t\t\n\x7bx".toList.filter (fun c => c != tab && c != nl)))
          JMembers.nil)) := by
  decide

/-! ## C3: texts without an enclosing pair of braces -/

theorem exists_first_split (c : Char) : ∀ t : List Char, c ∈ t →
    ∃ pre rest, t = pre ++ c :: rest ∧ c ∉ pre
  | [], h => by simp at h
  | x :: xs, h => by
    by_cases hx : x = c
    · exact ⟨[], xs, by rw [hx]; rfl, by simp⟩
    · have hm : c ∈ xs := by
        rcases List.mem_cons.1 h with e | e
        · exact absurd e.symm hx
        · exact e
      obtain ⟨pre, rest, h1, h2⟩ := exists_first_split c xs hm
      refine ⟨x :: pre, rest, by rw [h1]; rfl, ?_⟩
      simp only [List.mem_cons, not_or]
      exact ⟨fun e => hx e.symm, h2⟩

theorem exists_last_split (c : Char) (t : List Char) (h : c ∈ t) :
    ∃ a post, t = a ++ c :: post ∧ c ∉ post := by
  obtain ⟨pre, rest, h1, h2⟩ := exists_first_split c t.reverse (List.mem_reverse.2 h)
  refine ⟨rest.reverse, pre.reverse, ?_, by simpa using h2⟩
  have := congrArg List.reverse h1
  simpa using this

/-- The first trimming step keeps the leftmost opening brace. -/
theorem trimFront_lbrace (t : List Char) (h : lbrace ∈ t) : lbrace ∈ trimFront t := by
  obtain ⟨pre, rest, h1, h2⟩ := exists_first_split lbrace t h
  rw [h1, trimFront_split pre rest h2]
  split_ifs with hb
  · have hk : (pre ++ lbrace :: rest).length - (byteLen rest + 1) ≤ pre.length := by
      have := length_le_byteLen rest
      simp only [List.length_append, List.length_cons]
      omega
    rw [List.drop_append_of_le_length hk]
    simp
  · simp

theorem trimFront_of_not_mem (t : List Char) (h : lbrace ∉ t) : trimFront t = t := by
  unfold trimFront
  have : lastIndex lbrace (reverse t) = -1 :=
    lastIndex_not_mem _ _ (by rw [reverse_eq]; simpa using h)
  simp [this]

/-- The second trimming step keeps the last closing brace. -/
theorem trimBack_rbrace (t : List Char) (h : rbrace ∈ t) : rbrace ∈ trimBack t := by
  obtain ⟨a, post, h1, h2⟩ := exists_last_split rbrace t h
  rw [h1, trimBack_split a post h2]
  split_ifs with hb
  · have hk := length_le_byteLen a
    rw [List.take_append_eq_append_take, List.take_of_length_le (by omega)]
    obtain ⟨m, hm⟩ : ∃ m, byteLen a + 1 - a.length = m + 1 :=
      ⟨byteLen a - a.length, by omega⟩
    rw [hm, List.take_succ_cons]
    simp
  · simp

theorem trimBack_of_not_mem (t : List Char) (h : rbrace ∉ t) : trimBack t = t := by
  unfold trimBack
  simp [lastIndex_not_mem _ _ h]

/-- The payload of a text with a brace has a brace. -/
theorem appInfoPayload_brace (t : List Char) (h : lbrace ∈ t ∨ rbrace ∈ t) :
    lbrace ∈ appInfoPayload t ∨ rbrace ∈ appInfoPayload t := by
  unfold appInfoPayload
  by_cases hr : rbrace ∈ trimFront t
  · exact Or.inr (trimBack_rbrace _ hr)
  · rw [trimBack_of_not_mem _ hr]
    by_cases hl : lbrace ∈ t
    · exact Or.inl (trimFront_lbrace t hl)
    · rw [trimFront_of_not_mem t hl]
      exact h

/-- The rewrite passes keep a brace of the payload. -/
theorem appInfoRewrite_brace (s : List Char) (h : lbrace ∈ s ∨ rbrace ∈ s) :
    ∃ c ∈ appInfoRewrite s, isBrace c = true := by
  have hf := filter_appInfoRewrite isBrace s (by decide) (by decide) (by decide) (by decide)
  have hs : ∃ c, c ∈ s.filter isBrace := by
    rcases h with h | h
    · exact ⟨lbrace, List.mem_filter.2 ⟨h, by decide⟩⟩
    · exact ⟨rbrace, List.mem_filter.2 ⟨h, by decide⟩⟩
  obtain ⟨c, hc⟩ := hs
  rw [← hf] at hc
  obtain ⟨h1, h2⟩ := List.mem_filter.1 hc
  exact ⟨c, h1, h2⟩

theorem skipWs_of_ws (ws s : List Char) (h : ∀ c ∈ ws, isWs c = true) :
    skipWs (ws ++ s) = skipWs s := by
  induction ws with
  | nil => rfl
  | cons x xs ih =>
    have hx := h x (List.mem_cons_self _ _)
    simp only [List.cons_append, skipWs, hx, if_true]
    exact ih (fun c hc => h c (List.mem_cons_of_mem _ hc))

theorem skipWs_all_ws (ws : List Char) (h : ∀ c ∈ ws, isWs c = true) : skipWs ws = [] := by
  have := skipWs_of_ws ws [] h
  simpa [skipWs] using this

/-- The literal `null` between whitespace is decoded as the null value. -/
theorem jsonDecode_null (ws1 ws2 : List Char) (h1 : ∀ c ∈ ws1, isWs c = true)
    (h2 : ∀ c ∈ ws2, isWs c = true) :
    jsonDecode (ws1 ++ "null".toList ++ ws2) = some JVal.null := by
  unfold jsonDecode
  rw [List.append_assoc, skipWs_of_ws _ _ h1]
  have e : skipWs ("null".toList ++ ws2) = 'n' :: ('u' :: 'l' :: 'l' :: ws2) := by
    simp [skipWs, isWs]
  rw [e]
  have e2 : parseValue ((ws1 ++ ("null".toList ++ ws2)).length + 1) maxNestingDepth
      ('n' :: ('u' :: 'l' :: 'l' :: ws2)) = some (JVal.null, ws2) := by
    simp [parseValue, parseLit, lbrace, quote, List.isPrefixOf]
  rw [e2]
  simp [skipWs_all_ws ws2 h2]

/-- The null value is read from the literal `null` only. -/
theorem parseValue_null (n dep : Nat) (s r : List Char)
    (h : parseValue n dep s = some (JVal.null, r)) : s = "null".toList ++ r := by
  cases n with
  | zero => simp [parseValue] at h
  | succ n =>
    cases s with
    | nil => simp [parseValue] at h
    | cons c cs =>
      simp only [parseValue] at h
      split_ifs at h with h1 h2 h3 h4 h5 h6 h7 h8
      all_goals first
        | (simp at h; done)
        | (split at h <;> first | (simp at h) | (split_ifs at h <;> first | (simp at h) | (split at h <;> simp at h)))
        | skip
      all_goals
        simp only [Option.map_eq_some', Prod.mk.injEq, true_and, exists_eq_right] at h
        have := parseLit_split _ _ _ h
        subst this
        subst_vars
        rfl

/-- A text decoded as the null value is the literal `null` between whitespace. -/
theorem jsonDecode_null_shape (s : List Char) (h : jsonDecode s = some JVal.null) :
    ∃ ws1 ws2, (∀ c ∈ ws1, isWs c = true) ∧ (∀ c ∈ ws2, isWs c = true) ∧
      s = ws1 ++ "null".toList ++ ws2 := by
  unfold jsonDecode at h
  split at h
  · simp at h
  · rename_i v r hv
    split_ifs at h with hr
    simp only [Option.some.injEq] at h
    subst h
    obtain ⟨ws, hws, hwsp⟩ := skipWs_split s
    obtain ⟨ws2, hws2, hwsp2⟩ := skipWs_split r
    rw [hr, List.append_nil] at hws2
    refine ⟨ws, r, hwsp, by rw [hws2]; exact hwsp2, ?_⟩
    rw [List.append_assoc, ← parseValue_null _ _ _ _ hv]
    exact hws

theorem jsonUnmarshalMap_null (s : List Char) :
    jsonUnmarshalMap s = some JVal.null ↔ jsonDecode s = some JVal.null := by
  unfold jsonUnmarshalMap
  constructor
  · intro h
    split at h
    · simp at h
    · assumption
    · simp at h
  · intro h
    rw [h]

/-- C3 (amended): for every text in which no opening brace occurs, or no closing brace
occurs, or the last closing brace precedes the first opening brace, `appInfoFormat` returns
the null document when the rewritten text is the literal `null` between whitespace, and
fails otherwise; it fails in particular whenever the text contains a brace.  It never
returns an object. -/
theorem C3_no_object_without_braces (text : List Char)
    (h : lbrace ∉ text ∨ rbrace ∉ text ∨
      ∃ pre rest, text = pre ++ lbrace :: rest ∧ lbrace ∉ pre ∧ rbrace ∉ rest) :
    ((∃ ws1 ws2, (∀ c ∈ ws1, isWs c = true) ∧ (∀ c ∈ ws2, isWs c = true) ∧
        appInfoRewrite (appInfoPayload text) = ws1 ++ "null".toList ++ ws2) →
      appInfoFormat text = some JVal.null) ∧
    ((¬ ∃ ws1 ws2, (∀ c ∈ ws1, isWs c = true) ∧ (∀ c ∈ ws2, isWs c = true) ∧
        appInfoRewrite (appInfoPayload text) = ws1 ++ "null".toList ++ ws2) →
      appInfoFormat text = none) ∧
    ((lbrace ∈ text ∨ rbrace ∈ text) → appInfoFormat text = none) := by
  have hnone : (¬ ∃ ws1 ws2, (∀ c ∈ ws1, isWs c = true) ∧ (∀ c ∈ ws2, isWs c = true) ∧
      appInfoRewrite (appInfoPayload text) = ws1 ++ "null".toList ++ ws2) →
      appInfoFormat text = none := by
    intro hn
    rw [appInfoFormat_eq]
    unfold appInfoRaw
    cases hv : jsonUnmarshalMap (appInfoRewrite (appInfoPayload text)) with
    | none => rfl
    | some v =>
      rcases jsonUnmarshalMap_cases _ _ hv with e | ⟨m, e⟩
      · subst e
        exact absurd (jsonDecode_null_shape _ ((jsonUnmarshalMap_null _).1 hv)) hn
      · subst e
        have h1 := openThenClose_of_object text m hv
        rw [openThenClose_false text h] at h1
        exact absurd h1 (by decide)
  refine ⟨?_, hnone, ?_⟩
  · rintro ⟨ws1, ws2, h1, h2, e⟩
    rw [appInfoFormat_eq]
    unfold appInfoRaw
    rw [(jsonUnmarshalMap_null _).2 (by rw [e]; exact jsonDecode_null ws1 ws2 h1 h2)]
    rfl
  · intro hb
    apply hnone
    rintro ⟨ws1, ws2, h1, h2, e⟩
    obtain ⟨c, hc, hbr⟩ := appInfoRewrite_brace _ (appInfoPayload_brace text hb)
    rw [e] at hc
    simp only [List.mem_append] at hc
    rcases hc with (hc | hc) | hc
    · have := h1 c hc
      have hx : c = lbrace ∨ c = rbrace := by simpa [isBrace] using hbr
      rcases hx with hx | hx <;> · rw [hx] at this; exact absurd this (by decide)
    · have hx : c = lbrace ∨ c = rbrace := by simpa [isBrace] using hbr
      rcases hx with hx | hx <;> · rw [hx] at hc; exact absurd hc (by decide)
    · have := h2 c hc
      have hx : c = lbrace ∨ c = rbrace := by simpa [isBrace] using hbr
      rcases hx with hx | hx <;> · rw [hx] at this; exact absurd this (by decide)

/-- Witness of C3 (amended): the text ` null` has no brace and returns the null document;
the texts `null}` and `} null {` (the closing brace before the opening brace) are
of the three classes, contain a brace, and fail. -/
theorem C3_no_object_without_braces_witness :
    appInfoFormat " null".toList = some JVal.null ∧
    appInfoFormat "null\x7d".toList = none ∧
    appInfoFormat "\x7d null \x7b".toList = none :=
  ⟨(C3_no_object_without_braces " null".toList (Or.inl (by decide))).1
      ⟨[' '], [], by decide, by decide, by decide⟩,
    (C3_no_object_without_braces "null\x7d".toList (Or.inl (by decide))).2.2
      (Or.inr (by decide)),
    (C3_no_object_without_braces "\x7d null \x7b".toList
      (Or.inr (Or.inr ⟨"\x7d null ".toList, [], by decide, by decide, by decide⟩))).2.2
      (Or.inl (by decide))⟩

/-! ## Numbers in the returned document -/

/-- The literals `1.0` and `1` denote the same `float64`, which is spelled `1`. -/
theorem floatText_one :
    floatText "1.0".toList = "1".toList ∧ floatText "1".toList = "1".toList := by
  decide

/-- The spelling is the shortest decimal of the `float64`, not the literal: eighteen digits
are rounded to the nearest `float64`, and a small number is written with an exponent. -/
theorem floatText_examples :
    floatText "123456789012345678".toList = "123456789012345680".toList ∧
      floatText "0.10".toList = "0.1".toList ∧
      floatText "-1E-7".toList = "-1e-7".toList ∧
      floatText "1e21".toList = "1e+21".toList ∧
      floatText "-0.0".toList = "-0".toList := by
  decide

end Steamcmd
